import Mathlib

/-!
Verification development for the AlgoGEARS chain-method core
(`algogears/core.py`, `algogears/chain.py`).

Numbers: the Python code computes with IEEE floats; we embed them as exact
rationals (`ℚ`).  Polar-angle keys (`math.atan2`) are embedded by their exact
order: two angle keys are compared through quadrant classes and the 2D cross
product, which is the exact order that `atan2` induces.

Points: the Python `Point` is an n-tuple of floats, but every algorithm in the
chain pipeline is planar and reads only `.x`/`.y`; we embed the 2-dimensional
case.

Sets: Python `set` fields (`nodes`, `edges`) are embedded as lists in insertion
order.  Set membership in CPython first compares hashes and then `==`; `Point`
hashes by its exact coordinate tuple while `Point.__eq__` is tolerant, and the
edge classes hash `(first, second[, weight])` tuples, so under the standard
no-spurious-collision assumption set membership and set deduplication act
exactly on coordinate-tuple (and, where hashed, weight) equality.  That exact
test is what the embedding uses for set insertion/deduplication, while every
explicit `==` in the algorithms keeps the tolerant comparison.

Mutation: the pipeline mutates edge weights in place.  The embedding threads
the graph (its edge list is the store; an edge's position in the list is its
object identity) and represents Python references to edge objects as indices
into that store.
-/

namespace AlgoGears

/-- 2D point (the planar case of `Point`, which stores a coordinate tuple). -/
structure Pt where
  x : ℚ
  y : ℚ
deriving DecidableEq, Repr

/-- `Point.__eq__`: coordinatewise `math.isclose` with `abs_tol=1e-3`, `rel_tol=0`. -/
def peq (a b : Pt) : Prop := |a.x - b.x| ≤ 1/1000 ∧ |a.y - b.y| ≤ 1/1000

instance (a b : Pt) : Decidable (peq a b) := by unfold peq; infer_instance

/-- `Point.__lt__`: lexicographic comparison of the coordinate tuples `(x, y)`. -/
def ptLt (a b : Pt) : Prop := a.x < b.x ∨ (a.x = b.x ∧ a.y < b.y)

instance (a b : Pt) : Decidable (ptLt a b) := by unfold ptLt; infer_instance

/-- The sweep key `(node.y, node.x)`, compared lexicographically (strictly). -/
def keyLt (a b : Pt) : Prop := a.y < b.y ∨ (a.y = b.y ∧ a.x < b.x)

instance (a b : Pt) : Decidable (keyLt a b) := by unfold keyLt; infer_instance

def sub (a b : Pt) : Pt := ⟨a.x - b.x, a.y - b.y⟩

/-- `Vector.cross_product` for 2D vectors. -/
def cross2 (u v : Pt) : ℚ := u.x * v.y - u.y * v.x

/-- Order class of `Point.nonnegative_polar_angle` (range `[0, 2π)`) of the
vector `d`: angle `0` (`y = 0, x ≥ 0`, including the zero vector, since
`atan2 0 0 = 0`), then `(0, π)` (`y > 0`), then `π` (`y = 0, x < 0`), then
`(π, 2π)` (`y < 0`). -/
def nnAngClass (d : Pt) : ℕ :=
  if d.y = 0 ∧ d.x ≥ 0 then 0
  else if d.y > 0 then 1
  else if d.y = 0 then 2
  else 3

/-- Exact order of `nonnegative_polar_angle d1 < nonnegative_polar_angle d2`.
Inside the open half-planes (classes 1 and 3) the angle difference lies in
`(-π, π)`, so the sign of the cross product decides the comparison. -/
def nnAngLt (d1 d2 : Pt) : Prop :=
  nnAngClass d1 < nnAngClass d2 ∨
    (nnAngClass d1 = nnAngClass d2 ∧ (nnAngClass d1 = 1 ∨ nnAngClass d1 = 3) ∧
      cross2 d1 d2 > 0)

instance (d1 d2 : Pt) : Decidable (nnAngLt d1 d2) := by unfold nnAngLt; infer_instance

/-- Order class of `Point.polar_angle` (range `(-π, π]`) of the vector `d`:
`(-π, 0)` (`y < 0`), then `0` (`y = 0, x ≥ 0`), then `(0, π)` (`y > 0`),
then `π` (`y = 0, x < 0`). -/
def pAngClass (d : Pt) : ℕ :=
  if d.y < 0 then 0
  else if d.y = 0 ∧ d.x ≥ 0 then 1
  else if d.y > 0 then 2
  else 3

/-- Exact order of `polar_angle d1 < polar_angle d2`. -/
def pAngLt (d1 d2 : Pt) : Prop :=
  pAngClass d1 < pAngClass d2 ∨
    (pAngClass d1 = pAngClass d2 ∧ (pAngClass d1 = 0 ∨ pAngClass d1 = 2) ∧
      cross2 d1 d2 > 0)

instance (d1 d2 : Pt) : Decidable (pAngLt d1 d2) := by unfold pAngLt; infer_instance

/-- The three-valued `Turn` result. -/
inductive Turn where
  | left
  | right
  | straight
deriving DecidableEq, Repr

/-- `Turn.__new__(start, intermediary, end)`:
`direction = cross(end - start, intermediary - start)`;
negative is LEFT, positive is RIGHT, zero is STRAIGHT. -/
def turnOf (start intermediary stop : Pt) : Turn :=
  let direction := cross2 (sub stop start) (sub intermediary start)
  if direction < 0 then .left else if direction > 0 then .right else .straight

/-- `PathDirection` enum. -/
inductive PathDirection where
  | left
  | right
  | prev
  | next
  | stop
deriving DecidableEq, Repr

/-! ### Python `sorted`

Python `sorted(l, key=k)` is the stable sort of `l` by `k`; the stable sort by
a total key is unique, so any stable sorting algorithm embeds it.  We use a
stable insertion sort parameterized by the strict key order `lt`: an element is
inserted after every earlier element whose key is not greater. -/

def insertStable (lt : α → α → Prop) [DecidableRel lt] (x : α) : List α → List α
  | [] => [x]
  | y :: ys => if lt y x then y :: insertStable lt x ys else x :: y :: ys

def sortStable (lt : α → α → Prop) [DecidableRel lt] (l : List α) : List α :=
  l.foldr (insertStable lt) []

theorem insertStable_perm (lt : α → α → Prop) [DecidableRel lt] (x : α) (l : List α) :
    List.Perm (insertStable lt x l) (x :: l) := by
  induction l with
  | nil => simp [insertStable]
  | cons y ys ih =>
    simp only [insertStable]
    split
    · exact ((ih.cons y).trans (List.Perm.swap x y ys))
    · exact List.Perm.refl _

theorem sortStable_perm (lt : α → α → Prop) [DecidableRel lt] (l : List α) :
    List.Perm (sortStable lt l) l := by
  induction l with
  | nil => simp [sortStable]
  | cons y ys ih =>
    simpa [sortStable] using (insertStable_perm lt y _).trans (ih.cons y)

theorem sortStable_mem (lt : α → α → Prop) [DecidableRel lt] (l : List α) (x : α) :
    x ∈ sortStable lt l ↔ x ∈ l :=
  (sortStable_perm lt l).mem_iff

theorem sortStable_length (lt : α → α → Prop) [DecidableRel lt] (l : List α) :
    (sortStable lt l).length = l.length :=
  (sortStable_perm lt l).length_eq

theorem sortStable_eq_nil_iff (lt : α → α → Prop) [DecidableRel lt] (l : List α) :
    sortStable lt l = [] ↔ l = [] := by
  constructor
  · intro h
    have := sortStable_length lt l
    rw [h] at this
    exact List.eq_nil_of_length_eq_zero this.symm
  · intro h
    subst h
    rfl

theorem insertStable_pairwise (lt : α → α → Prop) [DecidableRel lt]
    (hasymm : ∀ a b, lt a b → ¬ lt b a)
    (htrans : ∀ a b c, ¬ lt b a → ¬ lt c b → ¬ lt c a)
    (x : α) (l : List α) (hl : l.Pairwise (fun a b => ¬ lt b a)) :
    (insertStable lt x l).Pairwise (fun a b => ¬ lt b a) := by
  induction l with
  | nil => simp [insertStable]
  | cons y ys ih =>
    rcases List.pairwise_cons.mp hl with ⟨hy, hys⟩
    simp only [insertStable]
    split
    · rename_i hlt
      refine List.pairwise_cons.mpr ⟨?_, ih hys⟩
      intro z hz
      rcases List.mem_cons.mp ((insertStable_perm lt x ys).mem_iff.mp hz) with h | h
      · subst h
        exact hasymm y _ hlt
      · exact hy z h
    · rename_i hnlt
      refine List.pairwise_cons.mpr ⟨?_, hl⟩
      intro z hz
      rcases List.mem_cons.mp hz with h | h
      · subst h
        exact hnlt
      · exact htrans x y z hnlt (hy z h)

theorem sortStable_pairwise (lt : α → α → Prop) [DecidableRel lt]
    (hasymm : ∀ a b, lt a b → ¬ lt b a)
    (htrans : ∀ a b c, ¬ lt b a → ¬ lt c b → ¬ lt c a)
    (l : List α) :
    (sortStable lt l).Pairwise (fun a b => ¬ lt b a) := by
  induction l with
  | nil => simp [sortStable]
  | cons y ys ih =>
    exact insertStable_pairwise lt hasymm htrans y _ ih

/-! ### Graph entities (`core.py`)

`OrientedPlanarStraightLineGraphEdge` carries `first`, `second`, `weight` and
an optional `name`; the name takes part in no comparison and in no algorithm of
the pipeline, so the embedding omits it. -/

/-- `OrientedPlanarStraightLineGraphEdge` (weight defaults to `0`). -/
structure OEdge where
  first : Pt
  second : Pt
  weight : ℚ := 0
deriving DecidableEq, Repr

/-- `OrientedGraphEdge.__eq__`: ordered endpoint comparison, weight ignored
(endpoints compared with the tolerant `Point.__eq__`). -/
def oeq (e1 e2 : OEdge) : Prop := peq e1.first e2.first ∧ peq e1.second e2.second

instance (e1 e2 : OEdge) : Decidable (oeq e1 e2) := by unfold oeq; infer_instance

/-- `OrientedPlanarStraightLineGraph`: a `set` of nodes and a `set` of edges,
embedded as lists in insertion order.  An edge's position in `edges` is its
object identity (weight mutation happens in place at that position). -/
structure OPSLG where
  nodes : List Pt
  edges : List OEdge
deriving DecidableEq, Repr

/-- `GraphEdge.other_node` restricted to the two non-raising branches: the
callers below only apply it to edges that passed an incidence filter, so one of
the two tolerant comparisons holds and the trailing `raise ValueError` branch
is unreachable (we return `first` there to stay total). -/
def otherNode (e : OEdge) (v : Pt) : Pt :=
  if peq e.first v then e.second else if peq e.second v then e.first else e.first

/-- The `edges_of` membership test: `edge.first == node or edge.second == node`. -/
def edgesOfPred (e : OEdge) (v : Pt) : Prop := peq e.first v ∨ peq e.second v

instance (e : OEdge) (v : Pt) : Decidable (edgesOfPred e v) := by
  unfold edgesOfPred; infer_instance

/-- The inward filter of `inward_edges`: pass `edges_of`
(`first == v or second == v`) and then `edge.second == v`. -/
def inPred (v : Pt) (e : OEdge) : Bool := decide (edgesOfPred e v ∧ peq e.second v)

/-- The outward filter of `outward_edges`. -/
def outPred (v : Pt) (e : OEdge) : Bool := decide (edgesOfPred e v ∧ peq e.first v)

/-- `OrientedPlanarStraightLineGraph.inward_edges`, keeping each edge paired
with its store position: filter `edges_of` then `edge.second == node`, then
stable-sort ascending by the nonnegative polar angle of the other endpoint
seen from `node`. -/
def inwardPairs (g : OPSLG) (v : Pt) : List (ℕ × OEdge) :=
  sortStable
    (fun p q => nnAngLt (sub (otherNode p.2 v) v) (sub (otherNode q.2 v) v))
    ((g.edges.enum).filter (fun p => inPred v p.2))

/-- `OrientedPlanarStraightLineGraph.outward_edges` with store positions:
filter `edges_of` then `edge.first == node`, then stable-sort ascending by the
negated polar angle, i.e. descending by the polar angle, of the other endpoint
seen from `node`. -/
def outwardPairs (g : OPSLG) (v : Pt) : List (ℕ × OEdge) :=
  sortStable
    (fun p q => pAngLt (sub (otherNode q.2 v) v) (sub (otherNode p.2 v) v))
    ((g.edges.enum).filter (fun p => outPred v p.2))

/-- The inward edge list as edge values (what the Python method returns). -/
def inwardEdges (g : OPSLG) (v : Pt) : List OEdge := (inwardPairs g v).map (·.2)

/-- The outward edge list as edge values. -/
def outwardEdges (g : OPSLG) (v : Pt) : List OEdge := (outwardPairs g v).map (·.2)

/-- Sum of inward edge weights at `v` (order-independent form). -/
def wInSum (g : OPSLG) (v : Pt) : ℚ :=
  ((g.edges.filter (inPred v)).map (·.weight)).sum

/-- Sum of outward edge weights at `v`. -/
def wOutSum (g : OPSLG) (v : Pt) : ℚ :=
  ((g.edges.filter (outPred v)).map (·.weight)).sum

/-- `edge.weight = w` on the edge stored at position `i`. -/
def setWeight (g : OPSLG) (i : ℕ) (w : ℚ) : OPSLG :=
  { g with
    edges := g.edges.set i
      (match g.edges.get? i with
       | some e => { e with weight := w }
       | none => { first := ⟨0, 0⟩, second := ⟨0, 0⟩, weight := w }) }

/-- CPython set insertion for `Point` elements: the hash is the exact
coordinate tuple, so (absent hash collisions) a point is already present
exactly when an exactly-equal point is stored. -/
def addNodeSet (nodes : List Pt) (v : Pt) : List Pt :=
  if nodes.contains v then nodes else nodes ++ [v]

/-- CPython set insertion for oriented edges: the hash is the exact
`(first, second, weight)` tuple and `__eq__` is the tolerant ordered endpoint
comparison, so (absent hash collisions) insertion deduplicates exactly on
structural equality of `(first, second, weight)`. -/
def addEdgeSet (edges : List OEdge) (e : OEdge) : List OEdge :=
  if edges.contains e then edges else edges ++ [e]

/-- `OrientedGraph.add_edge`: insert the edge into the edge set, then insert
each endpoint into the node set when absent. -/
def oAddEdge (g : OPSLG) (e : OEdge) : OPSLG :=
  { nodes := addNodeSet (addNodeSet g.nodes e.first) e.second
    edges := addEdgeSet g.edges e }

/-! ### Undirected PSLG and its orientation -/

/-- `PlanarStraightLineGraphEdge` (undirected semantics live in the
operations, the data is the same shape). -/
structure UEdge where
  first : Pt
  second : Pt
  weight : ℚ := 0
deriving DecidableEq, Repr

/-- `PlanarStraightLineGraph`. -/
structure PSLGraph where
  nodes : List Pt
  edges : List UEdge
deriving DecidableEq, Repr

/-- `OrientedPlanarStraightLineGraph.upward_oriented_planar_straight_line_graph_edge`:
`min`/`other_node` by the `(y, x)` key.  Python `min(first, second, key)` keeps
the first argument on ties, and `other_node(lower)` tests `first == lower`
first with the tolerant equality. -/
def upwardOrientedEdge (e : UEdge) : OEdge :=
  let lower := if keyLt e.second e.first then e.second else e.first
  let upper := if peq e.first lower then e.second else e.first
  { first := lower, second := upper, weight := e.weight }

/-- `OrientedPlanarStraightLineGraph.from_planar_straight_line_graph`: the node
set is shared; the edge set comprehension inserts the upward orientation of
each edge in iteration order. -/
def fromPSLGraph (g : PSLGraph) : OPSLG :=
  { nodes := g.nodes
    edges := g.edges.foldl (fun acc e => addEdgeSet acc (upwardOrientedEdge e)) [] }

/-! ### `is_regular` and the global extremes -/

/-- Python `min(nodes, key=(y,x))`: the first element with minimal key
(`none` on an empty iterable, where Python raises `ValueError`). -/
def minNodeKey (nodes : List Pt) : Option Pt :=
  match nodes with
  | [] => none
  | v :: vs => some (vs.foldl (fun m p => if keyLt p m then p else m) v)

/-- Python `max(nodes, key=(y,x))`: the first element with maximal key. -/
def maxNodeKey (nodes : List Pt) : Option Pt :=
  match nodes with
  | [] => none
  | v :: vs => some (vs.foldl (fun m p => if keyLt m p then p else m) v)

/-- `OrientedPlanarStraightLineGraph.is_regular`; `none` when the node set is
empty (Python raises `ValueError` in `min`).  The `node is min_node` identity
tests become exact equality: distinct Python node objects of one graph hold
distinct coordinate tuples in every valid input. -/
def isRegularOpt (g : OPSLG) : Option Bool :=
  match minNodeKey g.nodes, maxNodeKey g.nodes with
  | some mn, some mx =>
    some (g.nodes.all (fun v =>
      (decide (v = mn) || !((inwardEdges g v).isEmpty)) &&
      (decide (v = mx) || !((outwardEdges g v).isEmpty))))
  | _, _ => none

/-! ### Regularization (`OrientedPlanarStraightLineGraph.regularize`) -/

/-- `outward_edges_insertion_index_in_swept_edges_by_current_node` (the
identical `inward_edges_...` variant of the top-down pass reuses this): the
first index whose edge turns LEFT at the node, or turns STRAIGHT with
`current_node < edge.first`; otherwise the length of `swept`. -/
def bracketScanIndex (v : Pt) : List OEdge → ℕ
  | [] => 0
  | e :: rest =>
    if turnOf e.first e.second v = .left ∨
        (turnOf e.first e.second v = .straight ∧ ptLt v e.first) then 0
    else 1 + bracketScanIndex v rest

/-- `outward_edges_insertion_index_in_swept_edges`: `swept.index(inward[0])`
(`list.index` compares elements with the edge `__eq__`), falling back to the
bracket scan on `IndexError`/`ValueError`. -/
def outIdxInSwept (v : Pt) (swept : List OEdge) (inward : List OEdge) : ℕ :=
  match inward with
  | [] => bracketScanIndex v swept
  | a :: _ =>
    match swept.findIdx? (fun e => decide (oeq e a)) with
    | some i => i
    | none => bracketScanIndex v swept

/-- `uppermost_lower_node`: `None` means both bracket edges are missing
(Python dereferences `None.first` and crashes).  `max(left, right, key)` keeps
the left argument on ties. -/
def uppermostLowerNode (leftE rightE : Option OEdge) : Option Pt :=
  match leftE, rightE with
  | none, none => none
  | none, some r => some r.first
  | some l, none => some l.first
  | some l, some r => some (if keyLt l.first r.first then r.first else l.first)

/-- `lowermost_upper_node`: `min(left, right, key)` keeps the left argument on
ties. -/
def lowermostUpperNode (leftE rightE : Option OEdge) : Option Pt :=
  match leftE, rightE with
  | none, none => none
  | none, some r => some r.second
  | some l, none => some l.second
  | some l, some r => some (if keyLt r.second l.second then r.second else l.second)

/-- `add_regularizing_inward_edge` (with the crash on an empty bracket made
explicit as `none`). -/
def addRegularizingInwardEdge (g : OPSLG) (v : Pt) (swept : List OEdge) (idx : ℕ) :
    Option OPSLG :=
  let leftE := if idx ≠ 0 then swept.get? (idx - 1) else none
  let rightE := if idx ≠ swept.length then swept.get? idx else none
  match uppermostLowerNode leftE rightE with
  | none => none
  | some u => some (oAddEdge g { first := u, second := v })

/-- `add_regularizing_outward_edge`. -/
def addRegularizingOutwardEdge (g : OPSLG) (v : Pt) (swept : List OEdge) (idx : ℕ) :
    Option OPSLG :=
  let leftE := if idx ≠ 0 then swept.get? (idx - 1) else none
  let rightE := if idx ≠ swept.length then swept.get? idx else none
  match lowermostUpperNode leftE rightE with
  | none => none
  | some u => some (oAddEdge g { first := v, second := u })

/-- `delete_edges_from_swept_edges` followed by `insert_edges_to_swept_edges`:
`del swept[idx : idx+delCount]` then `swept[idx:idx] = ins`. -/
def spliceSwept (swept : List OEdge) (idx delCount : ℕ) (ins : List OEdge) :
    List OEdge :=
  swept.take idx ++ ins ++ swept.drop (idx + delCount)

/-- State of a regularization sweep: the graph and the `swept_edges` list. -/
structure SweepState where
  g : OPSLG
  swept : List OEdge
deriving Repr

/-- One iteration of the `regularize_bottom_to_top` loop at node `v` with loop
index `i`. -/
def regularizeBUStep (st : SweepState) (i : ℕ) (v : Pt) : Option SweepState :=
  let inw := inwardEdges st.g v
  let outw := outwardEdges st.g v
  let idx := outIdxInSwept v st.swept inw
  match (if i ≠ 0 ∧ inw = [] then addRegularizingInwardEdge st.g v st.swept idx
         else some st.g) with
  | none => none
  | some g2 => some ⟨g2, spliceSwept st.swept idx inw.length outw⟩

def regularizeBUGo (st : SweepState) (i : ℕ) : List Pt → Option SweepState
  | [] => some st
  | v :: vs =>
    match regularizeBUStep st i v with
    | none => none
    | some st2 => regularizeBUGo st2 (i + 1) vs

/-- `regularize_bottom_to_top`. -/
def regularizeBottomToTop (g : OPSLG) (nodes : List Pt) : Option OPSLG :=
  (regularizeBUGo ⟨g, []⟩ 0 nodes).map (·.g)

/-- One iteration of the `regularize_top_to_bottom` loop at node `v`: the
insertion index is located from `outward_edges[0]`, the regularizing edge goes
out of `v`, the local outward edges are deleted and the local inward edges
inserted. -/
def regularizeTDStep (st : SweepState) (i : ℕ) (v : Pt) : Option SweepState :=
  let inw := inwardEdges st.g v
  let outw := outwardEdges st.g v
  let idx := outIdxInSwept v st.swept outw
  match (if i ≠ 0 ∧ outw = [] then addRegularizingOutwardEdge st.g v st.swept idx
         else some st.g) with
  | none => none
  | some g2 => some ⟨g2, spliceSwept st.swept idx outw.length inw⟩

def regularizeTDGo (st : SweepState) (i : ℕ) : List Pt → Option SweepState
  | [] => some st
  | v :: vs =>
    match regularizeTDStep st i v with
    | none => none
    | some st2 => regularizeTDGo st2 (i + 1) vs

/-- `regularize_top_to_bottom`. -/
def regularizeTopToBottom (g : OPSLG) (nodes : List Pt) : Option OPSLG :=
  (regularizeTDGo ⟨g, []⟩ 0 nodes).map (·.g)

/-- `OrientedPlanarStraightLineGraph.regularize`: bottom-up over the
`(y, x)`-sorted nodes, then top-down over the reversed list. -/
def regularize (g : OPSLG) : Option OPSLG :=
  let ns := sortStable keyLt g.nodes
  match regularizeBottomToTop g ns with
  | none => none
  | some g2 => regularizeTopToBottom g2 ns.reverse

/-! ### Weight balancing (`chain.py`) -/

/-- One iteration of the `balance_bottom_to_top` loop:
if the node has outward edges and `weight_in > weight_out`, add the deficit to
`outward_edges[0].weight` (an in-place mutation of that edge object, i.e. of
the store position heading the polar-sorted outward list). -/
def balanceBUStep (g : OPSLG) (v : Pt) : OPSLG :=
  let inP := inwardPairs g v
  let outP := outwardPairs g v
  let weightIn := (inP.map (·.2.weight)).sum
  let weightOut := (outP.map (·.2.weight)).sum
  match outP with
  | [] => g
  | (i, e) :: _ =>
    if weightIn > weightOut then setWeight g i (e.weight + (weightIn - weightOut))
    else g

/-- `balance_bottom_to_top`. -/
def balance_bottom_to_top (g : OPSLG) (nodes : List Pt) : OPSLG :=
  nodes.foldl balanceBUStep g

/-- One iteration of the `balance_top_to_bottom` loop:
if the node has inward edges and `weight_out > weight_in`, add the deficit to
`inward_edges[0].weight`. -/
def balanceTDStep (g : OPSLG) (v : Pt) : OPSLG :=
  let inP := inwardPairs g v
  let outP := outwardPairs g v
  let weightIn := (inP.map (·.2.weight)).sum
  let weightOut := (outP.map (·.2.weight)).sum
  match inP with
  | [] => g
  | (i, e) :: _ =>
    if weightOut > weightIn then setWeight g i (e.weight + (weightOut - weightIn))
    else g

/-- `balance_top_to_bottom`. -/
def balance_top_to_bottom (g : OPSLG) (nodes : List Pt) : OPSLG :=
  nodes.foldl balanceTDStep g

/-! ### Chain extraction (`chain.py`)

Chains hold references to edge objects; a reference is embedded as the edge's
position in the graph's edge store, so a chain is a `List ℕ`. -/

/-- `leftmost_available_outward_edge`: the first element of the polar-sorted
outward list with positive weight, with its store position. -/
def leftmost_available_outward_edge (v : Pt) (g : OPSLG) : Option (ℕ × OEdge) :=
  (outwardPairs g v).find? (fun p => decide (p.2.weight > 0))

/-- The current weight stored at position `i`. -/
def weightAt (g : OPSLG) (i : ℕ) : ℚ :=
  match g.edges.get? i with
  | some e => e.weight
  | none => 0

/-- The inner `while node is not nodes[-1]` loop of
`construct_monotone_chains`: repeatedly take the leftmost available outward
edge, record it, decrement its weight and advance to its second endpoint.  The
`is not` identity test becomes exact equality (see `isRegularOpt`).  Python
has no fuel: a missing available edge raises (`None.weight`), embedded as
`none`, and exhausted fuel stands for non-termination, also `none`. -/
def chainFollow (g : OPSLG) (mx : Pt) (v : Pt) : ℕ → Option (List ℕ × OPSLG)
  | 0 => if v = mx then some ([], g) else none
  | fuel + 1 =>
    if v = mx then some ([], g)
    else
      match leftmost_available_outward_edge v g with
      | none => none
      | some (i, e) =>
        match chainFollow (setWeight g i (e.weight - 1)) mx e.second fuel with
        | none => none
        | some (mids, gf) => some (i :: mids, gf)

/-- The outer `while` loop, whose walrus condition takes the leftmost
available starting edge until none is left: start a chain
at the minimum node's leftmost available outward edge, follow it to the
maximum, then decrement the starting edge's weight (read back from the store,
as Python reads the mutated object). -/
def chainsExtract (g : OPSLG) (mn mx : Pt) (innerFuel : ℕ) :
    ℕ → Option (List (List ℕ) × OPSLG)
  | 0 => none
  | fuel + 1 =>
    match leftmost_available_outward_edge mn g with
    | none => some ([], g)
    | some (i0, e0) =>
      match chainFollow g mx e0.second innerFuel with
      | none => none
      | some (mids, g1) =>
        let g2 := setWeight g1 i0 (weightAt g1 i0 - 1)
        match chainsExtract g2 mn mx innerFuel fuel with
        | none => none
        | some (rest, gf) => some ((i0 :: mids) :: rest, gf)

/-- Fuel that suffices for the outer loop when all weights are naturals: the
total weight plus one. -/
def outerFuel (g : OPSLG) : ℕ := (g.edges.map (fun e => e.weight.num.toNat)).sum + 1

/-- `construct_monotone_chains g nodes` (`nodes` is the `(y,x)`-ascending node
list; `nodes[0]` on an empty list raises, embedded as `none`). -/
def construct_monotone_chains (g : OPSLG) (nodes : List Pt) :
    Option (List (List ℕ) × OPSLG) :=
  match nodes, nodes.getLast? with
  | v :: _, some mx => chainsExtract g v mx nodes.length (outerFuel g)
  | _, _ => none

/-! ### The chains search tree -/

/-- `ChainsThreadedBinTreeNode` (with Python `None` folded in as the `nil`
constructor): data is a chain (list of edge references), `idx` is the node's
inorder position (`_from_iterable` builds the balanced tree by midpoint
splitting of the chain list, so a node's inorder position is its midpoint
index; the source materializes the same number as `inorder_index`).
`prevIdx`/`nextIdx` are the `prev`/`next` threads, identified by the inorder
position of the referenced node. -/
inductive TTree where
  | nil
  | node (data : List ℕ) (idx : ℕ) (left right : TTree) (height : ℕ)
      (prevIdx nextIdx : Option ℕ)
deriving DecidableEq, Repr

/-- `child.height if child else 0` (a `nil` contributes height 0). -/
def TTree.heightOr0 : TTree → ℕ
  | .nil => 0
  | .node _ _ _ _ h _ _ => h

/-- `BinTreeNode.is_leaf` (meaningful on non-`nil` trees). -/
def TTree.isLeaf : TTree → Bool
  | .nil => false
  | .node _ _ l r _ _ _ => (l matches .nil) && (r matches .nil)

/-- `BinTree._from_iterable` over `chains[l..r]` (global indices), with
`set_height`, fused with the circular threading pass of
`ThreadedBinTree.from_iterable`: `node.prev` is the left child when present,
else the inorder predecessor `nodes[i-1]` (circularly), and symmetrically for
`node.next`; a child reference is identified by that child's inorder index. -/
def buildTNodeF (chains : List (List ℕ)) (n : ℕ) : ℕ → ℕ → ℕ → TTree
  | 0, _, _ => .nil
  | fuel + 1, l, r =>
    if l > r then .nil
    else
      let mid := (l + r) / 2
      let leftC := if mid = l then .nil else buildTNodeF chains n fuel l (mid - 1)
      let rightC := if mid = r then .nil else buildTNodeF chains n fuel (mid + 1) r
      let h := if (leftC matches TTree.nil) && (rightC matches TTree.nil) then 0
               else max leftC.heightOr0 rightC.heightOr0 + 1
      let prevI := match leftC with
        | .node _ i _ _ _ _ _ => some i
        | .nil => some ((mid + n - 1) % n)
      let nextI := match rightC with
        | .node _ i _ _ _ _ _ => some i
        | .nil => some ((mid + 1) % n)
      .node (chains.getD mid []) mid leftC rightC h prevI nextI

/-- The midpoint recursion with its structural fuel instantiated: the interval
width bounds the recursion depth, and each recursive call shrinks the
interval, so `r + 1 - l` units of fuel always suffice. -/
def buildTNode (chains : List (List ℕ)) (n : ℕ) (l r : ℕ) : TTree :=
  buildTNodeF chains n (r + 1 - l) l r

/-- `ChainsThreadedBinTree.from_iterable` (default `circular=True`): the root,
`nil` for an empty chain list. -/
def chainsTreeFromIterable (chains : List (List ℕ)) : TTree :=
  match chains with
  | [] => .nil
  | _ => buildTNode chains chains.length 0 (chains.length - 1)

/-- Dereference a chain's edge references in the store.  Every reference
produced by the pipeline is a live position, so this is plain lookup. -/
def derefChain (g : OPSLG) (c : List ℕ) : List OEdge :=
  c.filterMap (fun i => g.edges.get? i)

/-- `ChainsThreadedBinTreeNode.turn`: scan the chain for the bracketing edge;
falling off the loop returns Python `None`, embedded as `none`. -/
def nodeTurn : List OEdge → Pt → Option Turn
  | [], _ => none
  | e :: rest, p =>
    if e.first.y = p.y ∧ p.y = e.second.y then
      some (if p.x < e.first.x then .left
            else if p.x > e.second.x then .right
            else .straight)
    else if e.first.y ≤ p.y ∧ p.y ≤ e.second.y then
      some (turnOf e.first e.second p)
    else nodeTurn rest p

/-- `chain_node is monotone_chains[0]` (and the symmetric `[-1]` test): an
`is` identity comparison between a `ChainsThreadedBinTreeNode` and a Python
`list` object.  Two objects of different types are never identical, so the
test is constantly false and the `(None, chain)` / `(chain, None)` returns
guarded by it are unreachable. -/
def nodeIsChainList (_n : TTree) (_c : Option (List ℕ)) : Bool := false

/-- The leaf half of the `search` dispatch, factored over the already-computed
turn: LEFT/RIGHT return the `prev`/`next` thread's chain (the node at inorder
position `i` holds `chains[i]`; a missing thread or index is a crash),
anything else — STRAIGHT or Python `None` — returns the chain twice. -/
def searchLeaf (chains : List (List ℕ)) (d : List ℕ) (prevI nextI : Option ℕ)
    (path : List PathDirection) :
    Option Turn → Option (List PathDirection × (Option (List ℕ) × Option (List ℕ)))
  | some .left =>
    match prevI with
    | none => none
    | some i =>
      match chains.get? i with
      | none => none
      | some c => some (path ++ [.prev], (some c, some d))
  | some .right =>
    match nextI with
    | none => none
    | some i =>
      match chains.get? i with
      | none => none
      | some c => some (path ++ [.next], (some d, some c))
  | _ => some (path, (some d, some d))

/-- The descent loop of `search`.  At an internal node: STRAIGHT returns the
chain twice; LEFT (after the dead leftmost test) records `left` and descends
(a missing child makes the next `chain_node.is_leaf` dereference `None`,
i.e. crash, embedded as the `nil` case); RIGHT and the `None` turn share the
trailing `else`. -/
def searchGo (g : OPSLG) (chains : List (List ℕ)) (p : Pt) :
    TTree → List PathDirection →
    Option (List PathDirection × (Option (List ℕ) × Option (List ℕ)))
  | .nil, _ => none
  | .node d idx leftC rightC h prevI nextI, path =>
    if (TTree.node d idx leftC rightC h prevI nextI).isLeaf then
      searchLeaf chains d prevI nextI path (nodeTurn (derefChain g d) p)
    else
      match nodeTurn (derefChain g d) p with
      | some .straight => some (path, (some d, some d))
      | some .left =>
        if nodeIsChainList (TTree.node d idx leftC rightC h prevI nextI)
            (chains.get? 0) then
          some (path, (none, some d))
        else searchGo g chains p leftC (path ++ [.left])
      | _ =>
        if nodeIsChainList (TTree.node d idx leftC rightC h prevI nextI)
            (chains.get? (chains.length - 1)) then
          some (path, (some d, none))
        else searchGo g chains p rightC (path ++ [.right])

/-- `search`: start at the root (a `None` root crashes on `.is_leaf`,
which is the `nil` case of the descent). -/
def search (g : OPSLG) (p : Pt) (root : TTree) (chains : List (List ℕ)) :
    Option (List PathDirection × (Option (List ℕ) × Option (List ℕ))) :=
  searchGo g chains p root []

/-! ### The `chain` generator

Each `yield` of `chain(pslg, point)` is one transcript entry.  An entry pairs
the yielded snapshot with the state of the live oriented graph (the edge
store) at the moment of the yield: snapshots of kind `graph` are the
`deepcopy` yields (values), while `edgeLists`, `chainsSnap`, `treeSnap` and
`result` carry edge references (store positions) exactly as the Python objects
do.  A pipeline stage that raises truncates the transcript at the entries
already yielded, which is what a consumer of the generator observes. -/

inductive Snapshot where
  | nodesSorted (ps : List Pt)
  | graph (g : OPSLG)
  | edgeLists (ls : List (List ℕ))
  | chainsSnap (cs : List (List ℕ))
  | treeSnap (t : TTree)
  | result (r : List PathDirection × (Option (List ℕ) × Option (List ℕ)))
deriving DecidableEq, Repr

/-- `for edge in edges: edge.weight = 1`. -/
def withUnitWeights (g : OPSLG) : OPSLG :=
  { g with edges := g.edges.map (fun e => { e with weight := 1 }) }

def emptyOPSLG : OPSLG := ⟨[], []⟩

/-- The transcript of `chain(planar_straight_line_graph, point)`. -/
def chainTranscript (g : PSLGraph) (p : Pt) : List (Snapshot × OPSLG) :=
  let ns := sortStable keyLt g.nodes
  let og := fromPSLGraph g
  let inw := ns.map (fun v => (inwardPairs og v).map (·.1))
  let outw := ns.map (fun v => (outwardPairs og v).map (·.1))
  match isRegularOpt og with
  | none =>
    [(.nodesSorted ns, emptyOPSLG), (.graph og, og),
     (.edgeLists inw, og), (.edgeLists outw, og)]
  | some reg =>
    match (if reg then some og else regularize og) with
    | none =>
      [(.nodesSorted ns, emptyOPSLG), (.graph og, og),
       (.edgeLists inw, og), (.edgeLists outw, og)]
    | some og5 =>
      let og6 := withUnitWeights og5
      let ns2 := sortStable keyLt og6.nodes
      let og7 := balance_bottom_to_top og6 ns2
      let og8 := balance_top_to_bottom og7 ns2.reverse
      match construct_monotone_chains og8 ns2 with
      | none =>
        [(.nodesSorted ns, emptyOPSLG), (.graph og, og),
         (.edgeLists inw, og), (.edgeLists outw, og),
         (.graph og5, og5), (.graph og6, og6), (.graph og7, og7), (.graph og8, og8)]
      | some (cs, og9) =>
        let tr := chainsTreeFromIterable cs
        match search og9 p tr cs with
        | none =>
          [(.nodesSorted ns, emptyOPSLG), (.graph og, og),
           (.edgeLists inw, og), (.edgeLists outw, og),
           (.graph og5, og5), (.graph og6, og6), (.graph og7, og7), (.graph og8, og8),
           (.chainsSnap cs, og9), (.treeSnap tr, og9)]
        | some res =>
          [(.nodesSorted ns, emptyOPSLG), (.graph og, og),
           (.edgeLists inw, og), (.edgeLists outw, og),
           (.graph og5, og5), (.graph og6, og6), (.graph og7, og7), (.graph og8, og8),
           (.chainsSnap cs, og9), (.treeSnap tr, og9), (.result res, og9)]

/-! ### Observations

What a consumer sees when it inspects a yielded snapshot at a later time:
value snapshots are time-independent, reference-bearing snapshots read the
edge store of the observation time. -/

/-- A tree with its chain data dereferenced. -/
inductive ObsTree where
  | nil
  | node (data : List (Option OEdge)) (idx : ℕ) (left right : ObsTree)
      (height : ℕ) (prevIdx nextIdx : Option ℕ)
deriving DecidableEq, Repr

def derefChainO (g : OPSLG) (c : List ℕ) : List (Option OEdge) :=
  c.map (fun i => g.edges.get? i)

def obsTree (g : OPSLG) : TTree → ObsTree
  | .nil => .nil
  | .node d i l r h pI nI => .node (derefChainO g d) i (obsTree g l) (obsTree g r) h pI nI

inductive Obs where
  | nodesSorted (ps : List Pt)
  | graph (gv : OPSLG)
  | edgeLists (ls : List (List (Option OEdge)))
  | chainsSnap (cs : List (List (Option OEdge)))
  | treeSnap (t : ObsTree)
  | result (path : List PathDirection)
      (pair : Option (List (Option OEdge)) × Option (List (Option OEdge)))
deriving DecidableEq, Repr

/-- Observe snapshot `s` while the store is in state `g`. -/
def obs (s : Snapshot) (g : OPSLG) : Obs :=
  match s with
  | .nodesSorted ps => .nodesSorted ps
  | .graph gv => .graph gv
  | .edgeLists ls => .edgeLists (ls.map (derefChainO g))
  | .chainsSnap cs => .chainsSnap (cs.map (derefChainO g))
  | .treeSnap t => .treeSnap (obsTree g t)
  | .result (path, pair) =>
    .result path (pair.1.map (derefChainO g), pair.2.map (derefChainO g))

/-! ### Concrete inputs: the canonical Preparata–Shamos graph and the
single-edge graph -/

/-- The 13 nodes of the reference test, in the test's order (already
`(y, x)`-sorted). -/
def psNodes : List Pt :=
  [⟨1, 1⟩, ⟨7, 1⟩, ⟨16, 1⟩, ⟨4, 2⟩, ⟨13, 3⟩, ⟨5, 4⟩, ⟨4, 6⟩, ⟨18, 7⟩, ⟨15, 8⟩,
   ⟨10, 9⟩, ⟨1, 10⟩, ⟨14, 11⟩, ⟨7, 12⟩]

/-- The undirected edge between nodes `i` and `j` of `psNodes`. -/
def psE (i j : ℕ) : UEdge :=
  { first := psNodes.getD i ⟨0, 0⟩, second := psNodes.getD j ⟨0, 0⟩ }

/-- Edges `e1 .. e16` of the reference test. -/
def psEdges : List UEdge :=
  [psE 0 1, psE 1 4, psE 2 4, psE 5 6, psE 2 7, psE 3 8, psE 1 8, psE 5 9,
   psE 8 9, psE 0 10, psE 3 10, psE 6 10, psE 8 11, psE 7 11, psE 6 12, psE 11 12]

def psGraph : PSLGraph := ⟨psNodes, psEdges⟩

def dfltEntry : Snapshot × OPSLG := (.nodesSorted [], emptyOPSLG)

def psTranscript : List (Snapshot × OPSLG) := chainTranscript psGraph ⟨16, 6⟩

/-- The chain list yielded by the ninth snapshot of the canonical run. -/
def psChains : List (List ℕ) :=
  match (psTranscript.getD 8 dfltEntry).1 with
  | .chainsSnap cs => cs
  | _ => []

set_option maxRecDepth 4000000 in
/-- C1.  For the canonical Preparata–Shamos graph and query point `(16, 6)`,
the final snapshot of `chain(pslg, point)` is the search path
`[right, left, right, next]` paired with the bracketing pair
`(chains[6], chains[7])` of the extracted left-to-right chain list. -/
theorem canonical_final_snapshot :
    psChains.length = 10 ∧
    (psTranscript.getD 10 dfltEntry).1 =
      .result ([.right, .left, .right, .next], (psChains.get? 6, psChains.get? 7)) := by
  with_unfolding_all decide

/-- The PSLG consisting of the single edge from `(0,0)` to `(0,1)`. -/
def singleEdgePSLG : PSLGraph :=
  ⟨[⟨0, 0⟩, ⟨0, 1⟩], [{ first := ⟨0, 0⟩, second := ⟨0, 1⟩ }]⟩

/-- The property the spec claims of the x<0 query: the result pair has `None`
on the left. -/
def resultPairLeftNone (s : Snapshot) : Prop :=
  ∃ r, s = Snapshot.result r ∧ r.2.1 = none

/-- C5 counterexample.  For the single-edge PSLG and the query `(-1, 1/2)`
(so `x < 0` at `y = 1/2`), the final snapshot is
`([prev], (chain, chain))`, not `(None, chain)`: the leftmost-chain guard in
`search` compares a tree node to a list with `is` (constantly false), and the
one-chain tree's root is a leaf whose circular `prev` thread is itself. -/
theorem single_edge_left_query_counterexample :
    ((chainTranscript singleEdgePSLG ⟨-1, 1/2⟩).getD 10 dfltEntry).1 =
      .result ([.prev], (some [0], some [0])) ∧
    ¬ resultPairLeftNone ((chainTranscript singleEdgePSLG ⟨-1, 1/2⟩).getD 10 dfltEntry).1 := by
  have h : ((chainTranscript singleEdgePSLG ⟨-1, 1/2⟩).getD 10 dfltEntry).1 =
      .result ([.prev], (some [0], some [0])) := by with_unfolding_all decide
  refine ⟨h, ?_⟩
  rintro ⟨r, hr, h1⟩
  rw [h] at hr
  injection hr with hr2
  rw [← hr2] at h1
  simp at h1

/-- C5 amended.  The single-edge pipeline extracts exactly one chain equal to
`[the edge]` (reference `[0]`), and each query at `y = 1/2` returns the pair
`(chain, chain)`: with path `[prev]` for `x < 0`, path `[next]` for `x > 0`,
and the empty path for `x = 0`. -/
theorem single_edge_queries :
    ((chainTranscript singleEdgePSLG ⟨0, 1/2⟩).getD 8 dfltEntry).1 = .chainsSnap [[0]] ∧
    ((chainTranscript singleEdgePSLG ⟨-1, 1/2⟩).getD 10 dfltEntry).1 =
      .result ([.prev], (some [0], some [0])) ∧
    ((chainTranscript singleEdgePSLG ⟨1, 1/2⟩).getD 10 dfltEntry).1 =
      .result ([.next], (some [0], some [0])) ∧
    ((chainTranscript singleEdgePSLG ⟨0, 1/2⟩).getD 10 dfltEntry).1 =
      .result ([], (some [0], some [0])) := by
  with_unfolding_all decide

/-- C6 counterexample.  The generator performs 11 `yield`s on an input whose
pipeline completes (the tree and the search result are separate yields), so
the transcript of the single-edge graph has 11 snapshots, not 10. -/
theorem transcript_length_counterexample :
    (chainTranscript singleEdgePSLG ⟨0, 1/2⟩).length = 11 ∧
    (chainTranscript singleEdgePSLG ⟨0, 1/2⟩).length ≠ 10 := by
  with_unfolding_all decide

/-- The constructor tag of a snapshot. -/
def snapTag : Snapshot → ℕ
  | .nodesSorted _ => 0
  | .graph _ => 1
  | .edgeLists _ => 2
  | .chainsSnap _ => 3
  | .treeSnap _ => 4
  | .result _ => 5

/-- C6 amended.  For every PSLG input and query point, the transcript of
`chain` is a prefix of the fixed 11-item order: y-sorted nodes; oriented
graph; inward edge lists; outward edge lists; regularized graph; unit-weighted
graph; bottom-up-balanced graph; top-down-balanced graph; extracted chains;
chains search tree; search result.  (A raising stage truncates the transcript;
on a completing input all 11 items appear, cf. the concrete runs.) -/
theorem transcript_order (g : PSLGraph) (p : Pt) :
    (chainTranscript g p).map (fun e => snapTag e.1) <+:
      [0, 1, 2, 2, 1, 1, 1, 1, 3, 4, 5] := by
  unfold chainTranscript
  dsimp only
  split
  · exact ⟨[1, 1, 1, 1, 3, 4, 5], rfl⟩
  · split
    · exact ⟨[1, 1, 1, 1, 3, 4, 5], rfl⟩
    · split
      · exact ⟨[3, 4, 5], rfl⟩
      · split
        · exact ⟨[5], rfl⟩
        · exact ⟨[], rfl⟩

/-- C7 counterexample.  The inward-edge-list snapshot (transcript index 2) of
the single-edge run aliases the live edge objects: observed at the state of
the unit-weight yield (index 5) its edge carries weight 1, while at its own
yield the weight was 0 — a later pipeline stage mutated the contents of an
earlier-yielded snapshot. -/
theorem snapshot_alias_counterexample :
    obs ((chainTranscript singleEdgePSLG ⟨0, 1/2⟩).getD 2 dfltEntry).1
        ((chainTranscript singleEdgePSLG ⟨0, 1/2⟩).getD 5 dfltEntry).2 ≠
    obs ((chainTranscript singleEdgePSLG ⟨0, 1/2⟩).getD 2 dfltEntry).1
        ((chainTranscript singleEdgePSLG ⟨0, 1/2⟩).getD 2 dfltEntry).2 := by
  with_unfolding_all decide

/-- C7 amended.  Every snapshot except the per-node inward and outward edge
lists is decoupled from later mutation: for any two transcript entries in
yield order, if the earlier one is not an `edgeLists` snapshot, observing it
at the later entry's store state gives the same contents as at its own yield.
(The graph snapshots are deep copies; the chains, tree and result snapshots
are yielded after the last weight mutation.) -/
theorem snapshot_decoupled (g : PSLGraph) (p : Pt) :
    (chainTranscript g p).Pairwise
      (fun e1 e2 => (∀ ls, e1.1 ≠ Snapshot.edgeLists ls) →
        obs e1.1 e2.2 = obs e1.1 e1.2) := by
  unfold chainTranscript
  dsimp only
  split
  · refine List.pairwise_cons.mpr ⟨fun _ _ _ => rfl, ?_⟩
    refine List.pairwise_cons.mpr ⟨fun _ _ _ => rfl, ?_⟩
    refine List.pairwise_cons.mpr ⟨fun _ _ h => absurd rfl (h _), ?_⟩
    exact List.pairwise_singleton _ _
  · split
    · refine List.pairwise_cons.mpr ⟨fun _ _ _ => rfl, ?_⟩
      refine List.pairwise_cons.mpr ⟨fun _ _ _ => rfl, ?_⟩
      refine List.pairwise_cons.mpr ⟨fun _ _ h => absurd rfl (h _), ?_⟩
      exact List.pairwise_singleton _ _
    · split
      · refine List.pairwise_cons.mpr ⟨fun _ _ _ => rfl, ?_⟩
        refine List.pairwise_cons.mpr ⟨fun _ _ _ => rfl, ?_⟩
        refine List.pairwise_cons.mpr ⟨fun _ _ h => absurd rfl (h _), ?_⟩
        refine List.pairwise_cons.mpr ⟨fun _ _ h => absurd rfl (h _), ?_⟩
        refine List.pairwise_cons.mpr ⟨fun _ _ _ => rfl, ?_⟩
        refine List.pairwise_cons.mpr ⟨fun _ _ _ => rfl, ?_⟩
        refine List.pairwise_cons.mpr ⟨fun _ _ _ => rfl, ?_⟩
        exact List.pairwise_singleton _ _
      · split
        · refine List.pairwise_cons.mpr ⟨fun _ _ _ => rfl, ?_⟩
          refine List.pairwise_cons.mpr ⟨fun _ _ _ => rfl, ?_⟩
          refine List.pairwise_cons.mpr ⟨fun _ _ h => absurd rfl (h _), ?_⟩
          refine List.pairwise_cons.mpr ⟨fun _ _ h => absurd rfl (h _), ?_⟩
          refine List.pairwise_cons.mpr ⟨fun _ _ _ => rfl, ?_⟩
          refine List.pairwise_cons.mpr ⟨fun _ _ _ => rfl, ?_⟩
          refine List.pairwise_cons.mpr ⟨fun _ _ _ => rfl, ?_⟩
          refine List.pairwise_cons.mpr ⟨fun _ _ _ => rfl, ?_⟩
          refine List.pairwise_cons.mpr ⟨?_, ?_⟩
          · intro e2 he2 _
            rcases List.mem_cons.mp he2 with h | h
            · subst h; rfl
            · exact absurd h (List.not_mem_nil _)
          exact List.pairwise_singleton _ _
        · refine List.pairwise_cons.mpr ⟨fun _ _ _ => rfl, ?_⟩
          refine List.pairwise_cons.mpr ⟨fun _ _ _ => rfl, ?_⟩
          refine List.pairwise_cons.mpr ⟨fun _ _ h => absurd rfl (h _), ?_⟩
          refine List.pairwise_cons.mpr ⟨fun _ _ h => absurd rfl (h _), ?_⟩
          refine List.pairwise_cons.mpr ⟨fun _ _ _ => rfl, ?_⟩
          refine List.pairwise_cons.mpr ⟨fun _ _ _ => rfl, ?_⟩
          refine List.pairwise_cons.mpr ⟨fun _ _ _ => rfl, ?_⟩
          refine List.pairwise_cons.mpr ⟨fun _ _ _ => rfl, ?_⟩
          refine List.pairwise_cons.mpr ⟨?_, ?_⟩
          · intro e2 he2 _
            rcases List.mem_cons.mp he2 with h | h
            · subst h; rfl
            · rcases List.mem_cons.mp h with h2 | h2
              · subst h2; rfl
              · exact absurd h2 (List.not_mem_nil _)
          refine List.pairwise_cons.mpr ⟨?_, ?_⟩
          · intro e2 he2 _
            rcases List.mem_cons.mp he2 with h | h
            · subst h; rfl
            · exact absurd h (List.not_mem_nil _)
          exact List.pairwise_singleton _ _

/-! ### The generic undirected `Graph` (`core.py`, C9)

`Graph` nodes are arbitrary Python objects compared with `==`; we embed them
as a type with decidable (exact) equality. -/

structure GrEdge (α : Type) where
  first : α
  second : α
  weight : ℚ := 0
deriving DecidableEq, Repr

/-- `GraphEdge.reversed`: endpoints swapped, weight kept (the name is
dropped, and names are not modelled). -/
def GrEdge.reversed (e : GrEdge α) : GrEdge α := ⟨e.second, e.first, e.weight⟩

/-- `GraphEdge.__eq__`: unordered endpoint equality; the weight is ignored. -/
def gEq [DecidableEq α] (e1 e2 : GrEdge α) : Prop :=
  (e1.first = e2.first ∧ e1.second = e2.second) ∨
  (e1.first = e2.second ∧ e1.second = e2.first)

instance [DecidableEq α] (e1 e2 : GrEdge α) : Decidable (gEq e1 e2) := by
  unfold gEq; infer_instance

/-- CPython set membership for undirected edges.  `GraphEdge.__hash__` is
`hash((first, second)) + hash((second, first)) + hash(weight)`, so (absent
spurious collisions) two edges hash alike exactly when their unordered
endpoint pairs and their weights agree; membership additionally applies
`__eq__`, which the hash condition already implies here. -/
def gMem [DecidableEq α] (edges : List (GrEdge α)) (e : GrEdge α) : Prop :=
  ∃ e2 ∈ edges, gEq e2 e ∧ e2.weight = e.weight

instance [DecidableEq α] (edges : List (GrEdge α)) (e : GrEdge α) :
    Decidable (gMem edges e) := by unfold gMem; infer_instance

structure UGraph (α : Type) where
  nodes : List α
  edges : List (GrEdge α)
deriving DecidableEq, Repr

/-- Python `set.add` for nodes. -/
def gAddNode [DecidableEq α] (nodes : List α) (v : α) : List α :=
  if v ∈ nodes then nodes else nodes ++ [v]

/-- `Graph.add_edge`: when `edge.reversed not in self.edges`, add the edge to
the edge set and both endpoints to the node set; otherwise do nothing. -/
def gAddEdge [DecidableEq α] (g : UGraph α) (e : GrEdge α) : UGraph α :=
  if gMem g.edges e.reversed then g
  else
    { nodes := gAddNode (gAddNode g.nodes e.first) e.second
      edges := if gMem g.edges e then g.edges else g.edges ++ [e] }

/-- C9 counterexample.  In the graph over `ℤ` with nodes `1, 2` and the single
edge `(1, 2)` of weight `0`, the edge `e = (2, 1)` of weight `5` has its
reverse present under the weight-ignoring undirected equality, yet
`add_edge e` inserts it (the membership test hashes the weight), growing
`edges` from one to two elements: not a no-op. -/
theorem add_edge_reverse_counterexample :
    (∃ e2 ∈ (⟨[1, 2], [⟨1, 2, 0⟩]⟩ : UGraph ℤ).edges,
      gEq e2 (GrEdge.reversed ⟨2, 1, 5⟩)) ∧
    (gAddEdge (⟨[1, 2], [⟨1, 2, 0⟩]⟩ : UGraph ℤ) ⟨2, 1, 5⟩).edges.length = 2 ∧
    (⟨[1, 2], [⟨1, 2, 0⟩]⟩ : UGraph ℤ).edges.length = 1 := by
  refine ⟨⟨⟨1, 2, 0⟩, by simp, Or.inl ⟨rfl, rfl⟩⟩, ?_, rfl⟩
  with_unfolding_all decide

/-- C9 amended.  `add_edge e` is a no-op — nodes and edges both unchanged —
whenever the reverse of `e` is present judged by the undirected edge equality
*together with* equal weight (the hash includes the weight, so set membership
requires it). -/
theorem add_edge_reverse_noop {α : Type} [DecidableEq α] (g : UGraph α)
    (e : GrEdge α) (h : gMem g.edges e.reversed) : gAddEdge g e = g := by
  unfold gAddEdge
  rw [if_pos h]

/-- C9 amended, witness. -/
theorem add_edge_reverse_noop_witness :
    gMem (⟨[1, 2], [⟨1, 2, 0⟩]⟩ : UGraph ℤ).edges (GrEdge.reversed ⟨2, 1, 0⟩) ∧
    gAddEdge (⟨[1, 2], [⟨1, 2, 0⟩]⟩ : UGraph ℤ) ⟨2, 1, 0⟩ =
      (⟨[1, 2], [⟨1, 2, 0⟩]⟩ : UGraph ℤ) :=
  ⟨⟨⟨1, 2, 0⟩, by simp, Or.inl ⟨rfl, rfl⟩, rfl⟩,
   add_edge_reverse_noop _ _ ⟨⟨1, 2, 0⟩, by simp, Or.inl ⟨rfl, rfl⟩, rfl⟩⟩

/-! ### C10: partiality of the chain-node orientation test -/

theorem nodeTurn_eq_none (p : Pt) (l : List OEdge)
    (h : ∀ e ∈ l, ¬ (e.first.y = p.y ∧ p.y = e.second.y) ∧
      ¬ (e.first.y ≤ p.y ∧ p.y ≤ e.second.y)) :
    nodeTurn l p = none := by
  induction l with
  | nil => rfl
  | cons e rest ih =>
    have he := h e (List.mem_cons_self e rest)
    unfold nodeTurn
    rw [if_neg he.1, if_neg he.2]
    exact ih (fun e2 h2 => h e2 (List.mem_cons_of_mem e h2))

/-- C10.  When no edge of a chain node's chain brackets the query's
`y`-coordinate (and no edge triggers the all-equal-`y` special case), `turn`
falls off its loop and returns Python `None`; at an internal node the `search`
dispatch then takes neither the STRAIGHT nor the LEFT branch but the trailing
`else`, descending right with direction `right` (the leftmost/rightmost
guards being the constantly-false node-vs-list identity tests). -/
theorem turn_none_search_right (g : OPSLG) (chains : List (List ℕ)) (p : Pt)
    (c : List ℕ) (i : ℕ) (lc rc : TTree) (ht : ℕ) (pI nI : Option ℕ)
    (path : List PathDirection)
    (hbr : ∀ e ∈ derefChain g c,
      ¬ (e.first.y = p.y ∧ p.y = e.second.y) ∧
      ¬ (e.first.y ≤ p.y ∧ p.y ≤ e.second.y))
    (hleaf : (TTree.node c i lc rc ht pI nI).isLeaf = false) :
    nodeTurn (derefChain g c) p = none ∧
    searchGo g chains p (.node c i lc rc ht pI nI) path =
      searchGo g chains p rc (path ++ [.right]) := by
  have hnone := nodeTurn_eq_none p (derefChain g c) hbr
  refine ⟨hnone, ?_⟩
  conv_lhs => rw [searchGo]
  rw [hleaf, hnone]
  rfl

/-- C10 witness: a two-level tree over the single-edge store and the query
`(5, 7)`, whose `y` lies above the chain. -/
theorem turn_none_search_right_witness :
    (∀ e ∈ derefChain ⟨[], [⟨⟨0, 0⟩, ⟨0, 1⟩, 0⟩]⟩ [0],
      ¬ (e.first.y = (7 : ℚ) ∧ (7 : ℚ) = e.second.y) ∧
      ¬ (e.first.y ≤ (7 : ℚ) ∧ (7 : ℚ) ≤ e.second.y)) ∧
    (nodeTurn (derefChain ⟨[], [⟨⟨0, 0⟩, ⟨0, 1⟩, 0⟩]⟩ [0]) ⟨5, 7⟩ = none ∧
      searchGo ⟨[], [⟨⟨0, 0⟩, ⟨0, 1⟩, 0⟩]⟩ [[0]] ⟨5, 7⟩
          (.node [0] 0 (.node [0] 0 .nil .nil 0 none none) .nil 1 none none) [] =
        searchGo ⟨[], [⟨⟨0, 0⟩, ⟨0, 1⟩, 0⟩]⟩ [[0]] ⟨5, 7⟩ .nil ([] ++ [.right])) :=
  ⟨by with_unfolding_all decide,
   turn_none_search_right _ _ _ _ _ _ _ _ _ _ _ (by with_unfolding_all decide) rfl⟩

/-! ### Threaded-tree serialization (C8)

A `ThreadedBinTreeNode` holds `data`, `left`, `right`, `height` and the
`prev`/`next` thread references.  A Python reference to another node of the
same tree is embedded as that node's root path (`false` = go left,
`true` = go right); the serialized form replaces each reference by the
referenced node's 0-based inorder index, so the tree type is parameterized by
the thread representation `β` (paths when live, `ℕ` when dumped).  `None`
threads stay `None`. -/

inductive TBT (α β : Type) where
  | nil
  | node (data : α) (left right : TBT α β) (height : ℕ)
      (prevT nextT : Option β)
deriving DecidableEq, Repr

/-- The root paths of the nodes in inorder (`BinTreeNode.traverse_inorder`). -/
def inorderPaths : TBT α β → List (List Bool)
  | .nil => []
  | .node _ l r _ _ _ =>
    (inorderPaths l).map (List.cons false) ++ [[]] ++
      (inorderPaths r).map (List.cons true)

/-- Every thread reference stored anywhere in the tree. -/
def threadRefs : TBT α β → List β
  | .nil => []
  | .node _ l r _ p n => p.toList ++ n.toList ++ threadRefs l ++ threadRefs r

/-- Apply `f` to one optional thread; a present reference on which `f` fails
is a crash (Python: the referenced object lacks `inorder_index`, or the index
is out of range). -/
def mapThreadRef (f : β → Option γ) : Option β → Option (Option γ)
  | none => some none
  | some b => (f b).map some

/-- Rewrite every thread through `f`, keeping `data`/`left`/`right`/`height`
untouched. -/
def mapThreads (f : β → Option γ) : TBT α β → Option (TBT α γ)
  | .nil => some .nil
  | .node d l r h p n =>
    match mapThreads f l, mapThreads f r, mapThreadRef f p, mapThreadRef f n with
    | some l2, some r2, some p2, some n2 => some (.node d l2 r2 h p2 n2)
    | _, _, _, _ => none

/-- The inorder index of the node a path references: its position in the
inorder path list. -/
def idxOfPath (l : List (List Bool)) (b : List Bool) : ℕ :=
  l.findIdx (fun x => x = b)

theorem idxOfPath_get? {l : List (List Bool)} {b : List Bool} (h : b ∈ l) :
    l.get? (idxOfPath l b) = some b := by
  induction l with
  | nil => cases h
  | cons x xs ih =>
    by_cases hx : x = b
    · subst hx
      simp [idxOfPath, List.findIdx_cons]
    · rcases List.mem_cons.mp h with h2 | h2
      · exact absurd h2.symm hx
      · simp only [idxOfPath, List.findIdx_cons, hx, decide_False, cond_false]
        simpa [idxOfPath] using ih h2

/-- `serialize_threaded_bin_tree_or_its_root` up to the opaque key-value
encoding: one inorder pass assigns each node its inorder index, then each
`prev`/`next` reference is replaced by the referenced node's index.  A thread
pointing outside the tree has no `inorder_index` and raises
(`AttributeError`), embedded as `none`. -/
def serializeTBT (t : TBT α (List Bool)) : Option (TBT α ℕ) :=
  mapThreads
    (fun pth => if pth ∈ inorderPaths t then some (idxOfPath (inorderPaths t) pth)
                else none) t

/-- `deserialize_threaded_bin_tree_root`: traverse inorder and patch each
node's `prev`/`next` to the node at the recorded inorder position (an
out-of-range index raises `IndexError`, embedded as `none`; the extra
`prev_index`/`next_index` bookkeeping attributes are not modelled). -/
def deserializeTBT (s : TBT α ℕ) : Option (TBT α (List Bool)) :=
  mapThreads (fun i => (inorderPaths s).get? i) s

theorem mapThreads_shape {f : β → Option γ} {t : TBT α β} {s : TBT α γ}
    (h : mapThreads f t = some s) : inorderPaths s = inorderPaths t := by
  induction t generalizing s with
  | nil =>
    simp only [mapThreads] at h
    cases h
    rfl
  | node d l r ht p n ihl ihr =>
    simp only [mapThreads] at h
    rcases hl : mapThreads f l with _ | l2 <;> rw [hl] at h
    · simp at h
    rcases hr : mapThreads f r with _ | r2 <;> rw [hr] at h
    · simp at h
    rcases hp : mapThreadRef f p with _ | p2 <;> rw [hp] at h
    · simp at h
    rcases hn : mapThreadRef f n with _ | n2 <;> rw [hn] at h
    · simp at h
    simp only [Option.some.injEq] at h
    subst h
    simp only [inorderPaths, ihl hl, ihr hr]

theorem mapThreadRef_roundtrip {f : β → Option γ} {g2 : γ → Option β}
    (o : Option β) (h : ∀ b ∈ o.toList, ∃ c, f b = some c ∧ g2 c = some b) :
    ∃ o2, mapThreadRef f o = some o2 ∧ mapThreadRef g2 o2 = some o := by
  cases o with
  | none => exact ⟨none, rfl, rfl⟩
  | some b =>
    rcases h b (by simp) with ⟨c, hc1, hc2⟩
    exact ⟨some c, by simp [mapThreadRef, hc1], by simp [mapThreadRef, hc2]⟩

theorem mapThreads_roundtrip {f : β → Option γ} {g2 : γ → Option β}
    (t : TBT α β) (h : ∀ b ∈ threadRefs t, ∃ c, f b = some c ∧ g2 c = some b) :
    ∃ s, mapThreads f t = some s ∧ mapThreads g2 s = some t := by
  induction t with
  | nil => exact ⟨.nil, rfl, rfl⟩
  | node d l r ht p n ihl ihr =>
    have hmem : ∀ x ∈ threadRefs l, x ∈ threadRefs (TBT.node d l r ht p n) := by
      intro x hx
      simp only [threadRefs, List.mem_append]
      exact Or.inl (Or.inr hx)
    have hmem2 : ∀ x ∈ threadRefs r, x ∈ threadRefs (TBT.node d l r ht p n) := by
      intro x hx
      simp only [threadRefs, List.mem_append]
      exact Or.inr hx
    have hmemp : ∀ x ∈ p.toList, x ∈ threadRefs (TBT.node d l r ht p n) := by
      intro x hx
      simp only [threadRefs, List.mem_append]
      exact Or.inl (Or.inl (Or.inl hx))
    have hmemn : ∀ x ∈ n.toList, x ∈ threadRefs (TBT.node d l r ht p n) := by
      intro x hx
      simp only [threadRefs, List.mem_append]
      exact Or.inl (Or.inl (Or.inr hx))
    rcases ihl (fun b hb => h b (hmem b hb)) with ⟨l2, hl1, hl2⟩
    rcases ihr (fun b hb => h b (hmem2 b hb)) with ⟨r2, hr1, hr2⟩
    rcases @mapThreadRef_roundtrip _ _ f g2 p
        (fun b hb => h b (hmemp b hb)) with ⟨p2, hp1, hp2⟩
    rcases @mapThreadRef_roundtrip _ _ f g2 n
        (fun b hb => h b (hmemn b hb)) with ⟨n2, hn1, hn2⟩
    refine ⟨.node d l2 r2 ht p2 n2, ?_, ?_⟩
    · simp only [mapThreads, hl1, hr1, hp1, hn1]
    · simp only [mapThreads, hl2, hr2, hp2, hn2]

/-- C8.  For every threaded binary tree whose threads reference nodes of the
tree itself (always the case for trees built by
`ThreadedBinTree.from_iterable`), serialization — replacing each `prev`/`next`
reference by the referenced node's 0-based inorder index, `None` staying
`None` — followed by loading yields the original tree back: the structure
(`data`, `left`, `right`, and `height`) is untouched and every thread again
references the node occupying the recorded inorder position. -/
theorem serialize_roundtrip {α : Type} (t : TBT α (List Bool))
    (hvalid : ∀ b ∈ threadRefs t, b ∈ inorderPaths t) :
    ∃ s, serializeTBT t = some s ∧ deserializeTBT s = some t := by
  have hround : ∀ b ∈ threadRefs t,
      ∃ c, (if b ∈ inorderPaths t then some (idxOfPath (inorderPaths t) b)
            else none) = some c ∧ (inorderPaths t).get? c = some b := by
    intro b hb
    have hmem := hvalid b hb
    exact ⟨idxOfPath (inorderPaths t) b, by rw [if_pos hmem], idxOfPath_get? hmem⟩
  rcases mapThreads_roundtrip t hround with ⟨s, hs1, hs2⟩
  refine ⟨s, hs1, ?_⟩
  unfold deserializeTBT
  rw [mapThreads_shape hs1]
  exact hs2

/-- C8 witness: the circularly threaded balanced tree over `[1, 2, 3]`
(inorder paths `[[false], [], [true]]`). -/
theorem serialize_roundtrip_witness :
    (∀ b ∈ threadRefs (TBT.node 2
        (TBT.node 1 .nil .nil 0 (some [true]) (some []))
        (TBT.node 3 .nil .nil 0 (some []) (some [false]))
        1 (some [false]) (some [true])),
      b ∈ inorderPaths (TBT.node (2 : ℕ)
        (TBT.node 1 .nil .nil 0 (some [true]) (some []))
        (TBT.node 3 .nil .nil 0 (some []) (some [false]))
        1 (some [false]) (some [true]))) ∧
    ∃ s, serializeTBT (TBT.node (2 : ℕ)
        (TBT.node 1 .nil .nil 0 (some [true]) (some []))
        (TBT.node 3 .nil .nil 0 (some []) (some [false]))
        1 (some [false]) (some [true])) = some s ∧
      deserializeTBT s = some (TBT.node (2 : ℕ)
        (TBT.node 1 .nil .nil 0 (some [true]) (some []))
        (TBT.node 3 .nil .nil 0 (some []) (some [false]))
        1 (some [false]) (some [true])) :=
  ⟨by decide, serialize_roundtrip _ (by decide)⟩

/-! ### Order and separation infrastructure -/

theorem peq_refl (a : Pt) : peq a a := by
  unfold peq
  norm_num

theorem peq_symm {a b : Pt} (h : peq a b) : peq b a := by
  unfold peq at h ⊢
  constructor <;> rw [abs_sub_comm] <;> [exact h.1; exact h.2]

theorem keyLt_asymm {a b : Pt} (h : keyLt a b) : ¬ keyLt b a := by
  unfold keyLt at h ⊢
  rcases h with h | ⟨h1, h2⟩ <;> rintro (h3 | ⟨h4, h5⟩) <;> linarith

theorem keyLt_irrefl (a : Pt) : ¬ keyLt a a := by
  unfold keyLt
  rintro (h | ⟨_, h⟩) <;> linarith

theorem not_keyLt_trans {a b c : Pt} (h1 : ¬ keyLt b a) (h2 : ¬ keyLt c b) :
    ¬ keyLt c a := by
  unfold keyLt at h1 h2 ⊢
  push_neg at h1 h2
  obtain ⟨h1a, h1b⟩ := h1
  obtain ⟨h2a, h2b⟩ := h2
  rintro (h | ⟨h3, h4⟩)
  · linarith
  · have hby : b.y = a.y := by linarith
    have hax := h1b hby
    have hcx := h2b (by linarith)
    linarith

theorem keyLt_of_not_of_lt {a b c : Pt} (h1 : keyLt a b) (h2 : ¬ keyLt c b) :
    keyLt a c := by
  unfold keyLt at h1 h2 ⊢
  push_neg at h2
  obtain ⟨h2a, h2b⟩ := h2
  rcases h1 with h | ⟨h3, h4⟩
  · exact Or.inl (by linarith)
  · rcases lt_or_eq_of_le h2a with hc | hc
    · exact Or.inl (by linarith)
    · refine Or.inr ⟨by linarith, ?_⟩
      have := h2b hc.symm
      linarith

/-- Two tolerance-separated points have strictly ordered `(y, x)` keys one way
or the other. -/
theorem keyLt_total_of_sep {a b : Pt} (h : ¬ peq a b) : keyLt a b ∨ keyLt b a := by
  unfold keyLt
  rcases lt_trichotomy a.y b.y with hy | hy | hy
  · exact Or.inl (Or.inl hy)
  · rcases lt_trichotomy a.x b.x with hx | hx | hx
    · exact Or.inl (Or.inr ⟨hy, hx⟩)
    · exfalso
      have hx0 : |a.x - b.x| ≤ 1/1000 := by rw [hx]; norm_num
      have hy0 : |a.y - b.y| ≤ 1/1000 := by rw [hy]; norm_num
      exact h ⟨hx0, hy0⟩
    · exact Or.inr (Or.inr ⟨hy.symm, hx⟩)
  · exact Or.inr (Or.inl hy)

/-- Tolerance-separated node lists: all distinct entries are farther apart
than the 1e-3 tolerance in some coordinate.  This is the validity condition
letting the Python `is` identity tests and exact hash-based set membership
coincide with the tolerant `==`: each node value occurs as one object. -/
def Separated (nodes : List Pt) : Prop := nodes.Pairwise (fun a b => ¬ peq a b)

theorem Separated.nodup {nodes : List Pt} (h : Separated nodes) : nodes.Nodup := by
  refine h.imp ?_
  intro a b hab
  intro he
  exact hab (he ▸ peq_refl a)

theorem Separated.peq_iff {nodes : List Pt} (h : Separated nodes)
    {u w : Pt} (hu : u ∈ nodes) (hw : w ∈ nodes) : peq u w ↔ u = w := by
  constructor
  · intro hp
    by_contra hne
    have hsym : Symmetric (fun a b : Pt => ¬ peq a b) := by
      intro a b hab hp2
      exact hab (peq_symm hp2)
    exact List.Pairwise.forall hsym h hu hw hne hp
  · rintro rfl
    exact peq_refl u

/-! ### Generic list lemmas for the edge store -/

theorem enumFrom_get? {α : Type} : ∀ (l : List α) (k i : ℕ) (a : α),
    (i, a) ∈ l.enumFrom k → l.get? (i - k) = some a := by
  intro l
  induction l with
  | nil => intro k i a h; cases h
  | cons x xs ih =>
    intro k i a h
    rcases List.mem_cons.mp h with h2 | h2
    · injection h2 with h3 h4
      subst h3
      simp [h4.symm]
    · have := ih (k + 1) i a h2
      have hk : k + 1 ≤ i := (List.mem_enumFrom h2).1
      have hik : i - k = (i - (k + 1)) + 1 := by omega
      rw [hik]
      simpa using this

theorem enum_get? {α : Type} {l : List α} {i : ℕ} {a : α}
    (h : (i, a) ∈ l.enum) : l.get? i = some a := by
  have := enumFrom_get? l 0 i a h
  simpa using this

theorem enumFrom_filter_map_snd {α : Type} (p : α → Bool) :
    ∀ (l : List α) (k : ℕ),
    ((l.enumFrom k).filter (fun q => p q.2)).map (·.2) = l.filter p := by
  intro l
  induction l with
  | nil => intro k; rfl
  | cons x xs ih =>
    intro k
    by_cases hx : p x
    · simp [List.filter_cons, hx, ih (k + 1)]
    · simp [List.filter_cons, hx, ih (k + 1)]

theorem enum_filter_map_snd {α : Type} (p : α → Bool) (l : List α) :
    ((l.enum).filter (fun q => p q.2)).map (·.2) = l.filter p :=
  enumFrom_filter_map_snd p l 0

/-- Setting position `i` (whose old entry satisfies `p` exactly when the new
one does) shifts the `p`-filtered weight sum by the weight difference. -/
theorem filter_map_sum_set :
    ∀ (l : List OEdge) (i : ℕ) (e e2 : OEdge), l.get? i = some e →
    ∀ (p : OEdge → Bool), p e2 = p e →
    (((l.set i e2).filter p).map (·.weight)).sum =
      ((l.filter p).map (·.weight)).sum +
        (if p e then e2.weight - e.weight else 0) := by
  intro l
  induction l with
  | nil => intro i e e2 h; cases h
  | cons x xs ih =>
    intro i e e2 h p hp
    cases i with
    | zero =>
      injection h with h2
      subst h2
      by_cases hx : p x = true
      · simp [List.set, List.filter_cons, hx, hp.trans hx]
        ring
      · have he2 : ¬ (p e2 = true) := by rw [hp]; exact hx
        simp [List.set, List.filter_cons, hx, he2]
    | succ n =>
      have h2 : xs.get? n = some e := by simpa using h
      by_cases hx : p x = true
      · simp [List.set, List.filter_cons, hx, ih n e e2 h2 p hp]
        ring
      · simp [List.set, List.filter_cons, hx, ih n e e2 h2 p hp]

/-- Same-position replacement with a `p`-equivalent entry keeps the filtered
length. -/
theorem filter_length_set :
    ∀ (l : List OEdge) (i : ℕ) (e e2 : OEdge), l.get? i = some e →
    ∀ (p : OEdge → Bool), p e2 = p e →
    ((l.set i e2).filter p).length = (l.filter p).length := by
  intro l
  induction l with
  | nil => intro i e e2 h; cases h
  | cons x xs ih =>
    intro i e e2 h p hp
    cases i with
    | zero =>
      injection h with h2
      subst h2
      by_cases hx : p x = true
      · simp [List.set, List.filter_cons, hx, hp.trans hx]
      · have he2 : ¬ (p e2 = true) := by rw [hp]; exact hx
        simp [List.set, List.filter_cons, hx, he2]
    | succ n =>
      have h2 : xs.get? n = some e := by simpa using h
      by_cases hx : p x = true
      · simp [List.set, List.filter_cons, hx, ih n e e2 h2 p hp]
      · simp [List.set, List.filter_cons, hx, ih n e e2 h2 p hp]

/-! ### Bridges between the polar-sorted pair lists and the store filters -/

theorem inwardPairs_sum (g : OPSLG) (v : Pt) :
    ((inwardPairs g v).map (·.2.weight)).sum = wInSum g v := by
  unfold inwardPairs wInSum
  have hperm := (sortStable_perm
    (fun p q : ℕ × OEdge => nnAngLt (sub (otherNode p.2 v) v) (sub (otherNode q.2 v) v))
    ((g.edges.enum).filter (fun p => inPred v p.2))).map (fun p : ℕ × OEdge => p.2.weight)
  rw [hperm.sum_eq]
  rw [show (fun p : ℕ × OEdge => p.2.weight) =
    (fun e : OEdge => e.weight) ∘ (fun p : ℕ × OEdge => p.2) from rfl]
  rw [← List.map_map, enum_filter_map_snd (inPred v) g.edges]

theorem outwardPairs_sum (g : OPSLG) (v : Pt) :
    ((outwardPairs g v).map (·.2.weight)).sum = wOutSum g v := by
  unfold outwardPairs wOutSum
  have hperm := (sortStable_perm
    (fun p q : ℕ × OEdge => pAngLt (sub (otherNode q.2 v) v) (sub (otherNode p.2 v) v))
    ((g.edges.enum).filter (fun p => outPred v p.2))).map (fun p : ℕ × OEdge => p.2.weight)
  rw [hperm.sum_eq]
  rw [show (fun p : ℕ × OEdge => p.2.weight) =
    (fun e : OEdge => e.weight) ∘ (fun p : ℕ × OEdge => p.2) from rfl]
  rw [← List.map_map, enum_filter_map_snd (outPred v) g.edges]

theorem inwardPairs_length (g : OPSLG) (v : Pt) :
    (inwardPairs g v).length = (g.edges.filter (inPred v)).length := by
  unfold inwardPairs
  rw [sortStable_length]
  rw [← enum_filter_map_snd (inPred v) g.edges, List.length_map]

theorem outwardPairs_length (g : OPSLG) (v : Pt) :
    (outwardPairs g v).length = (g.edges.filter (outPred v)).length := by
  unfold outwardPairs
  rw [sortStable_length]
  rw [← enum_filter_map_snd (outPred v) g.edges, List.length_map]

theorem inwardPairs_nil_iff (g : OPSLG) (v : Pt) :
    inwardPairs g v = [] ↔ g.edges.filter (inPred v) = [] := by
  rw [← List.length_eq_zero, ← List.length_eq_zero, inwardPairs_length]

theorem outwardPairs_nil_iff (g : OPSLG) (v : Pt) :
    outwardPairs g v = [] ↔ g.edges.filter (outPred v) = [] := by
  rw [← List.length_eq_zero, ← List.length_eq_zero, outwardPairs_length]

theorem inwardPairs_mem {g : OPSLG} {v : Pt} {i : ℕ} {e : OEdge}
    (h : (i, e) ∈ inwardPairs g v) :
    g.edges.get? i = some e ∧ inPred v e = true := by
  unfold inwardPairs at h
  rw [sortStable_mem] at h
  have h2 := List.mem_filter.mp h
  exact ⟨enum_get? h2.1, h2.2⟩

theorem outwardPairs_mem {g : OPSLG} {v : Pt} {i : ℕ} {e : OEdge}
    (h : (i, e) ∈ outwardPairs g v) :
    g.edges.get? i = some e ∧ outPred v e = true := by
  unfold outwardPairs at h
  rw [sortStable_mem] at h
  have h2 := List.mem_filter.mp h
  exact ⟨enum_get? h2.1, h2.2⟩

/-! ### Shape equality — weight mutation never moves or re-ends an edge -/

def edgeShape (e1 e2 : OEdge) : Prop := e2.first = e1.first ∧ e2.second = e1.second

def shapeEq (g g2 : OPSLG) : Prop :=
  g2.nodes = g.nodes ∧ List.Forall₂ edgeShape g.edges g2.edges

theorem edgeShape_refl (e : OEdge) : edgeShape e e := ⟨rfl, rfl⟩

theorem shapeEq_refl (g : OPSLG) : shapeEq g g :=
  ⟨rfl, List.forall₂_same.mpr (fun e _ => edgeShape_refl e)⟩

theorem forall₂_edgeShape_trans :
    ∀ {l1 l2 l3 : List OEdge}, List.Forall₂ edgeShape l1 l2 →
      List.Forall₂ edgeShape l2 l3 → List.Forall₂ edgeShape l1 l3 := by
  intro l1 l2 l3 h12
  induction h12 generalizing l3 with
  | nil =>
    intro h23
    cases h23
    exact List.Forall₂.nil
  | cons hab h ih =>
    intro h23
    cases h23 with
    | cons hbc h2 =>
      exact List.Forall₂.cons ⟨hbc.1.trans hab.1, hbc.2.trans hab.2⟩ (ih h2)

theorem shapeEq_trans {g1 g2 g3 : OPSLG} (h12 : shapeEq g1 g2) (h23 : shapeEq g2 g3) :
    shapeEq g1 g3 :=
  ⟨h23.1.trans h12.1, forall₂_edgeShape_trans h12.2 h23.2⟩

theorem inPred_shape {e1 e2 : OEdge} (h : edgeShape e1 e2) (u : Pt) :
    inPred u e2 = inPred u e1 := by
  unfold inPred edgesOfPred
  simp only [h.1, h.2]

theorem outPred_shape {e1 e2 : OEdge} (h : edgeShape e1 e2) (u : Pt) :
    outPred u e2 = outPred u e1 := by
  unfold outPred edgesOfPred
  simp only [h.1, h.2]

theorem forall₂_filter_length {l1 l2 : List OEdge}
    (h : List.Forall₂ edgeShape l1 l2) (p : OEdge → Bool)
    (hp : ∀ e1 e2, edgeShape e1 e2 → p e2 = p e1) :
    (l2.filter p).length = (l1.filter p).length := by
  induction h with
  | nil => rfl
  | cons hab h ih =>
    rename_i a b as bs
    rw [List.filter_cons, List.filter_cons, hp a b hab]
    by_cases hx : p a = true
    · simp [hx, ih]
    · simp [hx, ih]

theorem shapeEq_inFilter_length {g g2 : OPSLG} (h : shapeEq g g2) (u : Pt) :
    (g2.edges.filter (inPred u)).length = (g.edges.filter (inPred u)).length :=
  forall₂_filter_length h.2 (inPred u) (fun _ _ he => inPred_shape he u)

theorem shapeEq_outFilter_length {g g2 : OPSLG} (h : shapeEq g g2) (u : Pt) :
    (g2.edges.filter (outPred u)).length = (g.edges.filter (outPred u)).length :=
  forall₂_filter_length h.2 (outPred u) (fun _ _ he => outPred_shape he u)

theorem forall₂_mem_right {l1 l2 : List OEdge}
    (h : List.Forall₂ edgeShape l1 l2) {e2 : OEdge} (he : e2 ∈ l2) :
    ∃ e1 ∈ l1, edgeShape e1 e2 := by
  induction h with
  | nil => cases he
  | cons hab h ih =>
    rename_i a b as bs
    rcases List.mem_cons.mp he with h2 | h2
    · exact ⟨a, List.mem_cons_self _ _, h2 ▸ hab⟩
    · rcases ih h2 with ⟨e1, he1, hsh⟩
      exact ⟨e1, List.mem_cons_of_mem _ he1, hsh⟩

theorem forall₂_set {l : List OEdge} :
    ∀ {i : ℕ} {e e2 : OEdge}, l.get? i = some e → edgeShape e e2 →
      List.Forall₂ edgeShape l (l.set i e2) := by
  induction l with
  | nil => intro i e e2 h; cases h
  | cons x xs ih =>
    intro i e e2 h hsh
    cases i with
    | zero =>
      injection h with h2
      subst h2
      exact List.Forall₂.cons hsh (List.forall₂_same.mpr (fun e _ => edgeShape_refl e))
    | succ n =>
      have h2 : xs.get? n = some e := by simpa using h
      exact List.Forall₂.cons (edgeShape_refl x) (ih h2 hsh)

theorem setWeight_shapeEq {g : OPSLG} {i : ℕ} {e : OEdge} (w : ℚ)
    (h : g.edges.get? i = some e) : shapeEq g (setWeight g i w) := by
  refine ⟨rfl, ?_⟩
  unfold setWeight
  rw [h]
  exact forall₂_set h ⟨rfl, rfl⟩

/-- A graph whose node values are tolerance-separated and whose edges are
node-to-node and strictly upward by `(y, x)`; the validity context of the
regularized pipeline stages. -/
def GoodGraph (g : OPSLG) : Prop :=
  Separated g.nodes ∧
  ∀ e ∈ g.edges, e.first ∈ g.nodes ∧ e.second ∈ g.nodes ∧ keyLt e.first e.second

theorem GoodGraph.of_shapeEq {g g2 : OPSLG} (hg : GoodGraph g) (h : shapeEq g g2) :
    GoodGraph g2 := by
  refine ⟨h.1 ▸ hg.1, ?_⟩
  intro e2 he2
  rcases forall₂_mem_right h.2 he2 with ⟨e1, he1, hsh⟩
  rcases hg.2 e1 he1 with ⟨h1, h2, h3⟩
  rw [h.1, hsh.1, hsh.2]
  exact ⟨h1, h2, h3⟩

/-! ### Weight-balancing step effects -/

theorem setWeight_edges_eq {g : OPSLG} {i : ℕ} {e : OEdge} (w : ℚ)
    (h : g.edges.get? i = some e) :
    (setWeight g i w).edges = g.edges.set i { e with weight := w } := by
  unfold setWeight
  rw [h]

theorem wInSum_setWeight {g : OPSLG} {i : ℕ} {e : OEdge} (w : ℚ)
    (h : g.edges.get? i = some e) (u : Pt) :
    wInSum (setWeight g i w) u =
      wInSum g u + (if inPred u e = true then w - e.weight else 0) := by
  unfold wInSum
  rw [setWeight_edges_eq w h]
  exact filter_map_sum_set g.edges i e { e with weight := w } h (inPred u) rfl

theorem wOutSum_setWeight {g : OPSLG} {i : ℕ} {e : OEdge} (w : ℚ)
    (h : g.edges.get? i = some e) (u : Pt) :
    wOutSum (setWeight g i w) u =
      wOutSum g u + (if outPred u e = true then w - e.weight else 0) := by
  unfold wOutSum
  rw [setWeight_edges_eq w h]
  exact filter_map_sum_set g.edges i e { e with weight := w } h (outPred u) rfl

/-- The two possible outcomes of a `balance_bottom_to_top` loop iteration. -/
theorem balanceBUStep_eq (g : OPSLG) (v : Pt) :
    (balanceBUStep g v = g ∧
      (g.edges.filter (outPred v) = [] ∨ wInSum g v ≤ wOutSum g v)) ∨
    (∃ i e, g.edges.get? i = some e ∧ outPred v e = true ∧
      wOutSum g v < wInSum g v ∧
      balanceBUStep g v = setWeight g i (e.weight + (wInSum g v - wOutSum g v))) := by
  unfold balanceBUStep
  rcases houtP : outwardPairs g v with _ | ⟨⟨i, e⟩, rest⟩
  · left
    refine ⟨rfl, Or.inl ?_⟩
    exact (outwardPairs_nil_iff g v).mp houtP
  · dsimp only
    have hmem := @outwardPairs_mem g v i e
      (houtP ▸ List.mem_cons_self (i, e) rest)
    have hin := inwardPairs_sum g v
    have hout := outwardPairs_sum g v
    rw [houtP] at hout
    by_cases hgt : ((inwardPairs g v).map (·.2.weight)).sum >
        (((i, e) :: rest).map (·.2.weight)).sum
    · right
      refine ⟨i, e, hmem.1, hmem.2, ?_, ?_⟩
      · rw [← hin, ← hout]
        exact hgt
      · rw [if_pos hgt, hin, hout]
    · left
      refine ⟨by rw [if_neg hgt], Or.inr ?_⟩
      rw [← hin, ← hout]
      exact le_of_not_lt hgt

/-- The two possible outcomes of a `balance_top_to_bottom` loop iteration. -/
theorem balanceTDStep_eq (g : OPSLG) (v : Pt) :
    (balanceTDStep g v = g ∧
      (g.edges.filter (inPred v) = [] ∨ wOutSum g v ≤ wInSum g v)) ∨
    (∃ i e, g.edges.get? i = some e ∧ inPred v e = true ∧
      wInSum g v < wOutSum g v ∧
      balanceTDStep g v = setWeight g i (e.weight + (wOutSum g v - wInSum g v))) := by
  unfold balanceTDStep
  rcases hinP : inwardPairs g v with _ | ⟨⟨i, e⟩, rest⟩
  · left
    refine ⟨rfl, Or.inl ?_⟩
    exact (inwardPairs_nil_iff g v).mp hinP
  · dsimp only
    have hmem := @inwardPairs_mem g v i e
      (hinP ▸ List.mem_cons_self (i, e) rest)
    have hin := inwardPairs_sum g v
    have hout := outwardPairs_sum g v
    rw [hinP] at hin
    by_cases hgt : ((outwardPairs g v).map (·.2.weight)).sum >
        (((i, e) :: rest).map (·.2.weight)).sum
    · right
      refine ⟨i, e, hmem.1, hmem.2, ?_, ?_⟩
      · rw [← hin, ← hout]
        exact hgt
      · rw [if_pos hgt, hin, hout]
    · left
      refine ⟨by rw [if_neg hgt], Or.inr ?_⟩
      rw [← hin, ← hout]
      exact le_of_not_lt hgt

theorem balanceBUStep_shapeEq (g : OPSLG) (v : Pt) : shapeEq g (balanceBUStep g v) := by
  rcases balanceBUStep_eq g v with ⟨h, _⟩ | ⟨i, e, hi, _, _, h⟩
  · rw [h]; exact shapeEq_refl g
  · rw [h]; exact setWeight_shapeEq _ hi

theorem balanceTDStep_shapeEq (g : OPSLG) (v : Pt) : shapeEq g (balanceTDStep g v) := by
  rcases balanceTDStep_eq g v with ⟨h, _⟩ | ⟨i, e, hi, _, _, h⟩
  · rw [h]; exact shapeEq_refl g
  · rw [h]; exact setWeight_shapeEq _ hi

/-- Incidence of the bumped edge, translated to exact endpoint equalities in a
good graph. -/
theorem outPred_exact {g : OPSLG} (hg : GoodGraph g) {v : Pt} (hv : v ∈ g.nodes)
    {e : OEdge} (he : e ∈ g.edges) (h : outPred v e = true) : e.first = v := by
  rcases hg.2 e he with ⟨h1, _, _⟩
  have h2 : peq e.first v := by
    unfold outPred at h
    rw [decide_eq_true_eq] at h
    exact h.2
  exact (hg.1.peq_iff h1 hv).mp h2

theorem inPred_exact {g : OPSLG} (hg : GoodGraph g) {v : Pt} (hv : v ∈ g.nodes)
    {e : OEdge} (he : e ∈ g.edges) (h : inPred v e = true) : e.second = v := by
  rcases hg.2 e he with ⟨_, h1, _⟩
  have h2 : peq e.second v := by
    unfold inPred at h
    rw [decide_eq_true_eq] at h
    exact h.2
  exact (hg.1.peq_iff h1 hv).mp h2

/-! ### Which nodes a weight bump can touch -/

theorem bump_inPred_false {g : OPSLG} (hg : GoodGraph g) {u : Pt}
    (hu : u ∈ g.nodes) {e : OEdge} (he : e ∈ g.edges) {v : Pt} (hef : e.first = v)
    (hnk : ¬ keyLt v u) : inPred u e = false := by
  cases hq : inPred u e
  · rfl
  · exfalso
    have hesu : e.second = u := inPred_exact hg hu he hq
    rcases hg.2 e he with ⟨_, _, hupw⟩
    rw [hef, hesu] at hupw
    exact hnk hupw

theorem bump_outPred_false {g : OPSLG} (hg : GoodGraph g) {u : Pt}
    (hu : u ∈ g.nodes) {e : OEdge} (he : e ∈ g.edges) {v : Pt} (hef : e.first = v)
    (hne : u ≠ v) : outPred u e = false := by
  cases hq : outPred u e
  · rfl
  · exfalso
    have h2 : e.first = u := outPred_exact hg hu he hq
    exact hne (h2.symm.trans hef)

theorem bumpTD_outPred_false {g : OPSLG} (hg : GoodGraph g) {u : Pt}
    (hu : u ∈ g.nodes) {e : OEdge} (he : e ∈ g.edges) {v : Pt} (hes : e.second = v)
    (hnk : ¬ keyLt u v) : outPred u e = false := by
  cases hq : outPred u e
  · rfl
  · exfalso
    have hefu : e.first = u := outPred_exact hg hu he hq
    rcases hg.2 e he with ⟨_, _, hupw⟩
    rw [hefu, hes] at hupw
    exact hnk hupw

theorem bumpTD_inPred_false {g : OPSLG} (hg : GoodGraph g) {u : Pt}
    (hu : u ∈ g.nodes) {e : OEdge} (he : e ∈ g.edges) {v : Pt} (hes : e.second = v)
    (hne : u ≠ v) : inPred u e = false := by
  cases hq : inPred u e
  · rfl
  · exfalso
    have h2 : e.second = u := inPred_exact hg hu he hq
    exact hne (h2.symm.trans hes)

/-! ### The bottom-up balancing pass -/

theorem bu_fold (suf : List Pt) :
    ∀ (g : OPSLG) (pre : List Pt),
    GoodGraph g →
    (∀ u ∈ pre, u ∈ g.nodes) →
    (∀ u ∈ suf, u ∈ g.nodes) →
    (pre ++ suf).Pairwise (fun a b => ¬ keyLt b a) →
    (pre ++ suf).Nodup →
    (∀ u ∈ pre, g.edges.filter (outPred u) ≠ [] → wInSum g u ≤ wOutSum g u) →
    shapeEq g (suf.foldl balanceBUStep g) ∧
    (∀ u ∈ pre ++ suf,
      (suf.foldl balanceBUStep g).edges.filter (outPred u) ≠ [] →
      wInSum (suf.foldl balanceBUStep g) u ≤ wOutSum (suf.foldl balanceBUStep g) u) := by
  induction suf with
  | nil =>
    intro g pre _ _ _ _ _ hinv
    exact ⟨shapeEq_refl g, by simpa using hinv⟩
  | cons v vs ih =>
    intro g pre hg hpre hsuf hsort hnodup hinv
    have hv : v ∈ g.nodes := hsuf v (List.mem_cons_self v vs)
    have hstep := balanceBUStep_eq g v
    have hshape : shapeEq g (balanceBUStep g v) := balanceBUStep_shapeEq g v
    have hgood2 : GoodGraph (balanceBUStep g v) := hg.of_shapeEq hshape
    have hfiliff : ∀ u, ((balanceBUStep g v).edges.filter (outPred u)).length =
        (g.edges.filter (outPred u)).length :=
      fun u => shapeEq_outFilter_length hshape u
    have hdisj := List.disjoint_of_nodup_append hnodup
    have hinv2 : ∀ u ∈ pre ++ [v],
        (balanceBUStep g v).edges.filter (outPred u) ≠ [] →
        wInSum (balanceBUStep g v) u ≤ wOutSum (balanceBUStep g v) u := by
      intro u hu hfil
      have hfilg : g.edges.filter (outPred u) ≠ [] := by
        intro hnil
        apply hfil
        rw [← List.length_eq_zero] at hnil ⊢
        rw [hfiliff u, hnil]
      rcases List.mem_append.mp hu with hu | hu
      · have hunode := hpre u hu
        have hne_vu : ¬ keyLt v u :=
          (List.pairwise_append.mp hsort).2.2 u hu v (List.mem_cons_self v vs)
        have hne_uv : u ≠ v := fun he =>
          hdisj hu (he ▸ List.mem_cons_self v vs)
        rcases hstep with ⟨heq, _⟩ | ⟨i, e, hi, hpredv, hlt, heq⟩
        · rw [heq]
          exact hinv u hu hfilg
        · have he : e ∈ g.edges := List.get?_mem hi
          have hef : e.first = v := outPred_exact hg hv he hpredv
          rw [heq, wInSum_setWeight _ hi u, wOutSum_setWeight _ hi u,
              bump_inPred_false hg hunode he hef hne_vu,
              bump_outPred_false hg hunode he hef hne_uv]
          simpa using hinv u hu hfilg
      · have huv : u = v := by simpa using hu
        subst huv
        rcases hstep with ⟨heq, hcase⟩ | ⟨i, e, hi, hpredv, hlt, heq⟩
        · rw [heq]
          rcases hcase with hnil | hle
          · exact absurd hnil hfilg
          · exact hle
        · have he : e ∈ g.edges := List.get?_mem hi
          have hef : e.first = u := outPred_exact hg hv he hpredv
          have hin_false : inPred u e = false :=
            bump_inPred_false hg hv he hef (keyLt_irrefl u)
          rw [heq, wInSum_setWeight _ hi u, wOutSum_setWeight _ hi u, hin_false, hpredv]
          simp
    have hpre2 : ∀ u ∈ pre ++ [v], u ∈ (balanceBUStep g v).nodes := by
      intro u hu
      rw [hshape.1]
      rcases List.mem_append.mp hu with hu | hu
      · exact hpre u hu
      · have huv : u = v := by simpa using hu
        exact huv ▸ hv
    have hsuf2 : ∀ u ∈ vs, u ∈ (balanceBUStep g v).nodes := by
      intro u hu
      rw [hshape.1]
      exact hsuf u (List.mem_cons_of_mem v hu)
    have hassoc : (pre ++ [v]) ++ vs = pre ++ v :: vs := by
      rw [List.append_assoc, List.singleton_append]
    rcases ih (balanceBUStep g v) (pre ++ [v]) hgood2 hpre2 hsuf2
        (by rw [hassoc]; exact hsort) (by rw [hassoc]; exact hnodup) hinv2 with
      ⟨hshapeF, hinvF⟩
    refine ⟨?_, ?_⟩
    · exact shapeEq_trans hshape (by simpa using hshapeF)
    · intro u hu
      have hu2 : u ∈ (pre ++ [v]) ++ vs := by rw [hassoc]; exact hu
      simpa using hinvF u hu2

/-! ### The top-down balancing pass -/

theorem td_fold (suf : List Pt) :
    ∀ (g : OPSLG) (pre : List Pt),
    GoodGraph g →
    (∀ u ∈ pre, u ∈ g.nodes) →
    (∀ u ∈ suf, u ∈ g.nodes) →
    (pre ++ suf).Pairwise (fun a b => ¬ keyLt a b) →
    (pre ++ suf).Nodup →
    (∀ u ∈ pre, g.edges.filter (inPred u) ≠ [] → g.edges.filter (outPred u) ≠ [] →
      wInSum g u = wOutSum g u) →
    (∀ u ∈ suf, g.edges.filter (outPred u) ≠ [] → wInSum g u ≤ wOutSum g u) →
    shapeEq g (suf.foldl balanceTDStep g) ∧
    (∀ u ∈ pre ++ suf,
      (suf.foldl balanceTDStep g).edges.filter (inPred u) ≠ [] →
      (suf.foldl balanceTDStep g).edges.filter (outPred u) ≠ [] →
      wInSum (suf.foldl balanceTDStep g) u = wOutSum (suf.foldl balanceTDStep g) u) := by
  induction suf with
  | nil =>
    intro g pre _ _ _ _ _ hinv _
    exact ⟨shapeEq_refl g, by simpa using hinv⟩
  | cons v vs ih =>
    intro g pre hg hpre hsuf hsort hnodup hinvT1 hinvT2
    have hv : v ∈ g.nodes := hsuf v (List.mem_cons_self v vs)
    have hstep := balanceTDStep_eq g v
    have hshape : shapeEq g (balanceTDStep g v) := balanceTDStep_shapeEq g v
    have hgood2 : GoodGraph (balanceTDStep g v) := hg.of_shapeEq hshape
    have hdisj := List.disjoint_of_nodup_append hnodup
    have hnodupsuf : (v :: vs).Nodup := (List.nodup_append.mp hnodup).2.1
    have hvnotvs : v ∉ vs := (List.nodup_cons.mp hnodupsuf).1
    have hinvT1' : ∀ u ∈ pre ++ [v],
        (balanceTDStep g v).edges.filter (inPred u) ≠ [] →
        (balanceTDStep g v).edges.filter (outPred u) ≠ [] →
        wInSum (balanceTDStep g v) u = wOutSum (balanceTDStep g v) u := by
      intro u hu hfilin hfilout
      have hfiling : g.edges.filter (inPred u) ≠ [] := by
        intro hnil
        apply hfilin
        rw [← List.length_eq_zero] at hnil ⊢
        rw [shapeEq_inFilter_length hshape u, hnil]
      have hfiloutg : g.edges.filter (outPred u) ≠ [] := by
        intro hnil
        apply hfilout
        rw [← List.length_eq_zero] at hnil ⊢
        rw [shapeEq_outFilter_length hshape u, hnil]
      rcases List.mem_append.mp hu with hu | hu
      · have hunode := hpre u hu
        have hne_uv : ¬ keyLt u v :=
          (List.pairwise_append.mp hsort).2.2 u hu v (List.mem_cons_self v vs)
        have hne_uv' : u ≠ v := fun he =>
          hdisj hu (he ▸ List.mem_cons_self v vs)
        rcases hstep with ⟨heq, _⟩ | ⟨i, e, hi, hpredv, hlt, heq⟩
        · rw [heq]
          exact hinvT1 u hu hfiling hfiloutg
        · have he : e ∈ g.edges := List.get?_mem hi
          have hes : e.second = v := inPred_exact hg hv he hpredv
          rw [heq, wInSum_setWeight _ hi u, wOutSum_setWeight _ hi u,
              bumpTD_inPred_false hg hunode he hes hne_uv',
              bumpTD_outPred_false hg hunode he hes hne_uv]
          simpa using hinvT1 u hu hfiling hfiloutg
      · have huv : u = v := by simpa using hu
        subst huv
        rcases hstep with ⟨heq, hcase⟩ | ⟨i, e, hi, hpredv, hlt, heq⟩
        · rw [heq]
          rcases hcase with hnil | hle
          · exact absurd hnil hfiling
          · exact le_antisymm (hinvT2 u (List.mem_cons_self u vs) hfiloutg) hle
        · have he : e ∈ g.edges := List.get?_mem hi
          have hes : e.second = u := inPred_exact hg hv he hpredv
          have hout_false : outPred u e = false :=
            bumpTD_outPred_false hg hv he hes (keyLt_irrefl u)
          rw [heq, wInSum_setWeight _ hi u, wOutSum_setWeight _ hi u, hout_false, hpredv]
          simp
    have hinvT2' : ∀ u ∈ vs,
        (balanceTDStep g v).edges.filter (outPred u) ≠ [] →
        wInSum (balanceTDStep g v) u ≤ wOutSum (balanceTDStep g v) u := by
      intro u hu hfilout
      have hunode : u ∈ g.nodes := hsuf u (List.mem_cons_of_mem v hu)
      have hfiloutg : g.edges.filter (outPred u) ≠ [] := by
        intro hnil
        apply hfilout
        rw [← List.length_eq_zero] at hnil ⊢
        rw [shapeEq_outFilter_length hshape u, hnil]
      have hbase := hinvT2 u (List.mem_cons_of_mem v hu) hfiloutg
      rcases hstep with ⟨heq, _⟩ | ⟨i, e, hi, hpredv, hlt, heq⟩
      · rw [heq]
        exact hbase
      · have he : e ∈ g.edges := List.get?_mem hi
        have hes : e.second = v := inPred_exact hg hv he hpredv
        have hne_uv' : u ≠ v := fun h2 => hvnotvs (h2 ▸ hu)
        rw [heq, wInSum_setWeight _ hi u, wOutSum_setWeight _ hi u,
            bumpTD_inPred_false hg hunode he hes hne_uv']
        rcases hq : outPred u e with _ | _
        · simpa using hbase
        · simp
          linarith
    have hpre2 : ∀ u ∈ pre ++ [v], u ∈ (balanceTDStep g v).nodes := by
      intro u hu
      rw [hshape.1]
      rcases List.mem_append.mp hu with hu | hu
      · exact hpre u hu
      · have huv : u = v := by simpa using hu
        exact huv ▸ hv
    have hsuf2 : ∀ u ∈ vs, u ∈ (balanceTDStep g v).nodes := by
      intro u hu
      rw [hshape.1]
      exact hsuf u (List.mem_cons_of_mem v hu)
    have hassoc : (pre ++ [v]) ++ vs = pre ++ v :: vs := by
      rw [List.append_assoc, List.singleton_append]
    rcases ih (balanceTDStep g v) (pre ++ [v]) hgood2 hpre2 hsuf2
        (by rw [hassoc]; exact hsort) (by rw [hassoc]; exact hnodup) hinvT1' hinvT2' with
      ⟨hshapeF, hinvF⟩
    refine ⟨?_, ?_⟩
    · exact shapeEq_trans hshape (by simpa using hshapeF)
    · intro u hu
      have hu2 : u ∈ (pre ++ [v]) ++ vs := by rw [hassoc]; exact hu
      simpa using hinvF u hu2

/-- **C3.** For every regularized oriented PSLG — tolerance-separated nodes,
every edge joining two of them strictly upward by `(y, x)`, every node but the
global minimum with an inward edge and every node but the global maximum with
an outward edge — whose edge weights are all `1`, running
`balance_bottom_to_top` over the `(y, x)`-sorted nodes and then
`balance_top_to_bottom` over the reversed order leaves every internal node
with equal inward and outward weight sums. -/
theorem balanced_after_passes (g : OPSLG) (hg : GoodGraph g)
    (_hw1 : ∀ e ∈ g.edges, e.weight = 1)
    {mn mx : Pt} (hmn : minNodeKey g.nodes = some mn)
    (hmx : maxNodeKey g.nodes = some mx)
    (hreg : isRegularOpt g = some true)
    (v : Pt) (hv : v ∈ g.nodes) (hvmn : v ≠ mn) (hvmx : v ≠ mx) :
    wInSum (balance_top_to_bottom (balance_bottom_to_top g (sortStable keyLt g.nodes))
        ((sortStable keyLt g.nodes).reverse)) v =
    wOutSum (balance_top_to_bottom (balance_bottom_to_top g (sortStable keyLt g.nodes))
        ((sortStable keyLt g.nodes).reverse)) v := by
  have hmem : ∀ u, u ∈ sortStable keyLt g.nodes ↔ u ∈ g.nodes :=
    fun u => sortStable_mem keyLt g.nodes u
  have hsorted : (sortStable keyLt g.nodes).Pairwise (fun a b => ¬ keyLt b a) :=
    sortStable_pairwise keyLt (fun _ _ h => keyLt_asymm h)
      (fun _ _ _ h1 h2 => not_keyLt_trans h1 h2) g.nodes
  have hnodup : (sortStable keyLt g.nodes).Nodup :=
    (sortStable_perm keyLt g.nodes).nodup_iff.mpr hg.1.nodup
  rcases bu_fold (sortStable keyLt g.nodes) g [] hg
      (by intro u hu; cases hu) (fun u hu => (hmem u).mp hu)
      hsorted hnodup (by intro u hu; cases hu) with ⟨hsh1, hbu⟩
  have hgood1 : GoodGraph (balance_bottom_to_top g (sortStable keyLt g.nodes)) :=
    hg.of_shapeEq hsh1
  have hsortedR : (sortStable keyLt g.nodes).reverse.Pairwise (fun a b => ¬ keyLt a b) := by
    rw [List.pairwise_reverse]
    exact hsorted
  have hnodupR : (sortStable keyLt g.nodes).reverse.Nodup := by
    rw [List.nodup_reverse]
    exact hnodup
  rcases td_fold (sortStable keyLt g.nodes).reverse
      (balance_bottom_to_top g (sortStable keyLt g.nodes)) [] hgood1
      (by intro u hu; cases hu)
      (by
        intro u hu
        show u ∈ (List.foldl balanceBUStep g (sortStable keyLt g.nodes)).nodes
        rw [hsh1.1]
        exact (hmem u).mp (List.mem_reverse.mp hu))
      hsortedR hnodupR (by intro u hu; cases hu)
      (fun u hu => hbu u (List.mem_reverse.mp hu)) with ⟨hsh2, htd⟩
  have hshape : shapeEq g (balance_top_to_bottom
      (balance_bottom_to_top g (sortStable keyLt g.nodes))
      ((sortStable keyLt g.nodes).reverse)) :=
    shapeEq_trans hsh1 hsh2
  have hall : g.nodes.all (fun u =>
      (decide (u = mn) || !((inwardEdges g u).isEmpty)) &&
      (decide (u = mx) || !((outwardEdges g u).isEmpty))) = true := by
    unfold isRegularOpt at hreg
    rw [hmn, hmx] at hreg
    injection hreg
  have hv2 := List.all_eq_true.mp hall v hv
  rw [Bool.and_eq_true, Bool.or_eq_true, Bool.or_eq_true] at hv2
  have hinfil : g.edges.filter (inPred v) ≠ [] := by
    rcases hv2.1 with h | h
    · exact absurd (of_decide_eq_true h) hvmn
    · intro hnil
      have hne : inwardEdges g v = [] := by
        unfold inwardEdges
        rw [(inwardPairs_nil_iff g v).mpr hnil]
        rfl
      rw [hne] at h
      simp at h
  have houtfil : g.edges.filter (outPred v) ≠ [] := by
    rcases hv2.2 with h | h
    · exact absurd (of_decide_eq_true h) hvmx
    · intro hnil
      have hne : outwardEdges g v = [] := by
        unfold outwardEdges
        rw [(outwardPairs_nil_iff g v).mpr hnil]
        rfl
      rw [hne] at h
      simp at h
  apply htd v (List.mem_reverse.mpr ((hmem v).mpr hv))
  · intro hnil
    apply hinfil
    rw [← List.length_eq_zero] at hnil ⊢
    rw [← shapeEq_inFilter_length hshape v]
    exact hnil
  · intro hnil
    apply houtfil
    rw [← List.length_eq_zero] at hnil ⊢
    rw [← shapeEq_outFilter_length hshape v]
    exact hnil

/-- The three-node path graph `(0,0) → (0,1) → (0,2)` with unit weights:
a concrete regular graph with one internal node. -/
def pathG : OPSLG :=
  { nodes := [⟨0, 0⟩, ⟨0, 1⟩, ⟨0, 2⟩]
    edges := [⟨⟨0, 0⟩, ⟨0, 1⟩, 1⟩, ⟨⟨0, 1⟩, ⟨0, 2⟩, 1⟩] }

theorem pathG_good : GoodGraph pathG := by
  constructor
  · show List.Pairwise _ _
    with_unfolding_all decide
  · intro e he
    fin_cases he
    · exact ⟨by with_unfolding_all decide, by with_unfolding_all decide,
        by with_unfolding_all decide⟩
    · exact ⟨by with_unfolding_all decide, by with_unfolding_all decide,
        by with_unfolding_all decide⟩

theorem pathG_unit : ∀ e ∈ pathG.edges, e.weight = 1 := by
  intro e he
  fin_cases he <;> rfl

/-- Witness for `balanced_after_passes`: the concrete path graph satisfies every
hypothesis at its internal node `(0,1)`, and the balanced sums agree there. -/
theorem balanced_after_passes_witness :
    (GoodGraph pathG ∧ (∀ e ∈ pathG.edges, e.weight = 1) ∧
     minNodeKey pathG.nodes = some ⟨0, 0⟩ ∧
     maxNodeKey pathG.nodes = some ⟨0, 2⟩ ∧
     isRegularOpt pathG = some true ∧
     (⟨0, 1⟩ : Pt) ∈ pathG.nodes ∧
     (⟨0, 1⟩ : Pt) ≠ ⟨0, 0⟩ ∧ (⟨0, 1⟩ : Pt) ≠ ⟨0, 2⟩) ∧
    wInSum (balance_top_to_bottom (balance_bottom_to_top pathG (sortStable keyLt pathG.nodes))
        ((sortStable keyLt pathG.nodes).reverse)) ⟨0, 1⟩ =
    wOutSum (balance_top_to_bottom (balance_bottom_to_top pathG (sortStable keyLt pathG.nodes))
        ((sortStable keyLt pathG.nodes).reverse)) ⟨0, 1⟩ :=
  ⟨⟨pathG_good, pathG_unit,
    by with_unfolding_all decide,
    by with_unfolding_all decide,
    by with_unfolding_all decide,
    by with_unfolding_all decide,
    by with_unfolding_all decide,
    by with_unfolding_all decide⟩,
   @balanced_after_passes pathG pathG_good pathG_unit ⟨0, 0⟩ ⟨0, 2⟩
    (by with_unfolding_all decide)
    (by with_unfolding_all decide)
    (by with_unfolding_all decide)
    ⟨0, 1⟩
    (by with_unfolding_all decide)
    (by with_unfolding_all decide)
    (by with_unfolding_all decide)⟩

/-! ### Chain extraction: infrastructure -/

/-- Every stored weight is a natural number (true of the pipeline state after
unit weights and integer balancing increments). -/
def natWeights (g : OPSLG) : Prop := ∀ e ∈ g.edges, ∃ n : ℕ, e.weight = (n : ℚ)

/-- The total stored weight as a natural number; `outerFuel g = natW g + 1`. -/
def natW (g : OPSLG) : ℕ := (g.edges.map (fun e => e.weight.num.toNat)).sum

/-- An edge-reference list is a linked monotone chain from `v` to `mx`: each
reference resolves in the store, each edge starts where the previous one
ended, the first starts at `v` and the last ends at `mx`. -/
def chainLinkedB (g : OPSLG) (v mx : Pt) : List ℕ → Bool
  | [] => decide (v = mx)
  | i :: rest =>
    match g.edges.get? i with
    | none => false
    | some e => decide (e.first = v) && chainLinkedB g e.second mx rest

theorem keyLt_trans {a b c : Pt} (h1 : keyLt a b) (h2 : keyLt b c) : keyLt a c := by
  unfold keyLt at *
  rcases h1 with h1 | h1 <;> rcases h2 with h2 | h2
  · exact Or.inl (h1.trans h2)
  · exact Or.inl (h2.1 ▸ h1)
  · exact Or.inl (h1.1 ▸ h2)
  · exact Or.inr ⟨h1.1.trans h2.1, h1.2.trans h2.2⟩

theorem inPred_of_second {v : Pt} {e : OEdge} (h : e.second = v) : inPred v e = true := by
  subst h
  exact decide_eq_true ⟨Or.inr (peq_refl _), peq_refl _⟩

theorem outPred_of_first {v : Pt} {e : OEdge} (h : e.first = v) : outPred v e = true := by
  subst h
  exact decide_eq_true ⟨Or.inl (peq_refl _), peq_refl _⟩

theorem natWeights_nonneg {g : OPSLG} (h : natWeights g) {e : OEdge}
    (he : e ∈ g.edges) : 0 ≤ e.weight := by
  rcases h e he with ⟨n, hn⟩
  rw [hn]
  exact_mod_cast Nat.zero_le n

theorem le_wInSum {g : OPSLG} (h : natWeights g) {e : OEdge} (he : e ∈ g.edges)
    {u : Pt} (hp : inPred u e = true) : e.weight ≤ wInSum g u := by
  unfold wInSum
  refine List.single_le_sum ?_ e.weight
    (List.mem_map_of_mem _ (List.mem_filter.mpr ⟨he, hp⟩))
  intro x hx
  rcases List.mem_map.mp hx with ⟨e2, he2, hx2⟩
  exact hx2 ▸ natWeights_nonneg h (List.mem_filter.mp he2).1

/-- With natural weights, a positive outward sum yields an available leftmost
outward edge. -/
theorem leftmost_some_of_pos {g : OPSLG} (hnat : natWeights g) {v : Pt}
    (hpos : 0 < wOutSum g v) :
    ∃ i e, leftmost_available_outward_edge v g = some (i, e) ∧
      g.edges.get? i = some e ∧ outPred v e = true ∧ 0 < e.weight := by
  unfold leftmost_available_outward_edge
  cases hq : (outwardPairs g v).find? (fun p => decide (p.2.weight > 0)) with
  | none =>
    exfalso
    have hall : ∀ p ∈ outwardPairs g v, ¬ (p.2.weight > 0) := by
      intro p hp
      simpa using List.find?_eq_none.mp hq p hp
    have hzero : ((outwardPairs g v).map (·.2.weight)).sum = 0 := by
      apply List.sum_eq_zero
      intro x hx
      rcases List.mem_map.mp hx with ⟨p, hp, hx2⟩
      have h1 : ¬ (p.2.weight > 0) := hall p hp
      have h2 : 0 ≤ p.2.weight :=
        natWeights_nonneg hnat (List.get?_mem (outwardPairs_mem hp).1)
      rw [← hx2]
      linarith
    rw [outwardPairs_sum] at hzero
    rw [hzero] at hpos
    exact lt_irrefl 0 hpos
  | some p =>
    rcases p with ⟨i, e⟩
    have hmem := List.mem_of_find?_eq_some hq
    have hprop : 0 < e.weight := by
      have := List.find?_some hq
      simpa using this
    rcases outwardPairs_mem hmem with ⟨hget, hout⟩
    exact ⟨i, e, rfl, hget, hout, hprop⟩

theorem natWeights_setWeight_sub {g : OPSLG} (hnat : natWeights g) {i : ℕ}
    {e : OEdge} (hi : g.edges.get? i = some e) (hpos : 0 < e.weight) :
    natWeights (setWeight g i (e.weight - 1)) := by
  intro e' he'
  rw [setWeight_edges_eq _ hi] at he'
  rcases List.mem_or_eq_of_mem_set he' with h | h
  · exact hnat e' h
  · subst h
    rcases hnat e (List.get?_mem hi) with ⟨n, hn⟩
    have hn1 : 1 ≤ n := by
      by_contra hc
      have : n = 0 := by omega
      rw [this] at hn
      rw [hn] at hpos
      simp at hpos
    refine ⟨n - 1, ?_⟩
    show e.weight - 1 = ((n - 1 : ℕ) : ℚ)
    rw [hn]
    push_cast [hn1]
    ring

theorem sum_map_set_lt (f : OEdge → ℕ) :
    ∀ (l : List OEdge) (i : ℕ) (e e2 : OEdge), l.get? i = some e → f e2 < f e →
      ((l.set i e2).map f).sum < (l.map f).sum := by
  intro l
  induction l with
  | nil => intro i e e2 h; cases h
  | cons x xs ih =>
    intro i e e2 h hlt
    cases i with
    | zero =>
      injection h with h2
      subst h2
      simp only [List.set, List.map_cons, List.sum_cons]
      omega
    | succ n =>
      have h2 : xs.get? n = some e := by simpa using h
      simp only [List.set, List.map_cons, List.sum_cons]
      have := ih n e e2 h2 hlt
      omega

theorem natW_setWeight_sub_lt {g : OPSLG} (hnat : natWeights g) {i : ℕ}
    {e : OEdge} (hi : g.edges.get? i = some e) (hpos : 0 < e.weight) :
    natW (setWeight g i (e.weight - 1)) < natW g := by
  rcases hnat e (List.get?_mem hi) with ⟨n, hn⟩
  have hn1 : 1 ≤ n := by
    have : (0 : ℚ) < n := hn ▸ hpos
    exact_mod_cast this
  unfold natW
  rw [setWeight_edges_eq _ hi]
  apply sum_map_set_lt _ _ _ _ _ hi
  show (e.weight - 1).num.toNat < e.weight.num.toNat
  have h2 : e.weight - 1 = ((n - 1 : ℕ) : ℚ) := by
    rw [hn]
    push_cast [hn1]
    ring
  rw [h2, hn, Rat.num_natCast, Rat.num_natCast]
  omega

theorem forall₂_get?_some {l1 l2 : List OEdge}
    (h : List.Forall₂ edgeShape l1 l2) :
    ∀ {i : ℕ} {a : OEdge}, l1.get? i = some a →
      ∃ b, l2.get? i = some b ∧ edgeShape a b := by
  induction h with
  | nil => intro i a ha; cases ha
  | cons hab h ih =>
    intro i a ha
    cases i with
    | zero =>
      injection ha with h2
      subst h2
      exact ⟨_, rfl, hab⟩
    | succ n =>
      have h2 := ih (by simpa using ha)
      simpa using h2

theorem forall₂_get?_none {l1 l2 : List OEdge}
    (h : List.Forall₂ edgeShape l1 l2) {i : ℕ} (ha : l1.get? i = none) :
    l2.get? i = none := by
  rw [List.get?_eq_none] at ha ⊢
  rw [← h.length_eq]
  exact ha

/-- `chainLinkedB` only reads edge endpoints, so it is invariant under weight
mutation. -/
theorem chainLinkedB_shape {g g2 : OPSLG} (h : shapeEq g g2) (mx : Pt) :
    ∀ (c : List ℕ) (v : Pt), chainLinkedB g v mx c = chainLinkedB g2 v mx c := by
  intro c
  induction c with
  | nil => intro v; rfl
  | cons i rest ih =>
    intro v
    show (match g.edges.get? i with
      | none => false
      | some e => decide (e.first = v) && chainLinkedB g e.second mx rest) =
      (match g2.edges.get? i with
      | none => false
      | some e => decide (e.first = v) && chainLinkedB g2 e.second mx rest)
    cases hq : g.edges.get? i with
    | none => rw [forall₂_get?_none h.2 hq]
    | some e =>
      rcases forall₂_get?_some h.2 hq with ⟨e2, hq2, hsh⟩
      rw [hq2]
      dsimp only
      rw [hsh.1, hsh.2, ih e.second]

theorem filter_sublist_of_imp {α : Type} {l : List α} {p q : α → Bool}
    (himp : ∀ a ∈ l, q a = true → p a = true) :
    List.Sublist (l.filter q) (l.filter p) := by
  induction l with
  | nil => simp
  | cons a as ih =>
    have ih2 := ih (fun b hb => himp b (List.mem_cons_of_mem a hb))
    rw [List.filter_cons, List.filter_cons]
    by_cases hq : q a = true
    · rw [if_pos hq, if_pos (himp a (List.mem_cons_self a as) hq)]
      exact ih2.cons₂ a
    · rw [if_neg hq]
      by_cases hp : p a = true
      · rw [if_pos hp]
        exact ih2.cons a
      · rw [if_neg hp]
        exact ih2

theorem filter_length_lt_of_imp {α : Type} {l : List α} {p q : α → Bool}
    (himp : ∀ a ∈ l, q a = true → p a = true) {x : α} (hx : x ∈ l)
    (hpx : p x = true) (hqx : q x = false) :
    (l.filter q).length < (l.filter p).length := by
  have hsub := filter_sublist_of_imp himp
  refine lt_of_le_of_ne hsub.length_le ?_
  intro heq
  have hq : l.filter q = l.filter p := hsub.eq_of_length heq
  have hxp : x ∈ l.filter p := List.mem_filter.mpr ⟨hx, hpx⟩
  rw [← hq] at hxp
  have := (List.mem_filter.mp hxp).2
  rw [hqx] at this
  cases this

/-- Strictly fewer nodes lie `keyLt`-above `u'` than above `v` when
`keyLt v u'` and `u'` is a node. -/
theorem filter_above_lt {nodes : List Pt} {v u' : Pt} (hu' : u' ∈ nodes)
    (hk : keyLt v u') :
    (nodes.filter (fun u => decide (keyLt u' u))).length <
      (nodes.filter (fun u => decide (keyLt v u))).length := by
  apply filter_length_lt_of_imp ?_ hu' (decide_eq_true hk)
    (decide_eq_false (keyLt_irrefl u'))
  intro a _ ha
  exact decide_eq_true (keyLt_trans hk (of_decide_eq_true ha))

theorem weightAt_setWeight_ne {g : OPSLG} {i : ℕ} (w : ℚ) {i' : ℕ} (h : i ≠ i') :
    weightAt (setWeight g i w) i' = weightAt g i' := by
  unfold weightAt setWeight
  rw [List.get?_set_ne _ _ h]

/-- The inner `while node is not nodes[-1]` walk: from any node `v` of a graph
with natural weights in which every node strictly above `v` (except `mx`) is
weight-balanced and `v` itself has available outward weight, the walk reaches
`mx`, returning a linked reference chain and a graph that differs only by the
walked edges each losing one unit of weight. -/
theorem chainFollow_spec (mx : Pt) :
    ∀ (fuel : ℕ) (g : OPSLG) (v : Pt),
    GoodGraph g → natWeights g → v ∈ g.nodes →
    (v ≠ mx → 0 < wOutSum g v) →
    (∀ u ∈ g.nodes, keyLt v u → u ≠ mx → wInSum g u = wOutSum g u) →
    (g.nodes.filter (fun u => decide (keyLt v u))).length < fuel →
    ∃ mids gf, chainFollow g mx v fuel = some (mids, gf) ∧
      shapeEq g gf ∧ natWeights gf ∧ natW gf ≤ natW g ∧
      chainLinkedB gf v mx mids = true ∧
      (∀ u ∈ g.nodes, u ≠ v → ¬ keyLt v u →
        wInSum gf u = wInSum g u ∧ wOutSum gf u = wOutSum g u) ∧
      (v = mx → gf = g) ∧
      (v ≠ mx → wInSum gf v = wInSum g v ∧ wOutSum gf v = wOutSum g v - 1) ∧
      (∀ u ∈ g.nodes, keyLt v u → u ≠ mx → wInSum gf u = wOutSum gf u) ∧
      (∀ i e', g.edges.get? i = some e' → e'.first ≠ v → ¬ keyLt v e'.first →
        weightAt gf i = weightAt g i) := by
  intro fuel
  induction fuel with
  | zero => intro g v _ _ _ _ _ hfuel; omega
  | succ fuel ih =>
    intro g v hg hnat hv hav hinv hfuel
    by_cases hvmx : v = mx
    · subst hvmx
      refine ⟨[], g, ?_, shapeEq_refl g, hnat, le_refl _, ?_, ?_, fun _ => rfl, ?_, hinv, ?_⟩
      · unfold chainFollow
        rw [if_pos rfl]
      · exact decide_eq_true rfl
      · intro u _ _ _
        exact ⟨rfl, rfl⟩
      · intro h
        exact absurd rfl h
      · intro i e' _ _ _
        rfl
    · rcases leftmost_some_of_pos hnat (hav hvmx) with ⟨i, e, hfind, hget, houtp, hpos⟩
      have he : e ∈ g.edges := List.get?_mem hget
      have hef : e.first = v := outPred_exact hg hv he houtp
      rcases hg.2 e he with ⟨_, hsec, hupw⟩
      have hkv : keyLt v e.second := hef ▸ hupw
      have hshape1 : shapeEq g (setWeight g i (e.weight - 1)) := setWeight_shapeEq _ hget
      have hnodes1 : (setWeight g i (e.weight - 1)).nodes = g.nodes := hshape1.1
      have hgood1 : GoodGraph (setWeight g i (e.weight - 1)) := hg.of_shapeEq hshape1
      have hnat1 : natWeights (setWeight g i (e.weight - 1)) :=
        natWeights_setWeight_sub hnat hget hpos
      have hesne : e.second ≠ v := fun h => keyLt_irrefl v (h ▸ hkv)
      have hwout1 : ∀ u ∈ g.nodes, u ≠ v →
          wOutSum (setWeight g i (e.weight - 1)) u = wOutSum g u := by
        intro u hu hne
        rw [wOutSum_setWeight _ hget u, bump_outPred_false hg hu he hef hne]
        simp
      have hwin1 : ∀ u ∈ g.nodes, u ≠ e.second →
          wInSum (setWeight g i (e.weight - 1)) u = wInSum g u := by
        intro u hu hne
        rw [wInSum_setWeight _ hget u, bumpTD_inPred_false hg hu he rfl hne]
        simp
      have hwin_es : wInSum (setWeight g i (e.weight - 1)) e.second =
          wInSum g e.second - 1 := by
        rw [wInSum_setWeight _ hget, if_pos (inPred_of_second rfl)]
        ring
      have hwout_v : wOutSum (setWeight g i (e.weight - 1)) v = wOutSum g v - 1 := by
        rw [wOutSum_setWeight _ hget, if_pos houtp]
        ring
      have hav2 : e.second ≠ mx → 0 < wOutSum (setWeight g i (e.weight - 1)) e.second := by
        intro hne
        rw [hwout1 e.second hsec hesne]
        rw [← hinv e.second hsec hkv hne]
        calc (0 : ℚ) < e.weight := hpos
          _ ≤ wInSum g e.second := le_wInSum hnat he (inPred_of_second rfl)
      have hinv2 : ∀ u ∈ (setWeight g i (e.weight - 1)).nodes, keyLt e.second u →
          u ≠ mx → wInSum (setWeight g i (e.weight - 1)) u =
            wOutSum (setWeight g i (e.weight - 1)) u := by
        rw [hnodes1]
        intro u hu hk hne
        have hkvu : keyLt v u := keyLt_trans hkv hk
        have hunv : u ≠ v := fun h => keyLt_irrefl v (h ▸ hkvu)
        have hunes : u ≠ e.second := fun h => keyLt_irrefl e.second (h ▸ hk)
        rw [hwin1 u hu hunes, hwout1 u hu hunv]
        exact hinv u hu hkvu hne
      have hfuel2 : ((setWeight g i (e.weight - 1)).nodes.filter
          (fun u => decide (keyLt e.second u))).length < fuel := by
        rw [hnodes1]
        have := filter_above_lt hsec hkv
        omega
      rcases ih (setWeight g i (e.weight - 1)) e.second hgood1 hnat1
          (by rw [hnodes1]; exact hsec) hav2 hinv2 hfuel2 with
        ⟨mids, gf, heqF, hshF, hnatF, hnwF, hlinkF, hAF, hBF', hBF, hCF, hFF⟩
      have hshape : shapeEq g gf := shapeEq_trans hshape1 hshF
      refine ⟨i :: mids, gf, ?_, hshape, hnatF, ?_, ?_, ?_, ?_, ?_, ?_, ?_⟩
      · unfold chainFollow
        rw [if_neg hvmx, hfind]
        dsimp only
        rw [heqF]
      · exact le_trans hnwF (le_of_lt (natW_setWeight_sub_lt hnat hget hpos))
      · show (match gf.edges.get? i with
          | none => false
          | some e2 => decide (e2.first = v) && chainLinkedB gf e2.second mx mids) = true
        rcases forall₂_get?_some hshape.2 hget with ⟨e2, hq2, hsh2⟩
        rw [hq2]
        dsimp only
        rw [hsh2.1, hsh2.2, hef, hlinkF]
        simp
      · intro u hu hunv hnk
        have hunes : u ≠ e.second := fun h => hnk (h ▸ hkv)
        have hnk2 : ¬ keyLt e.second u := fun h => hnk (keyLt_trans hkv h)
        have h2 := hAF u (by rw [hnodes1]; exact hu) hunes hnk2
        rw [h2.1, h2.2, hwin1 u hu hunes, hwout1 u hu hunv]
        exact ⟨rfl, rfl⟩
      · intro h
        exact absurd h hvmx
      · intro _
        have h2 := hAF v (by rw [hnodes1]; exact hv) (Ne.symm hesne) (keyLt_asymm hkv)
        rw [h2.1, h2.2, hwin1 v hv (Ne.symm hesne), hwout_v]
        exact ⟨rfl, rfl⟩
      · intro u hu hk hne
        by_cases hue : u = e.second
        · subst hue
          have h2 := hBF hne
          rw [h2.1, h2.2, hwin_es, hwout1 e.second hsec hesne]
          rw [hinv e.second hu hk hne]
        · by_cases hku : keyLt e.second u
          · exact hCF u (by rw [hnodes1]; exact hu) hku hne
          · have hunv : u ≠ v := fun h => keyLt_irrefl v (h ▸ hk)
            have h2 := hAF u (by rw [hnodes1]; exact hu) hue hku
            rw [h2.1, h2.2, hwin1 u hu hue, hwout1 u hu hunv]
            exact hinv u hu hk hne
      · intro i' e' hget' hfne hfnk
        have hii : i ≠ i' := by
          intro h
          subst h
          rw [hget] at hget'
          injection hget' with h2
          exact hfne (h2 ▸ hef)
        have hget2 : (setWeight g i (e.weight - 1)).edges.get? i' = some e' := by
          show (g.edges.set i _).get? i' = some e'
          rw [List.get?_set_ne _ _ hii]
          exact hget'
        have hfne2 : e'.first ≠ e.second := fun h => hfnk (h ▸ hkv)
        have hfnk2 : ¬ keyLt e.second e'.first := fun h => hfnk (keyLt_trans hkv h)
        rw [hFF i' e' hget2 hfne2 hfnk2, weightAt_setWeight_ne _ hii]

/-- The outer chain-extraction loop: with natural
weights and every internal node balanced, the extraction terminates and every
produced chain is a nonempty linked walk from `mn` to `mx`. -/
theorem chainsExtract_spec (mn mx : Pt) (innerFuel : ℕ) :
    ∀ (fuel : ℕ) (g : OPSLG),
    GoodGraph g → natWeights g → mn ∈ g.nodes →
    (∀ u ∈ g.nodes, u ≠ mn → u ≠ mx → wInSum g u = wOutSum g u) →
    g.nodes.length ≤ innerFuel →
    natW g < fuel →
    ∃ chains gf, chainsExtract g mn mx innerFuel fuel = some (chains, gf) ∧
      shapeEq g gf ∧
      ∀ c ∈ chains, c ≠ [] ∧ chainLinkedB gf mn mx c = true := by
  intro fuel
  induction fuel with
  | zero => intro g _ _ _ _ _ hfuel; omega
  | succ fuel ih =>
    intro g hg hnat hmn hbal hinner hfuel
    cases hq : leftmost_available_outward_edge mn g with
    | none =>
      refine ⟨[], g, ?_, shapeEq_refl g, fun c hc => absurd hc (List.not_mem_nil c)⟩
      unfold chainsExtract
      rw [hq]
    | some p =>
      rcases p with ⟨i0, e0⟩
      have hq2 : (outwardPairs g mn).find? (fun p => decide (p.2.weight > 0)) =
          some (i0, e0) := hq
      have hmem := List.mem_of_find?_eq_some hq2
      have hpos : 0 < e0.weight := by simpa using List.find?_some hq2
      rcases outwardPairs_mem hmem with ⟨hget0, hout0⟩
      have he0 : e0 ∈ g.edges := List.get?_mem hget0
      have hef0 : e0.first = mn := outPred_exact hg hmn he0 hout0
      rcases hg.2 e0 he0 with ⟨_, hsec0, hupw0⟩
      have hkv0 : keyLt mn e0.second := hef0 ▸ hupw0
      have hesmn : e0.second ≠ mn := fun h => keyLt_irrefl mn (h ▸ hkv0)
      have hav1 : e0.second ≠ mx → 0 < wOutSum g e0.second := by
        intro hne
        rw [← hbal e0.second hsec0 hesmn hne]
        calc (0 : ℚ) < e0.weight := hpos
          _ ≤ wInSum g e0.second := le_wInSum hnat he0 (inPred_of_second rfl)
      have hinv1 : ∀ u ∈ g.nodes, keyLt e0.second u → u ≠ mx →
          wInSum g u = wOutSum g u := by
        intro u hu hk hne
        have hune : u ≠ mn := fun h => keyLt_asymm hkv0 (h ▸ hk)
        exact hbal u hu hune hne
      have hfuelI : (g.nodes.filter (fun u => decide (keyLt e0.second u))).length <
          innerFuel := by
        have h1 : (g.nodes.filter (fun u => decide (keyLt e0.second u))).length <
            g.nodes.length :=
          List.length_filter_lt_length_iff_exists.mpr
            ⟨mn, hmn, by simpa using keyLt_asymm hkv0⟩
        omega
      rcases chainFollow_spec mx innerFuel g e0.second hg hnat hsec0 hav1 hinv1 hfuelI with
        ⟨mids, g1, heq1, hsh1, hnat1, hnw1, hlink1, hA1, hB1', hB1, hC1, hF1⟩
      rcases forall₂_get?_some hsh1.2 hget0 with ⟨e0', hget0', hsh0'⟩
      have hef0' : e0'.first = mn := hsh0'.1.trans hef0
      have hes0' : e0'.second = e0.second := hsh0'.2
      have hfne : e0.first ≠ e0.second := by
        rw [hef0]
        exact Ne.symm hesmn
      have hfnk : ¬ keyLt e0.second e0.first := by
        rw [hef0]
        exact keyLt_asymm hkv0
      have hWpres : weightAt g1 i0 = weightAt g i0 := hF1 i0 e0 hget0 hfne hfnk
      have heW : weightAt g1 i0 = e0'.weight := by
        unfold weightAt
        rw [hget0']
      have heWg : weightAt g i0 = e0.weight := by
        unfold weightAt
        rw [hget0]
      have hw0' : e0'.weight = e0.weight := by
        rw [← heW, hWpres, heWg]
      have hpos' : 0 < e0'.weight := hw0' ▸ hpos
      have hsh2 : shapeEq g1 (setWeight g1 i0 (weightAt g1 i0 - 1)) := by
        rw [heW]
        exact setWeight_shapeEq _ hget0'
      have hnat2 : natWeights (setWeight g1 i0 (weightAt g1 i0 - 1)) := by
        rw [heW]
        exact natWeights_setWeight_sub hnat1 hget0' hpos'
      have hgood2 : GoodGraph (setWeight g1 i0 (weightAt g1 i0 - 1)) :=
        (hg.of_shapeEq hsh1).of_shapeEq hsh2
      have hnodes2 : (setWeight g1 i0 (weightAt g1 i0 - 1)).nodes = g.nodes :=
        hsh2.1.trans hsh1.1
      have hnw2 : natW (setWeight g1 i0 (weightAt g1 i0 - 1)) < natW g := by
        have h1 : natW (setWeight g1 i0 (weightAt g1 i0 - 1)) < natW g1 := by
          rw [heW]
          exact natW_setWeight_sub_lt hnat1 hget0' hpos'
        omega
      have hbal2 : ∀ u ∈ (setWeight g1 i0 (weightAt g1 i0 - 1)).nodes, u ≠ mn → u ≠ mx →
          wInSum (setWeight g1 i0 (weightAt g1 i0 - 1)) u =
            wOutSum (setWeight g1 i0 (weightAt g1 i0 - 1)) u := by
        rw [hnodes2]
        intro u hu hune hunx
        have hu1 : u ∈ g1.nodes := by
          rw [hsh1.1]
          exact hu
        have hWval : weightAt g1 i0 - 1 - e0'.weight = -1 := by
          rw [heW]
          ring
        rw [wInSum_setWeight _ hget0' u, wOutSum_setWeight _ hget0' u,
            bump_outPred_false (hg.of_shapeEq hsh1) hu1 (List.get?_mem hget0') hef0' hune]
        by_cases hue : u = e0.second
        · subst hue
          rw [if_pos (inPred_of_second hes0'), hWval]
          rcases hB1 hunx with ⟨hbi, hbo⟩
          rw [hbi, hbo, hbal e0.second hu hune hunx]
          simp [sub_eq_add_neg]
        · rw [bumpTD_inPred_false (hg.of_shapeEq hsh1) hu1 (List.get?_mem hget0') hes0' hue]
          simp
          by_cases hku : keyLt e0.second u
          · exact hC1 u hu hku hunx
          · rcases hA1 u hu hue hku with ⟨hai, hao⟩
            rw [hai, hao]
            exact hbal u hu hune hunx
      rcases ih (setWeight g1 i0 (weightAt g1 i0 - 1)) hgood2 hnat2
          (by rw [hnodes2]; exact hmn)
          hbal2 (by rw [hnodes2]; exact hinner) (by omega) with
        ⟨rest, gF, heqR, hshR, hpropR⟩
      have hshF : shapeEq g gF := shapeEq_trans hsh1 (shapeEq_trans hsh2 hshR)
      refine ⟨(i0 :: mids) :: rest, gF, ?_, hshF, ?_⟩
      · unfold chainsExtract
        rw [hq]
        dsimp only
        rw [heq1]
        dsimp only
        rw [heqR]
      · intro c hc
        rcases List.mem_cons.mp hc with hc | hc
        · subst hc
          refine ⟨List.cons_ne_nil _ _, ?_⟩
          show (match gF.edges.get? i0 with
            | none => false
            | some e2 => decide (e2.first = mn) && chainLinkedB gF e2.second mx mids) = true
          rcases forall₂_get?_some hshF.2 hget0 with ⟨eF, hgetF, hshEF⟩
          rw [hgetF]
          dsimp only
          rw [hshEF.1, hshEF.2, hef0,
            ← chainLinkedB_shape (shapeEq_trans hsh2 hshR) mx mids e0.second, hlink1]
          simp
        · exact hpropR c hc

/-! ### The global extremes and the sorted node list -/

theorem foldl_min_mem :
    ∀ (vs : List Pt) (v : Pt),
      vs.foldl (fun m p => if keyLt p m then p else m) v ∈ v :: vs := by
  intro vs
  induction vs with
  | nil => intro v; exact List.mem_cons_self v []
  | cons p ps ih =>
    intro v
    show List.foldl _ (if keyLt p v then p else v) ps ∈ v :: p :: ps
    rcases List.mem_cons.mp (ih (if keyLt p v then p else v)) with h | h
    · rw [h]
      by_cases hc : keyLt p v
      · rw [if_pos hc]
        exact List.mem_cons_of_mem v (List.mem_cons_self p ps)
      · rw [if_neg hc]
        exact List.mem_cons_self v _
    · exact List.mem_cons_of_mem v (List.mem_cons_of_mem p h)

theorem foldl_min_not_lt :
    ∀ (vs : List Pt) (v u : Pt), u ∈ v :: vs →
      ¬ keyLt u (vs.foldl (fun m p => if keyLt p m then p else m) v) := by
  intro vs
  induction vs with
  | nil =>
    intro v u hu
    have h : u = v := by simpa using hu
    subst h
    exact keyLt_irrefl u
  | cons p ps ih =>
    intro v u hu
    show ¬ keyLt u (List.foldl _ (if keyLt p v then p else v) ps)
    rcases List.mem_cons.mp hu with h | h
    · subst h
      by_cases hc : keyLt p u
      · rw [if_pos hc]
        intro hk
        exact ih p p (List.mem_cons_self p ps) (keyLt_trans hc hk)
      · rw [if_neg hc]
        exact ih u u (List.mem_cons_self u ps)
    · rcases List.mem_cons.mp h with h2 | h2
      · subst h2
        by_cases hc : keyLt u v
        · rw [if_pos hc]
          exact ih u u (List.mem_cons_self u ps)
        · rw [if_neg hc]
          exact not_keyLt_trans (ih v v (List.mem_cons_self v ps)) hc
      · by_cases hc : keyLt p v
        · rw [if_pos hc]
          exact ih p u (List.mem_cons_of_mem p h2)
        · rw [if_neg hc]
          exact ih v u (List.mem_cons_of_mem v h2)

theorem minNodeKey_spec {nodes : List Pt} {mn : Pt}
    (h : minNodeKey nodes = some mn) :
    mn ∈ nodes ∧ ∀ u ∈ nodes, ¬ keyLt u mn := by
  cases nodes with
  | nil => cases h
  | cons v vs =>
    unfold minNodeKey at h
    injection h with h2
    subst h2
    exact ⟨foldl_min_mem vs v, fun u hu => foldl_min_not_lt vs v u hu⟩

theorem foldl_max_mem :
    ∀ (vs : List Pt) (v : Pt),
      vs.foldl (fun m p => if keyLt m p then p else m) v ∈ v :: vs := by
  intro vs
  induction vs with
  | nil => intro v; exact List.mem_cons_self v []
  | cons p ps ih =>
    intro v
    show List.foldl _ (if keyLt v p then p else v) ps ∈ v :: p :: ps
    rcases List.mem_cons.mp (ih (if keyLt v p then p else v)) with h | h
    · rw [h]
      by_cases hc : keyLt v p
      · rw [if_pos hc]
        exact List.mem_cons_of_mem v (List.mem_cons_self p ps)
      · rw [if_neg hc]
        exact List.mem_cons_self v _
    · exact List.mem_cons_of_mem v (List.mem_cons_of_mem p h)

theorem foldl_max_not_lt :
    ∀ (vs : List Pt) (v u : Pt), u ∈ v :: vs →
      ¬ keyLt (vs.foldl (fun m p => if keyLt m p then p else m) v) u := by
  intro vs
  induction vs with
  | nil =>
    intro v u hu
    have h : u = v := by simpa using hu
    subst h
    exact keyLt_irrefl u
  | cons p ps ih =>
    intro v u hu
    show ¬ keyLt (List.foldl _ (if keyLt v p then p else v) ps) u
    rcases List.mem_cons.mp hu with h | h
    · subst h
      by_cases hc : keyLt u p
      · rw [if_pos hc]
        intro hk
        exact ih p p (List.mem_cons_self p ps) (keyLt_trans hk hc)
      · rw [if_neg hc]
        exact ih u u (List.mem_cons_self u ps)
    · rcases List.mem_cons.mp h with h2 | h2
      · subst h2
        by_cases hc : keyLt v u
        · rw [if_pos hc]
          exact ih u u (List.mem_cons_self u ps)
        · rw [if_neg hc]
          intro hk
          exact ih v v (List.mem_cons_self v ps) (keyLt_of_not_of_lt hk hc)
      · by_cases hc : keyLt v p
        · rw [if_pos hc]
          exact ih p u (List.mem_cons_of_mem p h2)
        · rw [if_neg hc]
          exact ih v u (List.mem_cons_of_mem v h2)

theorem maxNodeKey_spec {nodes : List Pt} {mx : Pt}
    (h : maxNodeKey nodes = some mx) :
    mx ∈ nodes ∧ ∀ u ∈ nodes, ¬ keyLt mx u := by
  cases nodes with
  | nil => cases h
  | cons v vs =>
    unfold maxNodeKey at h
    injection h with h2
    subst h2
    exact ⟨foldl_max_mem vs v, fun u hu => foldl_max_not_lt vs v u hu⟩

/-- With separated nodes, `min(nodes, key=(y,x))` is the head of the
`(y,x)`-stable-sorted node list. -/
theorem sortStable_head_eq_min {nodes : List Pt} (hsep : Separated nodes) {mn : Pt}
    (hmn : minNodeKey nodes = some mn) :
    ∃ rest, sortStable keyLt nodes = mn :: rest := by
  rcases minNodeKey_spec hmn with ⟨hmem, hmin⟩
  cases hs : sortStable keyLt nodes with
  | nil =>
    exfalso
    rw [sortStable_eq_nil_iff] at hs
    rw [hs] at hmn
    cases hmn
  | cons a rest =>
    refine ⟨rest, ?_⟩
    have hains : a ∈ nodes := by
      rw [← sortStable_mem keyLt nodes a, hs]
      exact List.mem_cons_self a rest
    have hsorted := sortStable_pairwise keyLt (fun _ _ h => keyLt_asymm h)
      (fun _ _ _ h1 h2 => not_keyLt_trans h1 h2) nodes
    rw [hs] at hsorted
    have hfore := (List.pairwise_cons.mp hsorted).1
    by_cases hae : a = mn
    · rw [hae]
    · exfalso
      have hmem2 : mn ∈ a :: rest := by
        rw [← hs, sortStable_mem]
        exact hmem
      rcases List.mem_cons.mp hmem2 with h | h
      · exact hae h.symm
      · have h1 : ¬ keyLt mn a := hfore mn h
        have h2 : ¬ keyLt a mn := hmin a hains
        have hnp : ¬ peq a mn := fun hp => hae ((Separated.peq_iff hsep hains hmem).mp hp)
        rcases keyLt_total_of_sep hnp with h3 | h3
        · exact h2 h3
        · exact h1 h3

/-- With separated nodes, `max(nodes, key=(y,x))` is the last element of the
`(y,x)`-stable-sorted node list. -/
theorem sortStable_getLast_eq_max {nodes : List Pt} (hsep : Separated nodes)
    {mx : Pt} (hmx : maxNodeKey nodes = some mx) :
    (sortStable keyLt nodes).getLast? = some mx := by
  rcases maxNodeKey_spec hmx with ⟨hmem, hmax⟩
  rw [← List.head?_reverse]
  cases hs : (sortStable keyLt nodes).reverse with
  | nil =>
    exfalso
    have h2 : sortStable keyLt nodes = [] := by
      have := congrArg List.reverse hs
      simpa using this
    rw [sortStable_eq_nil_iff] at h2
    rw [h2] at hmx
    cases hmx
  | cons a rest =>
    have hains : a ∈ nodes := by
      rw [← sortStable_mem keyLt nodes a, ← List.mem_reverse, hs]
      exact List.mem_cons_self a rest
    have hsorted := sortStable_pairwise keyLt (fun _ _ h => keyLt_asymm h)
      (fun _ _ _ h1 h2 => not_keyLt_trans h1 h2) nodes
    have hrev : (sortStable keyLt nodes).reverse.Pairwise (fun a b => ¬ keyLt a b) := by
      rw [List.pairwise_reverse]
      exact hsorted
    rw [hs] at hrev
    have hfore := (List.pairwise_cons.mp hrev).1
    by_cases hae : a = mx
    · rw [hae]
      rfl
    · exfalso
      have hmem2 : mx ∈ a :: rest := by
        rw [← hs, List.mem_reverse, sortStable_mem]
        exact hmem
      rcases List.mem_cons.mp hmem2 with h | h
      · exact hae h.symm
      · have h1 : ¬ keyLt a mx := hfore mx h
        have h2 : ¬ keyLt mx a := hmax a hains
        have hnp : ¬ peq a mx := fun hp => hae ((Separated.peq_iff hsep hains hmem).mp hp)
        rcases keyLt_total_of_sep hnp with h3 | h3
        · exact h1 h3
        · exact h2 h3

/-- **C4.** For every regularized, weight-balanced oriented PSLG with
tolerance-separated nodes, strictly upward node-to-node edges and natural
weights, `construct_monotone_chains` over the `(y, x)`-sorted node list
succeeds, and every returned chain is a nonempty linked walk of store
references: every reference resolves to an edge, the first edge starts at the
global `(y, x)`-minimum, each edge's second endpoint is the next edge's first
endpoint, and the last edge ends at the global `(y, x)`-maximum. -/
theorem construct_monotone_chains_spec (g : OPSLG) (hg : GoodGraph g)
    (hnat : natWeights g) (_hreg : isRegularOpt g = some true)
    {mn mx : Pt} (hmn : minNodeKey g.nodes = some mn)
    (hmx : maxNodeKey g.nodes = some mx)
    (hbal : ∀ u ∈ g.nodes, u ≠ mn → u ≠ mx → wInSum g u = wOutSum g u) :
    ∃ chains gf,
      construct_monotone_chains g (sortStable keyLt g.nodes) = some (chains, gf) ∧
      ∀ c ∈ chains, c ≠ [] ∧ chainLinkedB gf mn mx c = true := by
  rcases sortStable_head_eq_min hg.1 hmn with ⟨rest, hs⟩
  have hlast : (sortStable keyLt g.nodes).getLast? = some mx :=
    sortStable_getLast_eq_max hg.1 hmx
  have hlen : (mn :: rest).length = g.nodes.length := by
    rw [← hs, sortStable_length]
  rw [hs] at hlast
  unfold construct_monotone_chains
  rw [hs, hlast]
  dsimp only
  have hmnn : mn ∈ g.nodes := (minNodeKey_spec hmn).1
  have houter : natW g < outerFuel g := Nat.lt_succ_self _
  rcases chainsExtract_spec mn mx (mn :: rest).length (outerFuel g) g hg hnat hmnn
      hbal (le_of_eq hlen.symm) houter with ⟨chains, gf, heq, _, hprop⟩
  exact ⟨chains, gf, heq, hprop⟩

theorem pathG_nat : natWeights pathG := by
  intro e he
  fin_cases he <;> exact ⟨1, by norm_num⟩

/-- Witness for `construct_monotone_chains_spec`: the three-node path graph
satisfies every hypothesis, and the extraction succeeds on it. -/
theorem construct_monotone_chains_spec_witness :
    (GoodGraph pathG ∧ natWeights pathG ∧ isRegularOpt pathG = some true ∧
     minNodeKey pathG.nodes = some ⟨0, 0⟩ ∧ maxNodeKey pathG.nodes = some ⟨0, 2⟩ ∧
     (∀ u ∈ pathG.nodes, u ≠ ⟨0, 0⟩ → u ≠ ⟨0, 2⟩ →
        wInSum pathG u = wOutSum pathG u)) ∧
    (∃ chains gf,
      construct_monotone_chains pathG (sortStable keyLt pathG.nodes) =
        some (chains, gf) ∧
      ∀ c ∈ chains, c ≠ [] ∧ chainLinkedB gf ⟨0, 0⟩ ⟨0, 2⟩ c = true) :=
  ⟨⟨pathG_good, pathG_nat,
    by with_unfolding_all decide,
    by with_unfolding_all decide,
    by with_unfolding_all decide,
    by with_unfolding_all decide⟩,
   @construct_monotone_chains_spec pathG pathG_good pathG_nat
    (by with_unfolding_all decide) ⟨0, 0⟩ ⟨0, 2⟩
    (by with_unfolding_all decide)
    (by with_unfolding_all decide)
    (by with_unfolding_all decide)⟩

/-! ### Regularization: sweep-cut infrastructure -/

/-- An edge crossing the bottom-up sweep front: source already processed,
target not yet. -/
def cutB (pre : List Pt) (e : OEdge) : Bool :=
  decide (e.first ∈ pre ∧ e.second ∉ pre)

/-- An edge crossing the top-down sweep front: target already processed,
source not yet. -/
def cutTD (pre : List Pt) (e : OEdge) : Bool :=
  decide (e.second ∈ pre ∧ e.first ∉ pre)

/-- Undirected adjacency through the edge store. -/
def adjP (g : OPSLG) (a b : Pt) : Prop :=
  ∃ e ∈ g.edges, (e.first = a ∧ e.second = b) ∨ (e.first = b ∧ e.second = a)

/-- Connectivity of the underlying undirected graph: every node reaches every
node through edges. -/
def ConnectedG (g : OPSLG) : Prop :=
  ∀ a ∈ g.nodes, ∀ b ∈ g.nodes, Relation.ReflTransGen (adjP g) a b

theorem countP_balance {α : Type} (A B C D : α → Bool) :
    ∀ (l : List α),
    (∀ e ∈ l, (if A e then 1 else 0) + (if C e then 1 else 0) =
      (if B e then 1 else 0) + (if D e then (1 : ℕ) else 0)) →
    l.countP A + l.countP C = l.countP B + l.countP D := by
  intro l
  induction l with
  | nil => intro _; rfl
  | cons x xs ih =>
    intro h
    have hx := h x (List.mem_cons_self x xs)
    have ihx := ih (fun e he => h e (List.mem_cons_of_mem x he))
    rw [List.countP_cons, List.countP_cons, List.countP_cons, List.countP_cons]
    omega

/-- A walk from inside a vertex set to outside it crosses the boundary. -/
theorem rtg_crossing {g : OPSLG} {P : Pt → Prop} {a b : Pt}
    (h : Relation.ReflTransGen (adjP g) a b) (ha : P a) :
    ¬ P b →
    ∃ e ∈ g.edges, (P e.first ∧ ¬ P e.second) ∨ (P e.second ∧ ¬ P e.first) := by
  induction h with
  | refl => intro hb; exact absurd ha hb
  | tail h1 hstep ih =>
    rename_i x y
    intro hb
    by_cases hPb : P x
    · rcases hstep with ⟨e, he, h2 | h2⟩
      · exact ⟨e, he, Or.inl ⟨h2.1 ▸ hPb, h2.2 ▸ hb⟩⟩
      · exact ⟨e, he, Or.inr ⟨h2.2 ▸ hPb, h2.1 ▸ hb⟩⟩
    · exact ih hPb

theorem bracketScanIndex_le (v : Pt) : ∀ (s : List OEdge), bracketScanIndex v s ≤ s.length := by
  intro s
  induction s with
  | nil => exact le_refl 0
  | cons e rest ih =>
    unfold bracketScanIndex
    split
    · exact Nat.zero_le _
    · simpa [Nat.add_comm] using ih

theorem addNodeSet_of_mem {nodes : List Pt} {v : Pt} (h : v ∈ nodes) :
    addNodeSet nodes v = nodes := by
  unfold addNodeSet
  rw [if_pos]
  exact (List.elem_iff).mpr h

theorem addEdgeSet_of_not_mem {edges : List OEdge} {e : OEdge} (h : e ∉ edges) :
    addEdgeSet edges e = edges ++ [e] := by
  unfold addEdgeSet
  rw [if_neg]
  intro hc
  exact h ((List.elem_iff).mp hc)

theorem inwardEdges_eq_nil_iff (g : OPSLG) (v : Pt) :
    inwardEdges g v = [] ↔ g.edges.filter (inPred v) = [] := by
  unfold inwardEdges
  rw [List.map_eq_nil, inwardPairs_nil_iff]

theorem outwardEdges_eq_nil_iff (g : OPSLG) (v : Pt) :
    outwardEdges g v = [] ↔ g.edges.filter (outPred v) = [] := by
  unfold outwardEdges
  rw [List.map_eq_nil, outwardPairs_nil_iff]

theorem filter_ne_nil_of_subset {l l2 : List OEdge} {p : OEdge → Bool}
    (hsub : ∀ e ∈ l, e ∈ l2) (h : l.filter p ≠ []) : l2.filter p ≠ [] := by
  intro hnil
  apply h
  rw [List.filter_eq_nil] at hnil ⊢
  intro a ha hp
  exact hnil a (hsub a ha) hp

theorem spliceSwept_length (s : List OEdge) (idx del : ℕ) (ins : List OEdge) :
    (spliceSwept s idx del ins).length + min (idx + del) s.length =
      s.length + ins.length + min idx s.length := by
  unfold spliceSwept
  rw [List.length_append, List.length_append, List.length_take, List.length_drop]
  omega

theorem spliceSwept_mem {s : List OEdge} {idx del : ℕ} {ins : List OEdge} {e : OEdge}
    (h : e ∈ spliceSwept s idx del ins) : e ∈ s ∨ e ∈ ins := by
  unfold spliceSwept at h
  rcases List.mem_append.mp h with h2 | h2
  · rcases List.mem_append.mp h2 with h3 | h3
    · exact Or.inl (List.mem_of_mem_take h3)
    · exact Or.inr h3
  · exact Or.inl (List.mem_of_mem_drop h2)

/-- Strict `(y,x)` sortedness of the sorted node list of a separated node
set. -/
theorem sortStable_pairwise_strict {nodes : List Pt} (hsep : Separated nodes) :
    (sortStable keyLt nodes).Pairwise keyLt := by
  have h1 : (sortStable keyLt nodes).Pairwise (fun a b => ¬ keyLt b a) :=
    sortStable_pairwise keyLt (fun _ _ h => keyLt_asymm h)
      (fun _ _ _ ha hb => not_keyLt_trans ha hb) nodes
  have h2 : (sortStable keyLt nodes).Nodup :=
    (sortStable_perm keyLt nodes).nodup_iff.mpr hsep.nodup
  refine (h1.and h2).imp_of_mem ?_
  intro a b ha hb hab
  have hanodes : a ∈ nodes := (sortStable_mem keyLt nodes a).mp ha
  have hbnodes : b ∈ nodes := (sortStable_mem keyLt nodes b).mp hb
  have hnp : ¬ peq a b := fun hp =>
    hab.2 ((Separated.peq_iff hsep hanodes hbnodes).mp hp)
  rcases keyLt_total_of_sep hnp with h3 | h3
  · exact h3
  · exact absurd h3 hab.1

/-- Advancing the bottom-up front past `v` exchanges the inward edges of `v`
for its outward edges in the crossing count. -/
theorem cut_step_identity_bu {N pre : List Pt} {v : Pt}
    (hbelow : ∀ u ∈ pre, keyLt u v)
    (hcomplete : ∀ u ∈ N, keyLt u v → u ∈ pre)
    (hvN : v ∈ N)
    {g2 : OPSLG} (hg2 : GoodGraph g2) (hn2 : g2.nodes = N) :
    g2.edges.countP (cutB (pre ++ [v])) + g2.edges.countP (inPred v) =
      g2.edges.countP (cutB pre) + g2.edges.countP (outPred v) := by
  have hvnotpre : v ∉ pre := fun h => keyLt_irrefl v (hbelow v h)
  have hv2 : v ∈ g2.nodes := by rw [hn2]; exact hvN
  apply countP_balance
  intro e he
  rcases hg2.2 e he with ⟨hf, hs, hk⟩
  rw [hn2] at hf hs
  by_cases hfv : e.first = v
  · have hkv : keyLt v e.second := hfv ▸ hk
    have hsnv : e.second ≠ v := fun h => keyLt_irrefl v (h ▸ hkv)
    have hsnp : e.second ∉ pre := fun h => keyLt_asymm hkv (hbelow _ h)
    have hA : cutB (pre ++ [v]) e = true := by
      refine decide_eq_true ⟨List.mem_append.mpr (Or.inr ?_), ?_⟩
      · rw [hfv]
        exact List.mem_singleton.mpr rfl
      · intro hmem
        rcases List.mem_append.mp hmem with h | h
        · exact hsnp h
        · exact hsnv (List.mem_singleton.mp h)
    have hB : cutB pre e = false :=
      decide_eq_false (fun hc => hvnotpre (hfv ▸ hc.1))
    have hC : inPred v e = false := by
      cases hq : inPred v e
      · rfl
      · exact absurd (inPred_exact hg2 hv2 he hq) hsnv
    have hD : outPred v e = true := outPred_of_first hfv
    rw [hA, hB, hC, hD]
    simp
  · by_cases hsv : e.second = v
    · have hfpre : e.first ∈ pre := hcomplete e.first hf (hsv ▸ hk)
      have hA : cutB (pre ++ [v]) e = false := by
        refine decide_eq_false (fun hc => hc.2 (List.mem_append.mpr (Or.inr ?_)))
        rw [hsv]
        exact List.mem_singleton.mpr rfl
      have hB : cutB pre e = true :=
        decide_eq_true ⟨hfpre, fun h => hvnotpre (hsv ▸ h)⟩
      have hC : inPred v e = true := inPred_of_second hsv
      have hD : outPred v e = false := by
        cases hq : outPred v e
        · rfl
        · exact absurd (outPred_exact hg2 hv2 he hq) hfv
      rw [hA, hB, hC, hD]
      simp
    · have hC : inPred v e = false := by
        cases hq : inPred v e
        · rfl
        · exact absurd (inPred_exact hg2 hv2 he hq) hsv
      have hD : outPred v e = false := by
        cases hq : outPred v e
        · rfl
        · exact absurd (outPred_exact hg2 hv2 he hq) hfv
      have hAB : cutB (pre ++ [v]) e = cutB pre e := by
        unfold cutB
        apply decide_eq_decide.mpr
        constructor
        · rintro ⟨h1, h2⟩
          refine ⟨?_, fun h => h2 (List.mem_append.mpr (Or.inl h))⟩
          rcases List.mem_append.mp h1 with h | h
          · exact h
          · exact absurd (List.mem_singleton.mp h) hfv
        · rintro ⟨h1, h2⟩
          refine ⟨List.mem_append.mpr (Or.inl h1), ?_⟩
          intro h
          rcases List.mem_append.mp h with h | h
          · exact h2 h
          · exact hsv (List.mem_singleton.mp h)
      rw [hAB, hC, hD]

/-- Advancing the top-down front past `v` exchanges the outward edges of `v`
for its inward edges in the crossing count. -/
theorem cut_step_identity_td {N pre : List Pt} {v : Pt}
    (habove : ∀ u ∈ pre, keyLt v u)
    (hcomplete : ∀ u ∈ N, keyLt v u → u ∈ pre)
    (hvN : v ∈ N)
    {g2 : OPSLG} (hg2 : GoodGraph g2) (hn2 : g2.nodes = N) :
    g2.edges.countP (cutTD (pre ++ [v])) + g2.edges.countP (outPred v) =
      g2.edges.countP (cutTD pre) + g2.edges.countP (inPred v) := by
  have hvnotpre : v ∉ pre := fun h => keyLt_irrefl v (habove v h)
  have hv2 : v ∈ g2.nodes := by rw [hn2]; exact hvN
  apply countP_balance
  intro e he
  rcases hg2.2 e he with ⟨hf, hs, hk⟩
  rw [hn2] at hf hs
  by_cases hsv : e.second = v
  · have hkv : keyLt e.first v := hsv ▸ hk
    have hfnv : e.first ≠ v := fun h => keyLt_irrefl v (h ▸ hkv)
    have hfnp : e.first ∉ pre := fun h => keyLt_asymm hkv (habove _ h)
    have hA : cutTD (pre ++ [v]) e = true := by
      refine decide_eq_true ⟨List.mem_append.mpr (Or.inr ?_), ?_⟩
      · rw [hsv]
        exact List.mem_singleton.mpr rfl
      · intro hmem
        rcases List.mem_append.mp hmem with h | h
        · exact hfnp h
        · exact hfnv (List.mem_singleton.mp h)
    have hB : cutTD pre e = false :=
      decide_eq_false (fun hc => hvnotpre (hsv ▸ hc.1))
    have hC : outPred v e = false := by
      cases hq : outPred v e
      · rfl
      · exact absurd (outPred_exact hg2 hv2 he hq) hfnv
    have hD : inPred v e = true := inPred_of_second hsv
    rw [hA, hB, hC, hD]
    simp
  · by_cases hfv : e.first = v
    · have hspre : e.second ∈ pre := hcomplete e.second hs (hfv ▸ hk)
      have hA : cutTD (pre ++ [v]) e = false := by
        refine decide_eq_false (fun hc => hc.2 (List.mem_append.mpr (Or.inr ?_)))
        rw [hfv]
        exact List.mem_singleton.mpr rfl
      have hB : cutTD pre e = true :=
        decide_eq_true ⟨hspre, fun h => hvnotpre (hfv ▸ h)⟩
      have hC : outPred v e = true := outPred_of_first hfv
      have hD : inPred v e = false := by
        cases hq : inPred v e
        · rfl
        · exact absurd (inPred_exact hg2 hv2 he hq) hsv
      rw [hA, hB, hC, hD]
      simp
    · have hC : outPred v e = false := by
        cases hq : outPred v e
        · rfl
        · exact absurd (outPred_exact hg2 hv2 he hq) hfv
      have hD : inPred v e = false := by
        cases hq : inPred v e
        · rfl
        · exact absurd (inPred_exact hg2 hv2 he hq) hsv
      have hAB : cutTD (pre ++ [v]) e = cutTD pre e := by
        unfold cutTD
        apply decide_eq_decide.mpr
        constructor
        · rintro ⟨h1, h2⟩
          refine ⟨?_, fun h => h2 (List.mem_append.mpr (Or.inl h))⟩
          rcases List.mem_append.mp h1 with h | h
          · exact h
          · exact absurd (List.mem_singleton.mp h) hsv
        · rintro ⟨h1, h2⟩
          refine ⟨List.mem_append.mpr (Or.inl h1), ?_⟩
          intro h
          rcases List.mem_append.mp h with h | h
          · exact h2 h
          · exact hfv (List.mem_singleton.mp h)
      rw [hAB, hC, hD]

theorem inwardEdges_length (g : OPSLG) (v : Pt) :
    (inwardEdges g v).length = (g.edges.filter (inPred v)).length := by
  unfold inwardEdges
  rw [List.length_map, inwardPairs_length]

theorem outwardEdges_length (g : OPSLG) (v : Pt) :
    (outwardEdges g v).length = (g.edges.filter (outPred v)).length := by
  unfold outwardEdges
  rw [List.length_map, outwardPairs_length]

theorem outwardEdges_mem {g : OPSLG} {v : Pt} {e : OEdge}
    (h : e ∈ outwardEdges g v) : e ∈ g.edges ∧ outPred v e = true := by
  unfold outwardEdges at h
  rcases List.mem_map.mp h with ⟨p, hp, hpe⟩
  rcases p with ⟨i, e2⟩
  rcases outwardPairs_mem hp with ⟨hget, hout⟩
  cases hpe
  exact ⟨List.get?_mem hget, hout⟩

theorem inwardEdges_mem {g : OPSLG} {v : Pt} {e : OEdge}
    (h : e ∈ inwardEdges g v) : e ∈ g.edges ∧ inPred v e = true := by
  unfold inwardEdges at h
  rcases List.mem_map.mp h with ⟨p, hp, hpe⟩
  rcases p with ⟨i, e2⟩
  rcases inwardPairs_mem hp with ⟨hget, hin⟩
  cases hpe
  exact ⟨List.get?_mem hget, hin⟩

/-- On a nonempty swept list with a valid index, `add_regularizing_inward_edge`
does not crash: it adds an edge from the `first` of some swept edge up to the
current node. -/
theorem addRegInward_some (g : OPSLG) (v : Pt) {swept : List OEdge}
    (hne : swept ≠ []) {idx : ℕ} (hidx : idx ≤ swept.length) :
    ∃ u, addRegularizingInwardEdge g v swept idx =
        some (oAddEdge g { first := u, second := v, weight := 0 }) ∧
      ∃ e ∈ swept, e.first = u := by
  have hlen : 0 < swept.length := List.length_pos.mpr hne
  unfold addRegularizingInwardEdge
  dsimp only
  by_cases h0 : idx = 0
  · subst h0
    rw [if_neg (fun h => h rfl), if_pos (by omega : (0 : ℕ) ≠ swept.length)]
    obtain ⟨e0, he0⟩ : ∃ e0, swept.get? 0 = some e0 := ⟨_, List.get?_eq_get hlen⟩
    rw [he0]
    exact ⟨e0.first, rfl, e0, List.get?_mem he0, rfl⟩
  · rw [if_pos h0]
    have h1 : idx - 1 < swept.length := by omega
    obtain ⟨eL, hL⟩ : ∃ eL, swept.get? (idx - 1) = some eL := ⟨_, List.get?_eq_get h1⟩
    rw [hL]
    by_cases h2 : idx = swept.length
    · rw [if_neg (fun h => h h2)]
      exact ⟨eL.first, rfl, eL, List.get?_mem hL, rfl⟩
    · rw [if_pos h2]
      have h3 : idx < swept.length := by omega
      obtain ⟨eR, hR⟩ : ∃ eR, swept.get? idx = some eR := ⟨_, List.get?_eq_get h3⟩
      rw [hR]
      by_cases hcmp : keyLt eL.first eR.first
      · refine ⟨eR.first, ?_, eR, List.get?_mem hR, rfl⟩
        have huml : uppermostLowerNode (some eL) (some eR) = some eR.first := by
          show some (if keyLt eL.first eR.first then eR.first else eL.first) = _
          rw [if_pos hcmp]
        rw [huml]
      · refine ⟨eL.first, ?_, eL, List.get?_mem hL, rfl⟩
        have huml : uppermostLowerNode (some eL) (some eR) = some eL.first := by
          show some (if keyLt eL.first eR.first then eR.first else eL.first) = _
          rw [if_neg hcmp]
        rw [huml]

/-- On a nonempty swept list with a valid index, `add_regularizing_outward_edge`
does not crash: it adds an edge from the current node up to the `second` of
some swept edge. -/
theorem addRegOutward_some (g : OPSLG) (v : Pt) {swept : List OEdge}
    (hne : swept ≠ []) {idx : ℕ} (hidx : idx ≤ swept.length) :
    ∃ u, addRegularizingOutwardEdge g v swept idx =
        some (oAddEdge g { first := v, second := u, weight := 0 }) ∧
      ∃ e ∈ swept, e.second = u := by
  have hlen : 0 < swept.length := List.length_pos.mpr hne
  unfold addRegularizingOutwardEdge
  dsimp only
  by_cases h0 : idx = 0
  · subst h0
    rw [if_neg (fun h => h rfl), if_pos (by omega : (0 : ℕ) ≠ swept.length)]
    obtain ⟨e0, he0⟩ : ∃ e0, swept.get? 0 = some e0 := ⟨_, List.get?_eq_get hlen⟩
    rw [he0]
    exact ⟨e0.second, rfl, e0, List.get?_mem he0, rfl⟩
  · rw [if_pos h0]
    have h1 : idx - 1 < swept.length := by omega
    obtain ⟨eL, hL⟩ : ∃ eL, swept.get? (idx - 1) = some eL := ⟨_, List.get?_eq_get h1⟩
    rw [hL]
    by_cases h2 : idx = swept.length
    · rw [if_neg (fun h => h h2)]
      exact ⟨eL.second, rfl, eL, List.get?_mem hL, rfl⟩
    · rw [if_pos h2]
      have h3 : idx < swept.length := by omega
      obtain ⟨eR, hR⟩ : ∃ eR, swept.get? idx = some eR := ⟨_, List.get?_eq_get h3⟩
      rw [hR]
      by_cases hcmp : keyLt eR.second eL.second
      · refine ⟨eR.second, ?_, eR, List.get?_mem hR, rfl⟩
        have huml : lowermostUpperNode (some eL) (some eR) = some eR.second := by
          show some (if keyLt eR.second eL.second then eR.second else eL.second) = _
          rw [if_pos hcmp]
        rw [huml]
      · refine ⟨eL.second, ?_, eL, List.get?_mem hL, rfl⟩
        have huml : lowermostUpperNode (some eL) (some eR) = some eL.second := by
          show some (if keyLt eR.second eL.second then eR.second else eL.second) = _
          rw [if_neg hcmp]
        rw [huml]

/-- The `regularize_bottom_to_top` loop on a connected graph never crashes
and gives every processed node other than the first an inward edge; the swept
list always dominates the crossing count of the processed prefix. -/
theorem regularizeBUGo_spec (g0 : OPSLG) (hg0 : GoodGraph g0)
    (hconn : ConnectedG g0) (ns : List Pt) (hperm : g0.nodes.Perm ns)
    (hNS : ns.Pairwise keyLt) (mn : Pt) (hhead : ns.head? = some mn) :
    ∀ (rest pre : List Pt) (st : SweepState),
    pre ++ rest = ns →
    GoodGraph st.g →
    st.g.nodes = g0.nodes →
    (∀ e ∈ g0.edges, e ∈ st.g.edges) →
    st.g.edges.countP (cutB pre) ≤ st.swept.length →
    (∀ e ∈ st.swept, e.first ∈ pre) →
    (∀ u ∈ pre, u ≠ mn → st.g.edges.filter (inPred u) ≠ []) →
    ∃ stf, regularizeBUGo st pre.length rest = some stf ∧
      GoodGraph stf.g ∧ stf.g.nodes = g0.nodes ∧
      (∀ e ∈ st.g.edges, e ∈ stf.g.edges) ∧
      (∀ u ∈ ns, u ≠ mn → stf.g.edges.filter (inPred u) ≠ []) := by
  intro rest
  induction rest with
  | nil =>
    intro pre st hsplit hggood hgnodes hsub hcut hswept hinward
    refine ⟨st, rfl, hggood, hgnodes, fun _ he => he, ?_⟩
    intro u hu hne
    rw [← hsplit] at hu
    exact hinward u (by simpa using hu) hne
  | cons v rest2 ih =>
    intro pre st hsplit hggood hgnodes hsub hcut hswept hinward
    have hNS2 : (pre ++ v :: rest2).Pairwise keyLt := by rw [hsplit]; exact hNS
    have hpwe := List.pairwise_append.mp hNS2
    have hbelow : ∀ u ∈ pre, keyLt u v :=
      fun u hu => hpwe.2.2 u hu v (List.mem_cons_self v rest2)
    have habove : ∀ u ∈ rest2, keyLt v u :=
      fun u hu => (List.pairwise_cons.mp hpwe.2.1).1 u hu
    have hvns : v ∈ ns := by
      rw [← hsplit]
      exact List.mem_append.mpr (Or.inr (List.mem_cons_self _ _))
    have hvN : v ∈ g0.nodes := hperm.mem_iff.mpr hvns
    have hvst : v ∈ st.g.nodes := by rw [hgnodes]; exact hvN
    have hvnotpre : v ∉ pre := fun h => keyLt_irrefl v (hbelow v h)
    have hcomplete : ∀ u ∈ g0.nodes, keyLt u v → u ∈ pre := by
      intro u hu hk
      have hu2 : u ∈ pre ++ v :: rest2 := by rw [hsplit]; exact hperm.mem_iff.mp hu
      rcases List.mem_append.mp hu2 with h | h
      · exact h
      · rcases List.mem_cons.mp h with h2 | h2
        · exact absurd (h2 ▸ hk) (keyLt_irrefl v)
        · exact absurd hk (keyLt_asymm (habove u h2))
    have hsweptN : ∀ e ∈ st.swept, e.first ∈ g0.nodes := by
      intro e he
      apply hperm.mem_iff.mpr
      rw [← hsplit]
      exact List.mem_append.mpr (Or.inl (hswept e he))
    -- the step
    by_cases hcond : pre.length ≠ 0 ∧ inwardEdges st.g v = []
    · -- regularizing-edge branch
      have hpre_ne : pre ≠ [] := fun h => hcond.1 (by rw [h]; rfl)
      have hmnpre : mn ∈ pre := by
        cases pre with
        | nil => exact absurd rfl hpre_ne
        | cons p0 pre' =>
          have : (p0 :: pre' ++ v :: rest2).head? = some mn := by rw [hsplit]; exact hhead
          injection this with h2
          exact h2 ▸ List.mem_cons_self p0 pre'
      have hmnN : mn ∈ g0.nodes := by
        apply hperm.mem_iff.mpr
        rw [← hsplit]
        exact List.mem_append.mpr (Or.inl hmnpre)
      -- a crossing edge exists
      have hcross : ∃ e ∈ st.g.edges, cutB pre e = true := by
        rcases rtg_crossing (hconn mn hmnN v hvN) hmnpre hvnotpre with
          ⟨e, he, ⟨h1, h2⟩ | ⟨h1, h2⟩⟩
        · exact ⟨e, hsub e he, decide_eq_true ⟨h1, h2⟩⟩
        · exfalso
          rcases hg0.2 e he with ⟨hf, _, hk⟩
          exact h2 (hcomplete e.first hf (keyLt_trans hk (hbelow _ h1)))
      have hS1 : 0 < st.swept.length := by
        rcases hcross with ⟨e, he, hce⟩
        have h2 : 0 < st.g.edges.countP (cutB pre) :=
          List.countP_pos.mpr ⟨e, he, hce⟩
        omega
      have hswne : st.swept ≠ [] := by
        intro h
        rw [h] at hS1
        simp at hS1
      have hidxeq : outIdxInSwept v st.swept (inwardEdges st.g v) =
          bracketScanIndex v st.swept := by
        rw [hcond.2]
        rfl
      have hidxle : outIdxInSwept v st.swept (inwardEdges st.g v) ≤ st.swept.length := by
        rw [hidxeq]
        exact bracketScanIndex_le v st.swept
      rcases addRegInward_some st.g v hswne hidxle with ⟨u, haddeq, e_u, heu, heufst⟩
      have hupre : u ∈ pre := heufst ▸ hswept e_u heu
      have huN : u ∈ g0.nodes := heufst ▸ hsweptN e_u heu
      have hust : u ∈ st.g.nodes := by rw [hgnodes]; exact huN
      have hkuv : keyLt u v := hbelow u hupre
      have hennotin : ({ first := u, second := v, weight := 0 } : OEdge) ∉ st.g.edges := by
        intro hmem
        have : st.g.edges.filter (inPred v) ≠ [] := by
          intro hnil
          rw [List.filter_eq_nil] at hnil
          exact hnil _ hmem (inPred_of_second rfl)
        exact this ((inwardEdges_eq_nil_iff st.g v).mp hcond.2)
      have hg2edges : (oAddEdge st.g { first := u, second := v, weight := 0 }).edges =
          st.g.edges ++ [{ first := u, second := v, weight := 0 }] :=
        addEdgeSet_of_not_mem hennotin
      have hg2nodes : (oAddEdge st.g { first := u, second := v, weight := 0 }).nodes =
          st.g.nodes := by
        show addNodeSet (addNodeSet st.g.nodes u) v = st.g.nodes
        rw [addNodeSet_of_mem hust, addNodeSet_of_mem hvst]
      have hg2good : GoodGraph (oAddEdge st.g { first := u, second := v, weight := 0 }) := by
        constructor
        · rw [hg2nodes]
          exact hggood.1
        · intro e he
          rw [hg2edges] at he
          rcases List.mem_append.mp he with h | h
          · have h2 := hggood.2 e h
            rw [hg2nodes]
            exact h2
          · have h2 : e = { first := u, second := v, weight := 0 } := by simpa using h
            subst h2
            rw [hg2nodes]
            exact ⟨hust, hvst, hkuv⟩
      have hstep : regularizeBUStep st pre.length v =
          some ⟨oAddEdge st.g { first := u, second := v, weight := 0 },
            spliceSwept st.swept (outIdxInSwept v st.swept (inwardEdges st.g v))
              (inwardEdges st.g v).length (outwardEdges st.g v)⟩ := by
        unfold regularizeBUStep
        dsimp only
        rw [if_pos hcond, haddeq]
      -- invariants for the recursive call
      have hcntin : (oAddEdge st.g { first := u, second := v, weight := 0 }).edges.countP
          (inPred v) = 1 := by
        rw [hg2edges, List.countP_append]
        have h1 : st.g.edges.countP (inPred v) = 0 := by
          rw [List.countP_eq_length_filter, (inwardEdges_eq_nil_iff st.g v).mp hcond.2]
          rfl
        rw [h1, List.countP_cons]
        simp [inPred_of_second]
      have henmem : ({ first := u, second := v, weight := 0 } : OEdge) ∈
          (oAddEdge st.g { first := u, second := v, weight := 0 }).edges := by
        rw [hg2edges]
        exact List.mem_append.mpr (Or.inr (List.mem_singleton.mpr rfl))
      have hcntout : (oAddEdge st.g { first := u, second := v, weight := 0 }).edges.countP
          (outPred v) = st.g.edges.countP (outPred v) := by
        rw [hg2edges, List.countP_append, List.countP_cons]
        have henout : outPred v ({ first := u, second := v, weight := 0 } : OEdge) = false := by
          cases hq : outPred v ({ first := u, second := v, weight := 0 } : OEdge)
          · rfl
          · exfalso
            have h3 := outPred_exact hg2good (by rw [hg2nodes]; exact hvst) henmem hq
            have h4 : u = v := h3
            exact keyLt_irrefl v (h4 ▸ hkuv)
        rw [henout]
        simp
      have hcntpre : (oAddEdge st.g { first := u, second := v, weight := 0 }).edges.countP
          (cutB pre) = st.g.edges.countP (cutB pre) + 1 := by
        rw [hg2edges, List.countP_append, List.countP_cons]
        have : cutB pre { first := u, second := v, weight := 0 } = true :=
          decide_eq_true ⟨hupre, hvnotpre⟩
        rw [this]
        simp
      have hident := cut_step_identity_bu hbelow hcomplete hvN hg2good
        (hg2nodes.trans hgnodes)
      have hsplicelen := spliceSwept_length st.swept
        (outIdxInSwept v st.swept (inwardEdges st.g v))
        (inwardEdges st.g v).length (outwardEdges st.g v)
      have hdel0 : (inwardEdges st.g v).length = 0 := by rw [hcond.2]; rfl
      have hcntoutlen : st.g.edges.countP (outPred v) = (outwardEdges st.g v).length := by
        rw [List.countP_eq_length_filter, outwardEdges_length]
      have hcut2 : (oAddEdge st.g { first := u, second := v, weight := 0 }).edges.countP
          (cutB (pre ++ [v])) ≤
          (spliceSwept st.swept (outIdxInSwept v st.swept (inwardEdges st.g v))
            (inwardEdges st.g v).length (outwardEdges st.g v)).length := by
        omega
      have hswept2 : ∀ e ∈ spliceSwept st.swept
          (outIdxInSwept v st.swept (inwardEdges st.g v))
          (inwardEdges st.g v).length (outwardEdges st.g v),
          e.first ∈ pre ++ [v] := by
        intro e he
        rcases spliceSwept_mem he with h | h
        · exact List.mem_append.mpr (Or.inl (hswept e h))
        · rcases outwardEdges_mem h with ⟨hin, hout⟩
          have : e.first = v := outPred_exact hggood hvst hin hout
          exact List.mem_append.mpr (Or.inr (by rw [this]; exact List.mem_singleton.mpr rfl))
      have hinward2 : ∀ w ∈ pre ++ [v], w ≠ mn →
          (oAddEdge st.g { first := u, second := v, weight := 0 }).edges.filter
            (inPred w) ≠ [] := by
        intro w hw hwmn
        rcases List.mem_append.mp hw with h | h
        · apply filter_ne_nil_of_subset
            (fun e he => by rw [hg2edges]; exact List.mem_append.mpr (Or.inl he))
          exact hinward w h hwmn
        · have hwv : w = v := List.mem_singleton.mp h
          rw [hwv]
          intro hnil
          rw [List.filter_eq_nil] at hnil
          exact hnil { first := u, second := v, weight := 0 } henmem (inPred_of_second rfl)
      rcases ih (pre ++ [v])
          ⟨oAddEdge st.g { first := u, second := v, weight := 0 },
            spliceSwept st.swept (outIdxInSwept v st.swept (inwardEdges st.g v))
              (inwardEdges st.g v).length (outwardEdges st.g v)⟩
          (by rw [List.append_assoc, List.singleton_append]; exact hsplit)
          hg2good (hg2nodes.trans hgnodes)
          (fun e he => by rw [hg2edges]; exact List.mem_append.mpr (Or.inl (hsub e he)))
          hcut2 hswept2 hinward2 with ⟨stf, heqF, hgoodF, hnodesF, hsubF, hinwF⟩
      refine ⟨stf, ?_, hgoodF, hnodesF, ?_, hinwF⟩
      · unfold regularizeBUGo
        rw [hstep]
        dsimp only
        have hlen2 : (pre ++ [v]).length = pre.length + 1 := by simp
        rw [hlen2] at heqF
        exact heqF
      · intro e he
        apply hsubF
        show e ∈ (oAddEdge st.g { first := u, second := v, weight := 0 }).edges
        rw [hg2edges]
        exact List.mem_append.mpr (Or.inl he)
    · -- no-add branch
      have hstep : regularizeBUStep st pre.length v =
          some ⟨st.g,
            spliceSwept st.swept (outIdxInSwept v st.swept (inwardEdges st.g v))
              (inwardEdges st.g v).length (outwardEdges st.g v)⟩ := by
        unfold regularizeBUStep
        dsimp only
        rw [if_neg hcond]
      have hident := cut_step_identity_bu hbelow hcomplete hvN hggood hgnodes
      have hsplicelen := spliceSwept_length st.swept
        (outIdxInSwept v st.swept (inwardEdges st.g v))
        (inwardEdges st.g v).length (outwardEdges st.g v)
      have hcntinlen : st.g.edges.countP (inPred v) = (inwardEdges st.g v).length := by
        rw [List.countP_eq_length_filter, inwardEdges_length]
      have hcntoutlen : st.g.edges.countP (outPred v) = (outwardEdges st.g v).length := by
        rw [List.countP_eq_length_filter, outwardEdges_length]
      have hcut2 : st.g.edges.countP (cutB (pre ++ [v])) ≤
          (spliceSwept st.swept (outIdxInSwept v st.swept (inwardEdges st.g v))
            (inwardEdges st.g v).length (outwardEdges st.g v)).length := by
        omega
      have hswept2 : ∀ e ∈ spliceSwept st.swept
          (outIdxInSwept v st.swept (inwardEdges st.g v))
          (inwardEdges st.g v).length (outwardEdges st.g v),
          e.first ∈ pre ++ [v] := by
        intro e he
        rcases spliceSwept_mem he with h | h
        · exact List.mem_append.mpr (Or.inl (hswept e h))
        · rcases outwardEdges_mem h with ⟨hin, hout⟩
          have : e.first = v := outPred_exact hggood hvst hin hout
          exact List.mem_append.mpr (Or.inr (by rw [this]; exact List.mem_singleton.mpr rfl))
      have hinward2 : ∀ w ∈ pre ++ [v], w ≠ mn →
          st.g.edges.filter (inPred w) ≠ [] := by
        intro w hw hwmn
        rcases List.mem_append.mp hw with h | h
        · exact hinward w h hwmn
        · have hwv : w = v := List.mem_singleton.mp h
          rw [hwv]
          rcases Decidable.not_and_iff_or_not.mp hcond with h2 | h2
          · exfalso
            have hpre_nil : pre = [] := by
              cases pre with
              | nil => rfl
              | cons p0 pre' => exact absurd (by simp) h2
            rw [hpre_nil] at hsplit
            rw [← hsplit] at hhead
            have h4 : (v :: rest2).head? = some mn := by simpa using hhead
            injection h4 with h3
            exact hwmn (hwv.trans h3)
          · intro hnil
            exact h2 ((inwardEdges_eq_nil_iff st.g v).mpr hnil)
      rcases ih (pre ++ [v])
          ⟨st.g, spliceSwept st.swept (outIdxInSwept v st.swept (inwardEdges st.g v))
              (inwardEdges st.g v).length (outwardEdges st.g v)⟩
          (by rw [List.append_assoc, List.singleton_append]; exact hsplit)
          hggood hgnodes hsub hcut2 hswept2 hinward2 with
        ⟨stf, heqF, hgoodF, hnodesF, hsubF, hinwF⟩
      refine ⟨stf, ?_, hgoodF, hnodesF, hsubF, hinwF⟩
      unfold regularizeBUGo
      rw [hstep]
      dsimp only
      have hlen2 : (pre ++ [v]).length = pre.length + 1 := by simp
      rw [hlen2] at heqF
      exact heqF

/-- The `regularize_top_to_bottom` loop on a connected graph never crashes
and gives every processed node other than the first (the global maximum) an
outward edge. -/
theorem regularizeTDGo_spec (g0 : OPSLG) (hg0 : GoodGraph g0)
    (hconn : ConnectedG g0) (ms : List Pt) (hperm : g0.nodes.Perm ms)
    (hMS : ms.Pairwise (fun a b => keyLt b a)) (mx : Pt)
    (hhead : ms.head? = some mx) :
    ∀ (rest pre : List Pt) (st : SweepState),
    pre ++ rest = ms →
    GoodGraph st.g →
    st.g.nodes = g0.nodes →
    (∀ e ∈ g0.edges, e ∈ st.g.edges) →
    st.g.edges.countP (cutTD pre) ≤ st.swept.length →
    (∀ e ∈ st.swept, e.second ∈ pre) →
    (∀ u ∈ pre, u ≠ mx → st.g.edges.filter (outPred u) ≠ []) →
    ∃ stf, regularizeTDGo st pre.length rest = some stf ∧
      GoodGraph stf.g ∧ stf.g.nodes = g0.nodes ∧
      (∀ e ∈ st.g.edges, e ∈ stf.g.edges) ∧
      (∀ u ∈ ms, u ≠ mx → stf.g.edges.filter (outPred u) ≠ []) := by
  intro rest
  induction rest with
  | nil =>
    intro pre st hsplit hggood hgnodes hsub hcut hswept houtward
    refine ⟨st, rfl, hggood, hgnodes, fun _ he => he, ?_⟩
    intro u hu hne
    rw [← hsplit] at hu
    exact houtward u (by simpa using hu) hne
  | cons v rest2 ih =>
    intro pre st hsplit hggood hgnodes hsub hcut hswept houtward
    have hMS2 : (pre ++ v :: rest2).Pairwise (fun a b => keyLt b a) := by
      rw [hsplit]; exact hMS
    have hpwe := List.pairwise_append.mp hMS2
    have habove : ∀ u ∈ pre, keyLt v u :=
      fun u hu => hpwe.2.2 u hu v (List.mem_cons_self v rest2)
    have hbelow2 : ∀ u ∈ rest2, keyLt u v :=
      fun u hu => (List.pairwise_cons.mp hpwe.2.1).1 u hu
    have hvms : v ∈ ms := by
      rw [← hsplit]
      exact List.mem_append.mpr (Or.inr (List.mem_cons_self _ _))
    have hvN : v ∈ g0.nodes := hperm.mem_iff.mpr hvms
    have hvst : v ∈ st.g.nodes := by rw [hgnodes]; exact hvN
    have hvnotpre : v ∉ pre := fun h => keyLt_irrefl v (habove v h)
    have hcomplete : ∀ u ∈ g0.nodes, keyLt v u → u ∈ pre := by
      intro u hu hk
      have hu2 : u ∈ pre ++ v :: rest2 := by rw [hsplit]; exact hperm.mem_iff.mp hu
      rcases List.mem_append.mp hu2 with h | h
      · exact h
      · rcases List.mem_cons.mp h with h2 | h2
        · exact absurd (h2 ▸ hk) (keyLt_irrefl v)
        · exact absurd hk (keyLt_asymm (hbelow2 u h2))
    have hsweptN : ∀ e ∈ st.swept, e.second ∈ g0.nodes := by
      intro e he
      apply hperm.mem_iff.mpr
      rw [← hsplit]
      exact List.mem_append.mpr (Or.inl (hswept e he))
    by_cases hcond : pre.length ≠ 0 ∧ outwardEdges st.g v = []
    · -- regularizing-edge branch
      have hpre_ne : pre ≠ [] := fun h => hcond.1 (by rw [h]; rfl)
      have hmxpre : mx ∈ pre := by
        cases pre with
        | nil => exact absurd rfl hpre_ne
        | cons p0 pre' =>
          have h4 : (p0 :: pre' ++ v :: rest2).head? = some mx := by
            rw [hsplit]; exact hhead
          injection h4 with h2
          exact h2 ▸ List.mem_cons_self p0 pre'
      have hmxN : mx ∈ g0.nodes := by
        apply hperm.mem_iff.mpr
        rw [← hsplit]
        exact List.mem_append.mpr (Or.inl hmxpre)
      have hcross : ∃ e ∈ st.g.edges, cutTD pre e = true := by
        rcases rtg_crossing (hconn mx hmxN v hvN) hmxpre hvnotpre with
          ⟨e, he, ⟨h1, h2⟩ | ⟨h1, h2⟩⟩
        · exfalso
          rcases hg0.2 e he with ⟨_, hs, hk⟩
          exact h2 (hcomplete e.second hs (keyLt_trans (habove _ h1) hk))
        · exact ⟨e, hsub e he, decide_eq_true ⟨h1, h2⟩⟩
      have hS1 : 0 < st.swept.length := by
        rcases hcross with ⟨e, he, hce⟩
        have h2 : 0 < st.g.edges.countP (cutTD pre) :=
          List.countP_pos.mpr ⟨e, he, hce⟩
        omega
      have hswne : st.swept ≠ [] := by
        intro h
        rw [h] at hS1
        simp at hS1
      have hidxle : outIdxInSwept v st.swept (outwardEdges st.g v) ≤ st.swept.length := by
        rw [hcond.2]
        exact bracketScanIndex_le v st.swept
      rcases addRegOutward_some st.g v hswne hidxle with ⟨u, haddeq, e_u, heu, heusnd⟩
      have hupre : u ∈ pre := heusnd ▸ hswept e_u heu
      have huN : u ∈ g0.nodes := heusnd ▸ hsweptN e_u heu
      have hust : u ∈ st.g.nodes := by rw [hgnodes]; exact huN
      have hkvu : keyLt v u := habove u hupre
      have hennotin : ({ first := v, second := u, weight := 0 } : OEdge) ∉ st.g.edges := by
        intro hmem
        have h3 : st.g.edges.filter (outPred v) ≠ [] := by
          intro hnil
          rw [List.filter_eq_nil] at hnil
          exact hnil _ hmem (outPred_of_first rfl)
        exact h3 ((outwardEdges_eq_nil_iff st.g v).mp hcond.2)
      have hg2edges : (oAddEdge st.g { first := v, second := u, weight := 0 }).edges =
          st.g.edges ++ [{ first := v, second := u, weight := 0 }] :=
        addEdgeSet_of_not_mem hennotin
      have hg2nodes : (oAddEdge st.g { first := v, second := u, weight := 0 }).nodes =
          st.g.nodes := by
        show addNodeSet (addNodeSet st.g.nodes v) u = st.g.nodes
        rw [addNodeSet_of_mem hvst, addNodeSet_of_mem hust]
      have hg2good : GoodGraph (oAddEdge st.g { first := v, second := u, weight := 0 }) := by
        constructor
        · rw [hg2nodes]
          exact hggood.1
        · intro e he
          rw [hg2edges] at he
          rcases List.mem_append.mp he with h | h
          · have h2 := hggood.2 e h
            rw [hg2nodes]
            exact h2
          · have h2 : e = { first := v, second := u, weight := 0 } := by simpa using h
            subst h2
            rw [hg2nodes]
            exact ⟨hvst, hust, hkvu⟩
      have hstep : regularizeTDStep st pre.length v =
          some ⟨oAddEdge st.g { first := v, second := u, weight := 0 },
            spliceSwept st.swept (outIdxInSwept v st.swept (outwardEdges st.g v))
              (outwardEdges st.g v).length (inwardEdges st.g v)⟩ := by
        unfold regularizeTDStep
        dsimp only
        rw [if_pos hcond, haddeq]
      have henmem : ({ first := v, second := u, weight := 0 } : OEdge) ∈
          (oAddEdge st.g { first := v, second := u, weight := 0 }).edges := by
        rw [hg2edges]
        exact List.mem_append.mpr (Or.inr (List.mem_singleton.mpr rfl))
      have hcntout2 : (oAddEdge st.g { first := v, second := u, weight := 0 }).edges.countP
          (outPred v) = 1 := by
        rw [hg2edges, List.countP_append]
        have h1 : st.g.edges.countP (outPred v) = 0 := by
          rw [List.countP_eq_length_filter, (outwardEdges_eq_nil_iff st.g v).mp hcond.2]
          rfl
        rw [h1, List.countP_cons]
        simp [outPred_of_first]
      have hcntin2 : (oAddEdge st.g { first := v, second := u, weight := 0 }).edges.countP
          (inPred v) = st.g.edges.countP (inPred v) := by
        rw [hg2edges, List.countP_append, List.countP_cons]
        have henin : inPred v ({ first := v, second := u, weight := 0 } : OEdge) = false := by
          cases hq : inPred v ({ first := v, second := u, weight := 0 } : OEdge)
          · rfl
          · exfalso
            have h3 := inPred_exact hg2good (by rw [hg2nodes]; exact hvst) henmem hq
            have h4 : u = v := h3
            exact keyLt_irrefl v (h4 ▸ hkvu)
        rw [henin]
        simp
      have hcntpre : (oAddEdge st.g { first := v, second := u, weight := 0 }).edges.countP
          (cutTD pre) = st.g.edges.countP (cutTD pre) + 1 := by
        rw [hg2edges, List.countP_append, List.countP_cons]
        have h3 : cutTD pre { first := v, second := u, weight := 0 } = true :=
          decide_eq_true ⟨hupre, hvnotpre⟩
        rw [h3]
        simp
      have hident := cut_step_identity_td habove hcomplete hvN hg2good
        (hg2nodes.trans hgnodes)
      have hsplicelen := spliceSwept_length st.swept
        (outIdxInSwept v st.swept (outwardEdges st.g v))
        (outwardEdges st.g v).length (inwardEdges st.g v)
      have hdel0 : (outwardEdges st.g v).length = 0 := by rw [hcond.2]; rfl
      have hcntinlen : st.g.edges.countP (inPred v) = (inwardEdges st.g v).length := by
        rw [List.countP_eq_length_filter, inwardEdges_length]
      have hcut2 : (oAddEdge st.g { first := v, second := u, weight := 0 }).edges.countP
          (cutTD (pre ++ [v])) ≤
          (spliceSwept st.swept (outIdxInSwept v st.swept (outwardEdges st.g v))
            (outwardEdges st.g v).length (inwardEdges st.g v)).length := by
        omega
      have hswept2 : ∀ e ∈ spliceSwept st.swept
          (outIdxInSwept v st.swept (outwardEdges st.g v))
          (outwardEdges st.g v).length (inwardEdges st.g v),
          e.second ∈ pre ++ [v] := by
        intro e he
        rcases spliceSwept_mem he with h | h
        · exact List.mem_append.mpr (Or.inl (hswept e h))
        · rcases inwardEdges_mem h with ⟨hin, hinp⟩
          have h3 : e.second = v := inPred_exact hggood hvst hin hinp
          exact List.mem_append.mpr (Or.inr (by rw [h3]; exact List.mem_singleton.mpr rfl))
      have houtward2 : ∀ w ∈ pre ++ [v], w ≠ mx →
          (oAddEdge st.g { first := v, second := u, weight := 0 }).edges.filter
            (outPred w) ≠ [] := by
        intro w hw hwmx
        rcases List.mem_append.mp hw with h | h
        · apply filter_ne_nil_of_subset
            (fun e he => by rw [hg2edges]; exact List.mem_append.mpr (Or.inl he))
          exact houtward w h hwmx
        · have hwv : w = v := List.mem_singleton.mp h
          rw [hwv]
          intro hnil
          rw [List.filter_eq_nil] at hnil
          exact hnil { first := v, second := u, weight := 0 } henmem (outPred_of_first rfl)
      rcases ih (pre ++ [v])
          ⟨oAddEdge st.g { first := v, second := u, weight := 0 },
            spliceSwept st.swept (outIdxInSwept v st.swept (outwardEdges st.g v))
              (outwardEdges st.g v).length (inwardEdges st.g v)⟩
          (by rw [List.append_assoc, List.singleton_append]; exact hsplit)
          hg2good (hg2nodes.trans hgnodes)
          (fun e he => by rw [hg2edges]; exact List.mem_append.mpr (Or.inl (hsub e he)))
          hcut2 hswept2 houtward2 with ⟨stf, heqF, hgoodF, hnodesF, hsubF, houtF⟩
      refine ⟨stf, ?_, hgoodF, hnodesF, ?_, houtF⟩
      · unfold regularizeTDGo
        rw [hstep]
        dsimp only
        have hlen2 : (pre ++ [v]).length = pre.length + 1 := by simp
        rw [hlen2] at heqF
        exact heqF
      · intro e he
        apply hsubF
        show e ∈ (oAddEdge st.g { first := v, second := u, weight := 0 }).edges
        rw [hg2edges]
        exact List.mem_append.mpr (Or.inl he)
    · -- no-add branch
      have hstep : regularizeTDStep st pre.length v =
          some ⟨st.g,
            spliceSwept st.swept (outIdxInSwept v st.swept (outwardEdges st.g v))
              (outwardEdges st.g v).length (inwardEdges st.g v)⟩ := by
        unfold regularizeTDStep
        dsimp only
        rw [if_neg hcond]
      have hident := cut_step_identity_td habove hcomplete hvN hggood hgnodes
      have hsplicelen := spliceSwept_length st.swept
        (outIdxInSwept v st.swept (outwardEdges st.g v))
        (outwardEdges st.g v).length (inwardEdges st.g v)
      have hcntinlen : st.g.edges.countP (inPred v) = (inwardEdges st.g v).length := by
        rw [List.countP_eq_length_filter, inwardEdges_length]
      have hcntoutlen : st.g.edges.countP (outPred v) = (outwardEdges st.g v).length := by
        rw [List.countP_eq_length_filter, outwardEdges_length]
      have hcut2 : st.g.edges.countP (cutTD (pre ++ [v])) ≤
          (spliceSwept st.swept (outIdxInSwept v st.swept (outwardEdges st.g v))
            (outwardEdges st.g v).length (inwardEdges st.g v)).length := by
        omega
      have hswept2 : ∀ e ∈ spliceSwept st.swept
          (outIdxInSwept v st.swept (outwardEdges st.g v))
          (outwardEdges st.g v).length (inwardEdges st.g v),
          e.second ∈ pre ++ [v] := by
        intro e he
        rcases spliceSwept_mem he with h | h
        · exact List.mem_append.mpr (Or.inl (hswept e h))
        · rcases inwardEdges_mem h with ⟨hin, hinp⟩
          have h3 : e.second = v := inPred_exact hggood hvst hin hinp
          exact List.mem_append.mpr (Or.inr (by rw [h3]; exact List.mem_singleton.mpr rfl))
      have houtward2 : ∀ w ∈ pre ++ [v], w ≠ mx →
          st.g.edges.filter (outPred w) ≠ [] := by
        intro w hw hwmx
        rcases List.mem_append.mp hw with h | h
        · exact houtward w h hwmx
        · have hwv : w = v := List.mem_singleton.mp h
          rw [hwv]
          rcases Decidable.not_and_iff_or_not.mp hcond with h2 | h2
          · exfalso
            have hpre_nil : pre = [] := by
              cases pre with
              | nil => rfl
              | cons p0 pre' => exact absurd (by simp) h2
            rw [hpre_nil] at hsplit
            rw [← hsplit] at hhead
            have h4 : (v :: rest2).head? = some mx := by simpa using hhead
            injection h4 with h3
            exact hwmx (hwv.trans h3)
          · intro hnil
            exact h2 ((outwardEdges_eq_nil_iff st.g v).mpr hnil)
      rcases ih (pre ++ [v])
          ⟨st.g, spliceSwept st.swept (outIdxInSwept v st.swept (outwardEdges st.g v))
              (outwardEdges st.g v).length (inwardEdges st.g v)⟩
          (by rw [List.append_assoc, List.singleton_append]; exact hsplit)
          hggood hgnodes hsub hcut2 hswept2 houtward2 with
        ⟨stf, heqF, hgoodF, hnodesF, hsubF, houtF⟩
      refine ⟨stf, ?_, hgoodF, hnodesF, hsubF, houtF⟩
      unfold regularizeTDGo
      rw [hstep]
      dsimp only
      have hlen2 : (pre ++ [v]).length = pre.length + 1 := by simp
      rw [hlen2] at heqF
      exact heqF

/-- **C2.** For every valid non-empty oriented PSLG — tolerance-separated
nodes, every edge a strictly `(y, x)`-upward link between two nodes (the
orientation `from_planar_straight_line_graph` produces), underlying graph
connected — `regularize` terminates without raising and the result satisfies
`is_regular`: every node except the global `(y, x)`-minimum has an inward
edge and every node except the global `(y, x)`-maximum has an outward edge. -/
theorem regularize_is_regular (g : OPSLG) (hg : GoodGraph g)
    (hconn : ConnectedG g) (hne : g.nodes ≠ []) :
    ∃ g2, regularize g = some g2 ∧ isRegularOpt g2 = some true := by
  obtain ⟨mn, hmn⟩ : ∃ mn, minNodeKey g.nodes = some mn := by
    cases hN : g.nodes with
    | nil => exact absurd hN hne
    | cons a l => exact ⟨_, rfl⟩
  obtain ⟨mx, hmx⟩ : ∃ mx, maxNodeKey g.nodes = some mx := by
    cases hN : g.nodes with
    | nil => exact absurd hN hne
    | cons a l => exact ⟨_, rfl⟩
  obtain ⟨rest0, hs⟩ := sortStable_head_eq_min hg.1 hmn
  have hheadns : (sortStable keyLt g.nodes).head? = some mn := by rw [hs]; rfl
  have hlast : (sortStable keyLt g.nodes).getLast? = some mx :=
    sortStable_getLast_eq_max hg.1 hmx
  have hheadR : (sortStable keyLt g.nodes).reverse.head? = some mx := by
    rw [List.head?_reverse]
    exact hlast
  have hperm : g.nodes.Perm (sortStable keyLt g.nodes) :=
    (sortStable_perm keyLt g.nodes).symm
  have hNSlt : (sortStable keyLt g.nodes).Pairwise keyLt :=
    sortStable_pairwise_strict hg.1
  have hMS : (sortStable keyLt g.nodes).reverse.Pairwise (fun a b => keyLt b a) := by
    rw [List.pairwise_reverse]
    exact hNSlt
  have hpermR : g.nodes.Perm (sortStable keyLt g.nodes).reverse :=
    hperm.trans (List.reverse_perm (sortStable keyLt g.nodes)).symm
  have hcut0 : g.edges.countP (cutB []) = 0 := by
    rw [List.countP_eq_zero]
    intro e _ hc
    exact absurd (of_decide_eq_true hc).1 (List.not_mem_nil _)
  rcases regularizeBUGo_spec g hg hconn (sortStable keyLt g.nodes) hperm hNSlt mn
      hheadns (sortStable keyLt g.nodes) [] ⟨g, []⟩ rfl hg rfl (fun _ he => he)
      (by rw [hcut0]; exact Nat.zero_le _) (fun e he => absurd he (List.not_mem_nil e))
      (fun u hu => absurd hu (List.not_mem_nil u)) with
    ⟨st1, heq1, hgood1, hnodes1, hsub1, hinw1⟩
  have hcut0td : st1.g.edges.countP (cutTD []) = 0 := by
    rw [List.countP_eq_zero]
    intro e _ hc
    exact absurd (of_decide_eq_true hc).1 (List.not_mem_nil _)
  rcases regularizeTDGo_spec g hg hconn (sortStable keyLt g.nodes).reverse hpermR hMS mx
      hheadR (sortStable keyLt g.nodes).reverse [] ⟨st1.g, []⟩ rfl hgood1 hnodes1
      hsub1 (by rw [hcut0td]; exact Nat.zero_le _)
      (fun e he => absurd he (List.not_mem_nil e))
      (fun u hu => absurd hu (List.not_mem_nil u)) with
    ⟨st2, heq2, hgood2, hnodes2, hsub2, hout2⟩
  refine ⟨st2.g, ?_, ?_⟩
  · unfold regularize
    dsimp only
    have hbu : regularizeBottomToTop g (sortStable keyLt g.nodes) = some st1.g := by
      unfold regularizeBottomToTop
      rw [show (([] : List Pt)).length = 0 from rfl] at heq1
      rw [heq1]
      rfl
    rw [hbu]
    dsimp only
    unfold regularizeTopToBottom
    rw [show (([] : List Pt)).length = 0 from rfl] at heq2
    rw [heq2]
    rfl
  · unfold isRegularOpt
    rw [hnodes2, hmn, hmx]
    dsimp only
    apply congrArg
    apply List.all_eq_true.mpr
    intro v hv
    rw [Bool.and_eq_true, Bool.or_eq_true, Bool.or_eq_true]
    constructor
    · by_cases hvmn : v = mn
      · exact Or.inl (decide_eq_true hvmn)
      · right
        have hfilter : st2.g.edges.filter (inPred v) ≠ [] := by
          apply filter_ne_nil_of_subset hsub2
          exact hinw1 v (hperm.mem_iff.mp hv) hvmn
        have hnil : inwardEdges st2.g v ≠ [] :=
          fun h => hfilter ((inwardEdges_eq_nil_iff st2.g v).mp h)
        cases hq : (inwardEdges st2.g v).isEmpty
        · rfl
        · exact absurd (List.isEmpty_iff.mp hq) hnil
    · by_cases hvmx : v = mx
      · exact Or.inl (decide_eq_true hvmx)
      · right
        have hfilter : st2.g.edges.filter (outPred v) ≠ [] :=
          hout2 v (List.mem_reverse.mpr (hperm.mem_iff.mp hv)) hvmx
        have hnil : outwardEdges st2.g v ≠ [] :=
          fun h => hfilter ((outwardEdges_eq_nil_iff st2.g v).mp h)
        cases hq : (outwardEdges st2.g v).isEmpty
        · rfl
        · exact absurd (List.isEmpty_iff.mp hq) hnil

theorem pathG_connected : ConnectedG pathG := by
  have he1 : ({ first := ⟨0, 0⟩, second := ⟨0, 1⟩, weight := 1 } : OEdge) ∈ pathG.edges :=
    List.mem_cons_self _ _
  have he2 : ({ first := ⟨0, 1⟩, second := ⟨0, 2⟩, weight := 1 } : OEdge) ∈ pathG.edges :=
    List.mem_cons_of_mem _ (List.mem_cons_self _ _)
  have hab : adjP pathG ⟨0, 0⟩ ⟨0, 1⟩ := ⟨_, he1, Or.inl ⟨rfl, rfl⟩⟩
  have hba : adjP pathG ⟨0, 1⟩ ⟨0, 0⟩ := ⟨_, he1, Or.inr ⟨rfl, rfl⟩⟩
  have hbc : adjP pathG ⟨0, 1⟩ ⟨0, 2⟩ := ⟨_, he2, Or.inl ⟨rfl, rfl⟩⟩
  have hcb : adjP pathG ⟨0, 2⟩ ⟨0, 1⟩ := ⟨_, he2, Or.inr ⟨rfl, rfl⟩⟩
  intro a ha b hb
  fin_cases ha <;> fin_cases hb
  · exact Relation.ReflTransGen.refl
  · exact Relation.ReflTransGen.single hab
  · exact Relation.ReflTransGen.tail (Relation.ReflTransGen.single hab) hbc
  · exact Relation.ReflTransGen.single hba
  · exact Relation.ReflTransGen.refl
  · exact Relation.ReflTransGen.single hbc
  · exact Relation.ReflTransGen.tail (Relation.ReflTransGen.single hcb) hba
  · exact Relation.ReflTransGen.single hcb
  · exact Relation.ReflTransGen.refl

/-- Witness for `regularize_is_regular`: the three-node path graph is
connected and nonempty, and regularization on it succeeds regularly. -/
theorem regularize_is_regular_witness :
    (GoodGraph pathG ∧ ConnectedG pathG ∧ pathG.nodes ≠ []) ∧
    (∃ g2, regularize pathG = some g2 ∧ isRegularOpt g2 = some true) :=
  ⟨⟨pathG_good, pathG_connected, by with_unfolding_all decide⟩,
   regularize_is_regular pathG pathG_good pathG_connected
    (by with_unfolding_all decide)⟩

end AlgoGears
